import Mathlib

/-!
# JSONInputGuard: the structural scanner `GuardPredictRaw`

A shallow embedding of `internal/guard/fast_validate.go` and of the entry point
`DecodeValidateJSON` of `internal/guard/json_guard.go`.

* A buffer `[]byte` is a `List Nat` (one number per byte; every theorem holds for
  arbitrary numbers, in particular for those below 256).
* The scan cursor `i` is a `Nat` index into the buffer; `byteAt buf i` is `buf[i]`.
  Every read of the source is guarded by `i < len(buf)`, and so is every read here.
* Go's `error` is `Except String Unit`: `.ok ()` is `nil`, `.error m` is `errors.New(m)`.
* A `for` loop is a recursion on a fuel counter that is started at `len(buf)`.
  Every iteration moves the cursor forward, so the fuel never runs out before the
  loop condition `i < len(buf)` fails (`mainLoop_fuel_irrelevant` and friends).
* `int64` arithmetic is `Int` arithmetic followed by `wrapInt64`.
* The checked run (`GuardPredictRawC`, `countArrayItemsAndEndC` and their loops) is the
  same code with the checks of the run time written out: a read outside the buffer, a
  cursor that does not move forward or leaves the buffer, and a loop that outlasts its
  fuel each stop the run with a `Fault`.
-/



namespace JSONInputGuard

deriving instance DecidableEq for Except

/-! ## Bytes -/

/-- Byte `' '`. -/
def SPACE : Nat := 32
/-- Byte `'\n'`. -/
def NEWLINE : Nat := 10
/-- Byte `'\r'`. -/
def CR : Nat := 13
/-- Byte `'\t'`. -/
def TAB : Nat := 9
/-- Byte `','`. -/
def COMMA : Nat := 44
/-- Byte `'"'`. -/
def QUOTE : Nat := 34
/-- Byte `'\\'`. -/
def BACKSLASH : Nat := 92
/-- Byte `':'`. -/
def COLON : Nat := 58
/-- Byte `'{'`. -/
def LBRACE : Nat := 123
/-- Byte `'}'`. -/
def RBRACE : Nat := 125
/-- Byte `'['`. -/
def LBRACKET : Nat := 91
/-- Byte `']'`. -/
def RBRACKET : Nat := 93
/-- Byte `'-'`. -/
def MINUS : Nat := 45
/-- Byte `'0'`. -/
def ZERO : Nat := 48
/-- Byte `'9'`. -/
def NINE : Nat := 57

/-- The bytes of a string constant, `[]byte("...")`. -/
def bytesOf (s : String) : List Nat := s.toList.map Char.toNat

/-- The read `buf[i]`. -/
def byteAt (buf : List Nat) (i : Nat) : Nat := buf.getD i 0

/-- The test `c == ' ' || c == '\n' || c == '\r' || c == '\t'`. -/
def isSpace (c : Nat) : Bool := c == SPACE || c == NEWLINE || c == CR || c == TAB

/-- The test of the pair loop's separator skip: white space or `','`. -/
def isSpaceOrComma (c : Nat) : Bool := isSpace c || c == COMMA

/-- The test `c >= '0' && c <= '9'`. -/
def isDigit (c : Nat) : Bool := decide (ZERO ≤ c) && decide (c ≤ NINE)

/-- Two's complement wrap-around of `int64` arithmetic. -/
def wrapInt64 (x : Int) : Int := (x + 2 ^ 63) % 2 ^ 64 - 2 ^ 63

/-! ## The inner loops -/

/-- A loop of the form `for i < len(buf) && p(buf[i]) { i++ }`; returns `i`. -/
def advanceWhile (p : Nat → Bool) (buf : List Nat) : Nat → Nat → Nat
  | 0, i => i
  | fuel + 1, i =>
    if i < buf.length && p (byteAt buf i) then advanceWhile p buf fuel (i + 1) else i

/-- The loop `for i < len(buf) && (buf[i] == ' ' || ... || buf[i] == '\t') { i++ }`. -/
def skipSpaces (buf : List Nat) (fuel i : Nat) : Nat := advanceWhile isSpace buf fuel i

/-- The loop at the head of the pair loop, which skips white space and commas. -/
def skipSpacesCommas (buf : List Nat) (fuel i : Nat) : Nat :=
  advanceWhile isSpaceOrComma buf fuel i

/-- The string loop of a key and of the `user_id` and `session_id` values:
it stops (`break`) ON the closing quote, or at `len(buf)` when there is none.
```
for i < len(buf) {
    c := buf[i]
    if c == '"' && !escaped { break }
    if c == '\\' && !escaped { escaped = true } else { escaped = false }
    i++
}
``` -/
def scanString (buf : List Nat) : Nat → Nat → Bool → Nat
  | 0, i, _ => i
  | fuel + 1, i, escaped =>
    if i < buf.length then
      let c := byteAt buf i
      if c == QUOTE && !escaped then i
      else scanString buf fuel (i + 1) (c == BACKSLASH && !escaped)
    else i

/-- The string loop of the value skipper: it stops one PAST the closing quote
(`i++; break`), or at `len(buf)` when there is none. -/
def skipString (buf : List Nat) : Nat → Nat → Bool → Nat
  | 0, i, _ => i
  | fuel + 1, i, escaped =>
    if i < buf.length then
      let c := byteAt buf i
      if c == QUOTE && !escaped then i + 1
      else skipString buf fuel (i + 1) (c == BACKSLASH && !escaped)
    else i

/-- The object skipper `for i < len(buf) && depth > 0 { ... }` of the default case. -/
def skipObject (buf : List Nat) : Nat → Nat → Int → Nat
  | 0, i, _ => i
  | fuel + 1, i, depth =>
    if i < buf.length && decide (depth > 0) then
      let c := byteAt buf i
      if c == QUOTE then
        skipObject buf fuel (skipString buf buf.length (i + 1) false) depth
      else
        let depth1 := if c == LBRACE then depth + 1 else depth
        let depth2 := if c == RBRACE then depth1 - 1 else depth1
        skipObject buf fuel (i + 1) depth2
    else i

/-- The loop condition of the scalar skipper:
`buf[i] != ',' && buf[i] != '}' && buf[i] != '\n' && buf[i] != '\r' && buf[i] != '\t' && buf[i] != ' '`. -/
def isScalarByte (c : Nat) : Bool :=
  c != COMMA && c != RBRACE && c != NEWLINE && c != CR && c != TAB && c != SPACE

/-- The scalar skipper (number, `true`, `false`, `null`) of the default case:
it runs up to `','`, `'}'` or white space. -/
def skipScalar (buf : List Nat) (fuel i : Nat) : Nat := advanceWhile isScalarByte buf fuel i

/-- The digit loop of `timestamp`:
`for i < len(buf) && buf[i] >= '0' && buf[i] <= '9' { n = n*10 + int64(buf[i]-'0'); i++ }`;
returns `(i, n)`. -/
def parseDigits (buf : List Nat) : Nat → Nat → Int → Nat × Int
  | 0, i, n => (i, n)
  | fuel + 1, i, n =>
    if i < buf.length && isDigit (byteAt buf i) then
      parseDigits buf fuel (i + 1) (wrapInt64 (n * 10 + ((byteAt buf i - ZERO : Nat) : Int)))
    else (i, n)

/-! ## countArrayItemsAndEnd -/

/-- The main loop of `countArrayItemsAndEnd`; returns `(count, end, ok)`. -/
def countLoop (buf : List Nat) : Nat → Nat → Nat → Bool → Bool → Int → Nat × Nat × Bool
  | 0, i, _, _, _, _ => (0, i, false)
  | fuel + 1, i, count, inString, escaped, depth =>
    if i < buf.length then
      let c := byteAt buf i
      if inString then
        countLoop buf fuel (i + 1) count (if c == QUOTE && !escaped then false else true)
          (c == BACKSLASH && !escaped) depth
      else if c == QUOTE then countLoop buf fuel (i + 1) count true escaped depth
      else if c == LBRACKET then (0, i, false)
      else if c == RBRACKET then
        if depth - 1 == 0 then (count, i + 1, true)
        else countLoop buf fuel (i + 1) count false escaped (depth - 1)
      else if c == COMMA then countLoop buf fuel (i + 1) (count + 1) false escaped depth
      else countLoop buf fuel (i + 1) count false escaped depth
    else (0, i, false)

/-- The function `countArrayItemsAndEnd(buf, start) (int, int, bool)`.
Both callers pass a `start` with `buf[start] == '['`. -/
def countArrayItemsAndEnd (buf : List Nat) (start : Nat) : Nat × Nat × Bool :=
  if byteAt buf start != LBRACKET then (0, start, false)
  else
    let i := skipSpaces buf buf.length (start + 1)
    if i < buf.length && byteAt buf i == RBRACKET then (0, i + 1, true)
    else countLoop buf buf.length i 1 false false 1

/-! ## GuardPredictRaw -/

/-- The local variables of `GuardPredictRaw` that outlive one pair. -/
structure ScanState where
  haveUser : Bool
  haveSess : Bool
  haveTS : Bool
  haveFeat : Bool
  userLen : Nat
  sessLen : Nat
  tsOK : Bool
  featCount : Nat
deriving DecidableEq, Repr

/-- The zero values of the `var` declarations. -/
def ScanState.init : ScanState :=
  ⟨false, false, false, false, 0, 0, false, 0⟩

/-- The key `user_id`. -/
def keyUserId : List Nat := bytesOf "user_id"
/-- The key `session_id`. -/
def keySessionId : List Nat := bytesOf "session_id"
/-- The key `timestamp`. -/
def keyTimestamp : List Nat := bytesOf "timestamp"
/-- The key `features`. -/
def keyFeatures : List Nat := bytesOf "features"

/-- What the head of one pair-loop iteration finds. -/
inductive KeyResult where
  /-- The iteration leaves the loop (`break`) with the cursor at `i`. -/
  | stop (i : Nat)
  /-- The iteration returns the error `msg`. -/
  | fail (msg : String)
  /-- The key `buf[keyStart:i]` was read and the cursor is on the first byte of its value. -/
  | key (k : List Nat) (i : Nat)

/-- What one pair-loop iteration does. -/
inductive Step where
  /-- It leaves the loop (`break`). -/
  | stop (i : Nat) (st : ScanState)
  /-- It returns the error `msg`. -/
  | fail (msg : String)
  /-- It goes on with the next iteration. -/
  | next (i : Nat) (st : ScanState)

/-- Lines 129-173: separators, `'}'`, the key string, the colon, and the first byte of
the value. -/
def parseKey (buf : List Nat) (i0 : Nat) : KeyResult :=
  let i := skipSpacesCommas buf buf.length i0
  if i ≥ buf.length then .stop i
  else if byteAt buf i == RBRACE then .stop (i + 1)
  else if byteAt buf i != QUOTE then .fail "invalid json: key not string"
  else
    let keyStart := i + 1
    let i := scanString buf buf.length keyStart false
    if i ≥ buf.length then .fail "invalid json: unterminated key"
    else
      let key := (buf.drop keyStart).take (i - keyStart)
      let i := skipSpaces buf buf.length (i + 1)
      if i ≥ buf.length || byteAt buf i != COLON then .fail "invalid json: missing colon"
      else
        let i := skipSpaces buf buf.length (i + 1)
        if i ≥ buf.length then .fail "invalid json: missing value"
        else .key key i

/-- Lines 176-274: the `switch` on the key, with the cursor `i < len(buf)` on the first
byte of the value. -/
def checkValue (buf : List Nat) (key : List Nat) (i : Nat) (st : ScanState) : Step :=
  if key = keyUserId then
    if byteAt buf i != QUOTE then .fail "user_id: not string"
    else
      let start := i + 1
      let i := scanString buf buf.length start false
      if i ≥ buf.length then .fail "user_id: unterminated"
      else
        let userLen := i - start
        if userLen < 1 || userLen > 64 then .fail "user_id: length out of bounds"
        else .next (i + 1) { st with userLen := userLen, haveUser := true }
  else if key = keySessionId then
    if byteAt buf i != QUOTE then .fail "session_id: not string"
    else
      let start := i + 1
      let i := scanString buf buf.length start false
      if i ≥ buf.length then .fail "session_id: unterminated"
      else
        let sessLen := i - start
        if sessLen < 1 || sessLen > 64 then .fail "session_id: length out of bounds"
        else .next (i + 1) { st with sessLen := sessLen, haveSess := true }
  else if key = keyTimestamp then
    let sign : Int := if byteAt buf i == MINUS then -1 else 1
    let i := if byteAt buf i == MINUS then i + 1 else i
    if i ≥ buf.length || !isDigit (byteAt buf i) then .fail "timestamp: invalid"
    else
      let r := parseDigits buf buf.length i 0
      let n := wrapInt64 (r.2 * sign)
      let tsOK := decide (n > 0)
      if !tsOK then .fail "timestamp: must be > 0"
      else .next r.1 { st with tsOK := tsOK, haveTS := true }
  else if key = keyFeatures then
    if byteAt buf i != LBRACKET then .fail "features: not array"
    else
      let r := countArrayItemsAndEnd buf i
      if !r.2.2 then .fail "features: invalid array"
      else if r.1 < 1 || r.1 > 16384 then .fail "features: length out of bounds"
      else .next r.2.1 { st with featCount := r.1, haveFeat := true }
  else
    if byteAt buf i == QUOTE then .next (skipString buf buf.length (i + 1) false) st
    else if byteAt buf i == LBRACE then .next (skipObject buf buf.length (i + 1) 1) st
    else if byteAt buf i == LBRACKET then
      let r := countArrayItemsAndEnd buf i
      if !r.2.2 then .fail "invalid array"
      else .next r.2.1 st
    else .next (skipScalar buf buf.length i) st

/-- One iteration of the pair loop `for i < len(buf) { ... }`. -/
def pairStep (buf : List Nat) (i : Nat) (st : ScanState) : Step :=
  match parseKey buf i with
  | .stop j => .stop j st
  | .fail msg => .fail msg
  | .key k j => checkValue buf k j st

/-- The pair loop; returns the error of the failing iteration, or the cursor and the
variables at the exit of the loop. -/
def mainLoop (buf : List Nat) : Nat → Nat → ScanState → Except String (Nat × ScanState)
  | 0, i, st => .ok (i, st)
  | fuel + 1, i, st =>
    if i < buf.length then
      match pairStep buf i st with
      | .stop j st1 => .ok (j, st1)
      | .fail msg => .error msg
      | .next j st1 => mainLoop buf fuel j st1
    else .ok (i, st)

/-- The final test of lines 278-281. -/
def finalCheck (st : ScanState) : Except String Unit :=
  if !st.haveUser || !st.haveSess || !st.haveTS || !st.haveFeat || st.featCount == 0 then
    .error "missing required fields"
  else .ok ()

/-- The function `GuardPredictRaw(buf []byte) error`. -/
def GuardPredictRaw (buf : List Nat) : Except String Unit :=
  let i := skipSpaces buf buf.length 0
  if i ≥ buf.length || byteAt buf i != LBRACE then .error "invalid json: not object"
  else
    match mainLoop buf buf.length (i + 1) ScanState.init with
    | .error msg => .error msg
    | .ok r => finalCheck r.2

/-! ## GuardAndDecodePredict and DecodeValidateJSON

`json.Unmarshal` belongs to the standard library: it is the parameter `unmarshal`, which
returns its error and the destination as it leaves it. What a run calls is recorded in a
list of events. -/

/-- The calls that a run of an entry point makes. -/
inductive Event where
  /-- A call of `GuardPredictRaw`. -/
  | guard
  /-- A call of `json.Unmarshal`. -/
  | decode
  /-- A call of the `validateFn` of the caller. -/
  | validate
deriving DecidableEq, Repr

/-- The result of a run of `GuardAndDecodePredict`: the error it returns, the
destination `*dst` after the run, and the calls it has made. -/
structure Run (D : Type) where
  err : Except String Unit
  dst : D
  events : List Event

/-- The function `GuardAndDecodePredict(buf []byte, dst *types.PredictRequest) error`. -/
def GuardAndDecodePredict {D : Type} (unmarshal : List Nat → D → Except String Unit × D)
    (buf : List Nat) (dst : D) : Run D :=
  match GuardPredictRaw buf with
  | .error e => { err := .error e, dst := dst, events := [.guard] }
  | .ok _ =>
    let r := unmarshal buf dst
    { err := r.1, dst := r.2, events := [.guard, .decode] }

/-- The status code of the response writer `w`, as `httptest.ResponseRecorder` keeps it
in `Code`; `httptest.NewRecorder()` starts with 200. -/
structure Recorder where
  code : Nat
deriving DecidableEq, Repr

/-- The result of a run of `DecodeValidateJSON`: the error it returns, the destination
after the run, the calls it has made, and the response writer after the run. -/
structure Outcome (D : Type) where
  err : Except String Unit
  dst : D
  events : List Event
  w : Recorder

/-- The function `DecodeValidateJSON(w, r, dst, validateFn) error` from the end of its
read loop on (lines 61-83): `buf` is what the loop has read of the request body,
`isPredict` says whether `dst` is a `*types.PredictRequest`, and `validateFn` is `none`
for `nil`. The function never writes to `w`. -/
def DecodeValidateJSON {D : Type} (unmarshal : List Nat → D → Except String Unit × D)
    (isPredict : Bool) (validateFn : Option (D → Except String Unit)) (w : Recorder)
    (buf : List Nat) (dst : D) : Outcome D :=
  if buf.length == 0 then { err := .error "empty body", dst := dst, events := [], w := w }
  else
    let r : Run D :=
      if isPredict then GuardAndDecodePredict unmarshal buf dst
      else
        let u := unmarshal buf dst
        { err := u.1, dst := u.2, events := [.decode] }
    match r.err with
    | .error e => { err := .error e, dst := r.dst, events := r.events, w := w }
    | .ok _ =>
      match validateFn with
      | none => { err := .ok (), dst := r.dst, events := r.events, w := w }
      | some f =>
        match f r.dst with
        | .error e =>
          { err := .error e, dst := r.dst, events := r.events ++ [.validate], w := w }
        | .ok _ => { err := .ok (), dst := r.dst, events := r.events ++ [.validate], w := w }

/-! ## fastValidatePredict

`json.Unmarshal` and the validator of `go-playground/validator` are libraries: they are
the parameters `unmarshal` and `validateStruct`. -/

/-- The struct `predictGuardShape`: strings and the raw `features` message are bytes. -/
structure predictGuardShape where
  UserID : List Nat
  SessionID : List Nat
  Timestamp : Int
  Features : List Nat
  Metadata : List (List Nat × List Nat)

/-- The test `unicode.IsSpace(rune(b))` on a byte: tab, line feed, vertical tab, form
feed, carriage return, space, U+0085 and U+00A0. -/
def isUnicodeSpace (c : Nat) : Bool :=
  c == 9 || c == 10 || c == 11 || c == 12 || c == 13 || c == 32 || c == 133 || c == 160

/-- The loop `for j >= 0 && unicode.IsSpace(rune(b[j])) { j-- }`; returns `j`. -/
def retreatWhile (p : Nat → Bool) (b : List Nat) : Nat → Int → Int
  | 0, j => j
  | fuel + 1, j =>
    if decide (j ≥ 0) && p (byteAt b j.toNat) then retreatWhile p b fuel (j - 1) else j

/-- The function `isJSONArray(b []byte) bool`. -/
def isJSONArray (b : List Nat) : Bool :=
  let i := advanceWhile isUnicodeSpace b b.length 0
  if i ≥ b.length || byteAt b i != LBRACKET then false
  else
    let j := retreatWhile isUnicodeSpace b b.length ((b.length : Int) - 1)
    decide (j ≥ 0) && byteAt b j.toNat == RBRACKET

/-- The call `bytes.IndexByte(b, c)`: the first index of `c` in `b`, or `-1`. -/
def indexByte (b : List Nat) (c : Nat) : Int :=
  if c ∈ b then (b.indexOf c : Int) else -1

/-- The call `bytes.LastIndexByte(b, c)`: the last index of `c` in `b`, or `-1`. -/
def lastIndexByte (b : List Nat) (c : Nat) : Int :=
  if c ∈ b then (b.length : Int) - 1 - (b.reverse.indexOf c : Int) else -1

/-- The loop of `fastCountArrayItems` over `inner`; every quote toggles `inString`, and a
comma counts when `inString` is off. Returns `count`. -/
def fastCountLoop (inner : List Nat) : Nat → Nat → Nat → Bool → Nat
  | 0, _, count, _ => count
  | fuel + 1, p, count, inString =>
    if p < inner.length then
      let c := byteAt inner p
      if c == QUOTE then fastCountLoop inner fuel (p + 1) count (!inString)
      else
        fastCountLoop inner fuel (p + 1) (if !inString && c == COMMA then count + 1 else count)
          inString
    else count

/-- The function `fastCountArrayItems(b []byte) (int, bool)`. -/
def fastCountArrayItems (b : List Nat) : Nat × Bool :=
  let l := indexByte b LBRACKET
  if l < 0 then (0, false)
  else
    let r := lastIndexByte b RBRACKET
    if r < 0 || r ≤ l then (0, false)
    else
      let inner := (b.drop (l.toNat + 1)).take (r.toNat - (l.toNat + 1))
      let p := skipSpaces inner inner.length 0
      if p ≥ inner.length then (0, true)
      else (fastCountLoop inner inner.length p 1 false, true)

/-- The function `fastValidatePredict(buf []byte) error`. -/
def fastValidatePredict (unmarshal : List Nat → Except String predictGuardShape)
    (validateStruct : predictGuardShape → Except String Unit) (buf : List Nat) :
    Except String Unit :=
  match unmarshal buf with
  | .error e => .error e
  | .ok g =>
    match validateStruct g with
    | .error e => .error e
    | .ok _ =>
      if g.Features.length == 0 then .error "features: empty"
      else if !isJSONArray g.Features then .error "features: not array"
      else
        let r := fastCountArrayItems g.Features
        if !r.2 then .error "features: invalid array syntax"
        else if r.1 < 1 || r.1 > 16384 then .error "features: length out of bounds"
        else .ok ()

/-! ## Scenarios -/

/-- Scenario A of the specification. -/
def scenarioA : List Nat :=
  bytesOf "\x7b\"user_id\":\"u1\",\"session_id\":\"s1\",\"timestamp\":1000,\"features\":[1,2,3]\x7d"

/-! ## The shape of well-formed input -/

/-- The first byte of `s`, when there is one, fails the test `p`. -/
def StopsAt (p : Nat → Bool) (s : List Nat) : Prop := ∀ c ∈ s.head?, p c = false

/-- The bytes `body`, read with the escape flag `escaped`, hold no unescaped quote and
do not end inside an escape: followed by a quote they are the inside of a string
literal, and the quote that follows them is the closing one. -/
def isStringBody : List Nat → Bool → Bool
  | [], escaped => !escaped
  | c :: cs, escaped =>
    if c == QUOTE && !escaped then false else isStringBody cs (c == BACKSLASH && !escaped)

/-- The string literal with the raw bytes `body` between its quotes. -/
def stringLit (body : List Nat) : List Nat := QUOTE :: body ++ [QUOTE]

/-- The number denoted by the decimal digits `ds` after the digits already read as `acc`. -/
def digitsValue : List Nat → Nat → Nat
  | [], acc => acc
  | d :: ds, acc => digitsValue ds (acc * 10 + (d - ZERO))

/-- The bytes between the brackets of a flat array, with `k` commas outside string
literals: bytes other than quote, bracket and comma, commas, and string literals. -/
inductive FlatItems : List Nat → Nat → Prop
  | nil : FlatItems [] 0
  | plain (c : Nat) (t : List Nat) (k : Nat) : c ≠ QUOTE → c ≠ LBRACKET → c ≠ RBRACKET →
      c ≠ COMMA → FlatItems t k → FlatItems (c :: t) k
  | comma (t : List Nat) (k : Nat) : FlatItems t k → FlatItems (COMMA :: t) (k + 1)
  | string (body t : List Nat) (k : Nat) : isStringBody body false = true → FlatItems t k →
      FlatItems (QUOTE :: (body ++ QUOTE :: t)) k

/-- Every byte of `l` is white space. -/
def allSpace (l : List Nat) : Bool := l.all isSpace


/-- The bytes between the braces of an object, as far as the object skipper reads them:
bytes other than quote and brace, string literals, and nested brace pairs. -/
inductive Balanced : List Nat → Prop
  | nil : Balanced []
  | plain (c : Nat) (t : List Nat) : c ≠ QUOTE → c ≠ LBRACE → c ≠ RBRACE → Balanced t →
      Balanced (c :: t)
  | string (body t : List Nat) : isStringBody body false = true → Balanced t →
      Balanced (QUOTE :: (body ++ QUOTE :: t))
  | nest (inner t : List Nat) : Balanced inner → Balanced t →
      Balanced (LBRACE :: (inner ++ RBRACE :: t))

/-- The test on a byte of an array element that is not a string: no white space,
comma, quote or bracket. Numbers, `true`, `false` and `null` consist of such bytes. -/
def isTokenByte (c : Nat) : Bool :=
  !isSpace c && c != COMMA && c != QUOTE && c != LBRACKET && c != RBRACKET

/-- One scalar element of an array, with the white space around it. -/
inductive Elem where
  /-- A number, `true`, `false` or `null`. -/
  | token (before tok after : List Nat)
  /-- A string literal. -/
  | string (before body after : List Nat)

/-- The bytes of an element. -/
def Elem.bytes : Elem → List Nat
  | .token before tok after => before ++ (tok ++ after)
  | .string before body after => before ++ (QUOTE :: (body ++ QUOTE :: after))

/-- The element is well formed. -/
def Elem.valid : Elem → Bool
  | .token before tok after =>
    allSpace before && allSpace after && !tok.isEmpty && tok.all isTokenByte
  | .string before body after => allSpace before && allSpace after && isStringBody body false

/-- The items `ms`, separated by commas. -/
def joinComma : List (List Nat) → List Nat
  | [] => []
  | [m] => m
  | m :: m2 :: ms => m ++ COMMA :: joinComma (m2 :: ms)

/-- The flat array of the elements `elems`; `ws` is white space after the opening
bracket (all there is between the brackets of an array without elements). -/
def arrayLit (ws : List Nat) (elems : List Elem) : List Nat :=
  LBRACKET :: (ws ++ (joinComma (elems.map Elem.bytes) ++ [RBRACKET]))

/-- The white space around the tokens of one `"key":value` pair. -/
structure Pad where
  beforeKey : List Nat
  afterKey : List Nat
  afterColon : List Nat
  afterValue : List Nat

/-- No white space at all. -/
def Pad.tight : Pad := ⟨[], [], [], []⟩

/-- The four parts of the padding are white space. -/
def Pad.valid (p : Pad) : Bool :=
  allSpace p.beforeKey && allSpace p.afterKey && allSpace p.afterColon && allSpace p.afterValue

/-- The bytes of the pair `"key":value` with the padding `p`. -/
def pairBytes (p : Pad) (key value : List Nat) : List Nat :=
  p.beforeKey ++ QUOTE :: (key ++ QUOTE :: (p.afterKey ++ COLON :: (p.afterColon
    ++ (value ++ p.afterValue))))

/-- The object with the pairs `ms`: `{m1,m2,...}`. -/
def object (ms : List (List Nat)) : List Nat := LBRACE :: (joinComma ms ++ [RBRACE])

/-- The four required fields. -/
inductive Field where
  | user
  | sess
  | ts
  | feat
deriving DecidableEq, Repr

/-- The key of a required field. -/
def Field.key : Field → List Nat
  | .user => keyUserId
  | .sess => keySessionId
  | .ts => keyTimestamp
  | .feat => keyFeatures

/-- The flag of `GuardPredictRaw` that records a required field. -/
def ScanState.has (st : ScanState) : Field → Bool
  | .user => st.haveUser
  | .sess => st.haveSess
  | .ts => st.haveTS
  | .feat => st.haveFeat

/-- A value that an unrecognized key may have: a string literal, a scalar token
(number, `true`, `false`, `null`: bytes other than comma, closing brace and white
space, the first one no quote, brace or bracket), an object with balanced content,
or an array without an opening bracket inside. -/
inductive SkippableValue : List Nat → Prop
  | string (body : List Nat) : isStringBody body false = true →
      SkippableValue (QUOTE :: (body ++ [QUOTE]))
  | scalar (c : Nat) (t : List Nat) : c ≠ QUOTE → c ≠ LBRACE → c ≠ LBRACKET →
      (∀ x ∈ c :: t, isScalarByte x = true) → SkippableValue (c :: t)
  | object (content : List Nat) : Balanced content →
      SkippableValue (LBRACE :: (content ++ [RBRACE]))
  | array (items : List Nat) (k : Nat) : FlatItems items k →
      SkippableValue (LBRACKET :: (items ++ [RBRACKET]))

/-- One pair of the top-level object. -/
inductive Member where
  /-- The pair `"user_id":"body"`. -/
  | userId (p : Pad) (body : List Nat)
  /-- The pair `"session_id":"body"`. -/
  | sessionId (p : Pad) (body : List Nat)
  /-- The pair `"timestamp":digits`. -/
  | timestamp (p : Pad) (digits : List Nat)
  /-- The pair `"features":[elems]`. -/
  | features (p : Pad) (ws : List Nat) (elems : List Elem)
  /-- The pair `"key":value` with any key and any value bytes. -/
  | pair (p : Pad) (key value : List Nat)

/-- The bytes of a pair. -/
def Member.bytes : Member → List Nat
  | .userId p body => pairBytes p keyUserId (stringLit body)
  | .sessionId p body => pairBytes p keySessionId (stringLit body)
  | .timestamp p digits => pairBytes p keyTimestamp digits
  | .features p ws elems => pairBytes p keyFeatures (arrayLit ws elems)
  | .pair p key value => pairBytes p key value

/-- The required field that a pair holds, if any. -/
def Member.field : Member → Option Field
  | .userId _ _ => some .user
  | .sessionId _ _ => some .sess
  | .timestamp _ _ => some .ts
  | .features _ _ _ => some .feat
  | .pair _ _ _ => none

/-- The raw bytes of a `user_id` or `session_id` string are a string body of 1 to 64
bytes. -/
def validId (body : List Nat) : Bool :=
  isStringBody body false && decide (1 ≤ body.length) && decide (body.length ≤ 64)

/-- The digits are a positive integer literal that fits in `int64`. -/
def validTimestamp (digits : List Nat) : Bool :=
  !digits.isEmpty && digits.all isDigit && decide (0 < digitsValue digits 0)
    && decide (digitsValue digits 0 < 2 ^ 63)

/-- The elements are 1 to 16384 well-formed scalars. -/
def validFeatures (ws : List Nat) (elems : List Elem) : Bool :=
  allSpace ws && elems.all Elem.valid && decide (1 ≤ elems.length)
    && decide (elems.length ≤ 16384)

/-- The pair satisfies the schema: the padding is white space, a required field has a
value within its bounds, and another key is a string body other than the four
recognized keys with a value that the skipper can pass. -/
def Member.Valid : Member → Prop
  | .userId p body => p.valid = true ∧ validId body = true
  | .sessionId p body => p.valid = true ∧ validId body = true
  | .timestamp p digits => p.valid = true ∧ validTimestamp digits = true
  | .features p ws elems => p.valid = true ∧ validFeatures ws elems = true
  | .pair p key value => p.valid = true ∧ isStringBody key false = true
      ∧ key ≠ keyUserId ∧ key ≠ keySessionId ∧ key ≠ keyTimestamp ∧ key ≠ keyFeatures
      ∧ SkippableValue value

/-- The rendering of an object with the pairs `ms`. -/
def render (ms : List Member) : List Nat := object (ms.map Member.bytes)

/-- The required fields among the pairs `ms`, in order. -/
def fieldsOf (ms : List Member) : List Field := ms.filterMap Member.field

/-- The padding of a pair. -/
def Member.pad : Member → Pad
  | .userId p _ => p
  | .sessionId p _ => p
  | .timestamp p _ => p
  | .features p _ _ => p
  | .pair p _ _ => p

/-- The count of `features` is positive once the field has been seen. -/
def ScanState.Sound (st : ScanState) : Prop := st.haveFeat = true → st.featCount ≠ 0

/-- The comma that follows a non-empty list of pairs. -/
def commaAfter (xs : List (List Nat)) : List Nat := if xs.isEmpty then [] else [COMMA]

/-- All four required fields are among `fs`. -/
def allFields (fs : List Field) : Bool :=
  decide (Field.user ∈ fs) && decide (Field.sess ∈ fs) && decide (Field.ts ∈ fs)
    && decide (Field.feat ∈ fs)

/-- The name of a required field in the error messages. -/
def Field.name : Field → String
  | .user => "user_id"
  | .sess => "session_id"
  | .ts => "timestamp"
  | .feat => "features"

/-- The pair `"user_id":"body"` or `"session_id":"body"`. -/
def idMember (f : Field) (p : Pad) (body : List Nat) : Member :=
  if f = .user then .userId p body else .sessionId p body

/-- The pairs of Scenario A. -/
def scenarioAMembers : List Member :=
  [ .userId Pad.tight (bytesOf "u1"),
    .sessionId Pad.tight (bytesOf "s1"),
    .timestamp Pad.tight (bytesOf "1000"),
    .features Pad.tight [] [.token [] (bytesOf "1") [], .token [] (bytesOf "2") [],
      .token [] (bytesOf "3") []] ]

/-- Scenario A without `user_id`, and with white space and a pair of another key. -/
def missingUserMembers : List Member :=
  [ .sessionId ⟨[SPACE], [], [SPACE], []⟩ (bytesOf "s1"),
    .pair Pad.tight (bytesOf "note") (bytesOf "null"),
    .timestamp Pad.tight (bytesOf "1000"),
    .features Pad.tight [] [.token [] (bytesOf "1") []] ]

/-- Scenario A without its `user_id` pair. -/
def scenarioARest : List Member :=
  [ .sessionId Pad.tight (bytesOf "s1"),
    .timestamp Pad.tight (bytesOf "1000"),
    .features Pad.tight [] [.token [] (bytesOf "1") [], .token [] (bytesOf "2") [],
      .token [] (bytesOf "3") []] ]

/-- Scenario A without its `features` pair. -/
def scenarioAHead : List Member :=
  [ .userId Pad.tight (bytesOf "u1"),
    .sessionId Pad.tight (bytesOf "s1"),
    .timestamp Pad.tight (bytesOf "1000") ]

/-- The keys that the pair loop reads as keys of the top-level object, in order, from
the cursor `i` on. -/
def scannedKeys (buf : List Nat) : Nat → Nat → ScanState → List (List Nat)
  | 0, _, _ => []
  | fuel + 1, i, st =>
    if i < buf.length then
      match parseKey buf i with
      | .stop _ => []
      | .fail _ => []
      | .key k j =>
        match checkValue buf k j st with
        | .next j1 st1 => k :: scannedKeys buf fuel j1 st1
        | .stop _ _ => [k]
        | .fail _ => [k]
    else []

/-- The keys that `GuardPredictRaw` reads as keys of the top-level object. -/
def topLevelKeys (buf : List Nat) : List (List Nat) :=
  let i := skipSpaces buf buf.length 0
  if i ≥ buf.length || byteAt buf i != LBRACE then []
  else scannedKeys buf buf.length (i + 1) ScanState.init

/-- Scenario E of the specification: a nested array in `features`. -/
def scenarioE : List Nat :=
  bytesOf "\x7b\"user_id\":\"u1\",\"session_id\":\"s1\",\"timestamp\":1,\"features\":[[1,2]]\x7d"

/-- An unterminated `features` array. -/
def unterminatedFeatures : List Nat :=
  bytesOf "\x7b\"user_id\":\"u1\",\"session_id\":\"s1\",\"timestamp\":1,\"features\":[1,2"

/-- Scenario A with the pair `"other":[[1,2],[3,4]]` inserted in front. -/
def scenarioAWithNestedOther : List Nat :=
  bytesOf ("\x7b\"other\":[[1,2],[3,4]],\"user_id\":\"u1\",\"session_id\":\"s1\","
    ++ "\"timestamp\":1000,\"features\":[1,2,3]\x7d")

/-- Scenario A without its closing brace. -/
def scenarioAUnclosed : List Nat :=
  bytesOf "\x7b\"user_id\":\"u1\",\"session_id\":\"s1\",\"timestamp\":1000,\"features\":[1,2,3]"

/-- Scenario A with a second `user_id` pair. -/
def scenarioATwoUsers : List Nat :=
  bytesOf ("\x7b\"user_id\":\"u1\",\"user_id\":\"u2\",\"session_id\":\"s1\","
    ++ "\"timestamp\":1000,\"features\":[1,2,3]\x7d")

/-- Scenario A followed by a pair whose string value is cut off by the end of the
buffer. -/
def scenarioAOpenString : List Nat :=
  bytesOf ("\x7b\"user_id\":\"u1\",\"session_id\":\"s1\",\"timestamp\":1000,"
    ++ "\"features\":[1,2,3],\"x\":\"abc")

/-- The pair `"meta":{"k":"}"}`: an object value with a brace inside a string. -/
def metaMember : Member :=
  .pair Pad.tight (bytesOf "meta") (LBRACE :: (bytesOf "\"k\":\"\x7d\"" ++ [RBRACE]))

/-- The bytes `body`, read with the escape flag `escaped`, hold no unescaped quote: a
string literal that starts with them and runs to the end of the buffer is not
terminated. -/
def isOpenBody : List Nat → Bool → Bool
  | [], _ => true
  | c :: cs, escaped =>
    if c == QUOTE && !escaped then false else isOpenBody cs (c == BACKSLASH && !escaped)

/-- The object with the pairs `ms` whose closing brace is cut off: the buffer ends with
the last pair. -/
def openObject (ms : List (List Nat)) : List Nat := LBRACE :: joinComma ms

/-- The buffer `x[1,"a,]",3]y`: an array of three elements, one of them a string with a
comma and a bracket inside, at index 1. -/
def arrayExample : List Nat := bytesOf "x[1,\"a,]\",3]y"

/-- The key `metadata`, which `GuardPredictRaw` does not recognize. -/
def keyMetadata : List Nat := bytesOf "metadata"

/-- One entry `"key":"value"` of a metadata object, from the raw bytes of its key and of
its value. -/
def metadataEntry (e : List Nat × List Nat) : List Nat :=
  QUOTE :: (e.1 ++ QUOTE :: COLON :: QUOTE :: (e.2 ++ [QUOTE]))

/-- The metadata object with the entries `entries`. -/
def metadataObject (entries : List (List Nat × List Nat)) : List Nat :=
  LBRACE :: (joinComma (entries.map metadataEntry) ++ [RBRACE])

/-- Scenario A followed by a `metadata` object whose only key is 65 bytes long. -/
def longMetadataKeyMembers : List Member :=
  scenarioAMembers
    ++ [.pair Pad.tight keyMetadata (metadataObject [(List.replicate 65 107, bytesOf "v")])]

/-- The bytes that the pair loop skips in front of each key it reads, in order, from the
cursor `i` on: what stands between `'{'` and the first key, and between the end of a
value and the next key. -/
def scannedGaps (buf : List Nat) : Nat → Nat → ScanState → List (List Nat)
  | 0, _, _ => []
  | fuel + 1, i, st =>
    if i < buf.length then
      match parseKey buf i with
      | .stop _ => []
      | .fail _ => []
      | .key k j =>
        match checkValue buf k j st with
        | .next j1 st1 =>
          (buf.drop i).take (skipSpacesCommas buf buf.length i - i) :: scannedGaps buf fuel j1 st1
        | .stop _ _ => [(buf.drop i).take (skipSpacesCommas buf buf.length i - i)]
        | .fail _ => [(buf.drop i).take (skipSpacesCommas buf buf.length i - i)]
    else []

/-- The bytes that `GuardPredictRaw` skips in front of each top-level key. -/
def topLevelGaps (buf : List Nat) : List (List Nat) :=
  let i := skipSpaces buf buf.length 0
  if i ≥ buf.length || byteAt buf i != LBRACE then []
  else scannedGaps buf buf.length (i + 1) ScanState.init

/-- Scenario A with a leading comma, no comma after `user_id`, and two commas after
`session_id`. -/
def scenarioAOddCommas : List Nat :=
  bytesOf ("\x7b,\"user_id\":\"u1\"\"session_id\":\"s1\",,"
    ++ "\"timestamp\":1000,\"features\":[1,2,3]\x7d")

/-- Scenario B of the specification: an empty `user_id`. -/
def scenarioB : List Nat :=
  bytesOf "\x7b\"user_id\":\"\",\"session_id\":\"s1\",\"timestamp\":1000,\"features\":[1]\x7d"

/-- Scenario C of the specification: a negative `timestamp`. -/
def scenarioC : List Nat :=
  bytesOf "\x7b\"user_id\":\"u1\",\"session_id\":\"s1\",\"timestamp\":-5,\"features\":[1]\x7d"

/-- The value that `json.Unmarshal` decodes Scenario C to. -/
def scenarioCShape : predictGuardShape :=
  { UserID := bytesOf "u1", SessionID := bytesOf "s1", Timestamp := -5,
    Features := bytesOf "[1]", Metadata := [] }

/-- The value that `json.Unmarshal` decodes Scenario E to. -/
def scenarioEShape : predictGuardShape :=
  { UserID := bytesOf "u1", SessionID := bytesOf "s1", Timestamp := 1,
    Features := bytesOf "[[1,2]]", Metadata := [] }

/-- Modelled from the spec: the rule-driven validator of the reference path, which lies
outside the repository (`validate.V().Struct` of `go-playground/validator`), applied to
the tags of `predictGuardShape`: `user_id` and `session_id` required with a length from
1 to 64, `timestamp` and `features` required (not the zero value), `metadata` with at
most 128 entries, keys of at most 64 and values of at most 4096 characters. Only the
verdict is modelled; the messages name the field and the rule. -/
def validateGuardShape (g : predictGuardShape) : Except String Unit :=
  if g.UserID.length < 1 then .error "UserID: required"
  else if g.UserID.length > 64 then .error "UserID: max"
  else if g.SessionID.length < 1 then .error "SessionID: required"
  else if g.SessionID.length > 64 then .error "SessionID: max"
  else if g.Timestamp == 0 then .error "Timestamp: required"
  else if g.Features.length == 0 then .error "Features: required"
  else if g.Metadata.length > 128 then .error "Metadata: max"
  else if g.Metadata.any (fun e => decide (e.1.length > 64)) then .error "Metadata: keys max"
  else if g.Metadata.any (fun e => decide (e.2.length > 4096)) then .error "Metadata: max"
  else .ok ()

/-- The body of `TestDecodeValidateJSON_ValidationError`: `json.Marshal` of
`testPayload{Name: "", Value: 1}`. -/
def validationErrorBody : List Nat := bytesOf "\x7b\"name\":\"\",\"value\":1\x7d"

/-- The body of `TestDecodeValidateJSON_InvalidJSON`. -/
def invalidJSONBody : List Nat := bytesOf "\x7b\"name\": \"test\", \"value\": 1,\x7d"

/-- A decoder that succeeds and leaves the destination alone. -/
def decodeOk {D : Type} (_buf : List Nat) (dst : D) : Except String Unit × D := (.ok (), dst)

/-- A decoder that fails with a syntax error and leaves the destination alone. -/
def decodeFail {D : Type} (_buf : List Nat) (dst : D) : Except String Unit × D :=
  (.error "invalid character '\x7d' looking for beginning of object key string", dst)

/-! ## Escapes and closing quotes -/

/-- The number of consecutive backslashes at the end of `l`. -/
def trailingBackslashes (l : List Nat) : Nat := (l.reverse.takeWhile (· == BACKSLASH)).length

/-- The value of `escaped` after the string loop has passed the bytes `l`, started
with the value `e`: `if c == '\\' && !escaped { escaped = true } else { escaped = false }`. -/
def escapedAfter (e : Bool) (l : List Nat) : Bool :=
  l.foldl (fun esc c => c == BACKSLASH && !esc) e

/-- The content of the object of Scenario A. -/
def scenarioAContent : List Nat :=
  bytesOf "\"user_id\":\"u1\",\"session_id\":\"s1\",\"timestamp\":1000,\"features\":[1,2,3]"

/-- The body of a string literal that holds Scenario A, with its quotes escaped. -/
def scenarioAEscaped : List Nat :=
  bytesOf "\x7b\\\"user_id\\\":\\\"u1\\\",\\\"session_id\\\":\\\"s1\\\",\\\"timestamp\\\":1000,\\\"features\\\":[1,2,3]\x7d"

/-- The raw bytes `a\"b\\` of a string literal: a letter, an escaped quote, a letter, and
an escaped backslash. -/
def escapedBody : List Nat := bytesOf "a\\\"b\\\\"

/-! ## Results relative to a cursor -/

/-- The result of the head of an iteration, with its cursor moved by `i`. -/
def KeyResult.shift (i : Nat) : KeyResult → KeyResult
  | .stop j => .stop (i + j)
  | .fail msg => .fail msg
  | .key k j => .key k (i + j)

/-- The result of an iteration, with its cursor moved by `i`. -/
def Step.shift (i : Nat) : Step → Step
  | .stop j st => .stop (i + j) st
  | .fail msg => .fail msg
  | .next j st => .next (i + j) st

/-- The verdict that `GuardPredictRaw` returns after the pair loop: the error of the
loop, or the final test on the variables. -/
def verdictOf (r : Except String (Nat × ScanState)) : Except String Unit :=
  match r with
  | .error msg => .error msg
  | .ok r => finalCheck r.2

/-- The four flags of two states agree, and once `features` has been seen the two counts
are both zero or both not: the final test does not tell the states apart. -/
def ScanState.sameFlags (a b : ScanState) : Prop :=
  a.haveUser = b.haveUser ∧ a.haveSess = b.haveSess ∧ a.haveTS = b.haveTS
    ∧ a.haveFeat = b.haveFeat ∧ (a.haveFeat = true → (a.featCount = 0 ↔ b.featCount = 0))

/-- Two results of an iteration agree up to the states, which have the same flags. -/
def Step.sameFlags : Step → Step → Prop
  | .stop i a, .stop j b => i = j ∧ a.sameFlags b
  | .fail m, .fail n => m = n
  | .next i a, .next j b => i = j ∧ a.sameFlags b
  | _, _ => False

/-- The object `{"a":{"b":"\x7d"}}`, whose inner string holds a closing brace. -/
def nestedObjectContent : List Nat := bytesOf "\"a\":\x7b\"b\":\"\x7d\"\x7d"

/-- The rest of Scenario A after its first three pairs: `,"features":[1,2,3]}`. -/
def scenarioATail : List Nat := bytesOf ",\"features\":[1,2,3]\x7d"

/-! ## The run with every read and every move of the cursor checked

The functions below are `GuardPredictRaw` and `countArrayItemsAndEnd` once more, with
the checks of the Go run time made explicit: a read `buf[i]` and a slice `buf[a:b]` fail
outside the buffer, every assignment to the cursor `i` is checked to move it forward and
not beyond `len(buf)`, and a loop that is still running when its fuel is used up fails. -/

/-- What stops a checked run. -/
inductive Fault where
  /-- A read `buf[i]` with `i ≥ len(buf)`, or a slice `buf[a:b]` without
  `a ≤ b ≤ len(buf)`: the run-time panic of Go. -/
  | outOfRange
  /-- An assignment to the cursor that does not move it forward, or moves it beyond
  `len(buf)`. -/
  | cursor
  /-- A loop whose condition still holds after the number of iterations it was given. -/
  | fuel
deriving DecidableEq, Repr

/-- The result of a checked run. -/
abbrev Checked (α : Type) : Type := Except Fault α

/-- The read `buf[i]`, which panics when `i ≥ len(buf)`. -/
def readAt (buf : List Nat) (i : Nat) : Checked Nat :=
  match buf.get? i with
  | some c => .ok c
  | none => .error .outOfRange

/-- The slice `buf[a:b]`, which panics unless `a ≤ b ≤ len(buf)`. -/
def sliceOf (buf : List Nat) (a b : Nat) : Checked (List Nat) :=
  if a ≤ b ∧ b ≤ buf.length then .ok ((buf.drop a).take (b - a)) else .error .outOfRange

/-- An assignment `i = j` to the cursor (`i++` is `moveTo buf i (i + 1)`), checked to
satisfy `i < j ≤ len(buf)`. -/
def moveTo (buf : List Nat) (i j : Nat) : Checked Nat :=
  if i < j ∧ j ≤ buf.length then .ok j else .error .cursor

/-- The loop `for i < len(buf) && p(buf[i]) { i++ }`, checked. -/
def advanceWhileC (p : Nat → Bool) (buf : List Nat) : Nat → Nat → Checked Nat
  | 0, i => if i < buf.length then .error .fuel else .ok i
  | fuel + 1, i =>
    if i < buf.length then do
      let c ← readAt buf i
      if p c then do
        let i1 ← moveTo buf i (i + 1)
        advanceWhileC p buf fuel i1
      else pure i
    else pure i

/-- The string loop of a key and of the `user_id` and `session_id` values, checked. -/
def scanStringC (buf : List Nat) : Nat → Nat → Bool → Checked Nat
  | 0, i, _ => if i < buf.length then .error .fuel else .ok i
  | fuel + 1, i, escaped =>
    if i < buf.length then do
      let c ← readAt buf i
      if c == QUOTE && !escaped then pure i
      else do
        let i1 ← moveTo buf i (i + 1)
        scanStringC buf fuel i1 (c == BACKSLASH && !escaped)
    else pure i

/-- The string loop of the value skipper, checked. -/
def skipStringC (buf : List Nat) : Nat → Nat → Bool → Checked Nat
  | 0, i, _ => if i < buf.length then .error .fuel else .ok i
  | fuel + 1, i, escaped =>
    if i < buf.length then do
      let c ← readAt buf i
      if c == QUOTE && !escaped then moveTo buf i (i + 1)
      else do
        let i1 ← moveTo buf i (i + 1)
        skipStringC buf fuel i1 (c == BACKSLASH && !escaped)
    else pure i

/-- The object skipper of the default case, checked. -/
def skipObjectC (buf : List Nat) : Nat → Nat → Int → Checked Nat
  | 0, i, depth => if i < buf.length && decide (depth > 0) then .error .fuel else .ok i
  | fuel + 1, i, depth =>
    if i < buf.length && decide (depth > 0) then do
      let c ← readAt buf i
      if c == QUOTE then do
        let i1 ← moveTo buf i (i + 1)
        let i2 ← skipStringC buf buf.length i1 false
        skipObjectC buf fuel i2 depth
      else do
        let depth1 := if c == LBRACE then depth + 1 else depth
        let depth2 := if c == RBRACE then depth1 - 1 else depth1
        let i1 ← moveTo buf i (i + 1)
        skipObjectC buf fuel i1 depth2
    else pure i

/-- The digit loop of `timestamp`, checked. -/
def parseDigitsC (buf : List Nat) : Nat → Nat → Int → Checked (Nat × Int)
  | 0, i, n => if i < buf.length then .error .fuel else .ok (i, n)
  | fuel + 1, i, n =>
    if i < buf.length then do
      let c ← readAt buf i
      if isDigit c then do
        let i1 ← moveTo buf i (i + 1)
        parseDigitsC buf fuel i1 (wrapInt64 (n * 10 + ((c - ZERO : Nat) : Int)))
      else pure (i, n)
    else pure (i, n)

/-- The main loop of `countArrayItemsAndEnd`, checked. -/
def countLoopC (buf : List Nat) :
    Nat → Nat → Nat → Bool → Bool → Int → Checked (Nat × Nat × Bool)
  | 0, i, _, _, _, _ => if i < buf.length then .error .fuel else .ok (0, i, false)
  | fuel + 1, i, count, inString, escaped, depth =>
    if i < buf.length then do
      let c ← readAt buf i
      if inString then do
        let i1 ← moveTo buf i (i + 1)
        countLoopC buf fuel i1 count (if c == QUOTE && !escaped then false else true)
          (c == BACKSLASH && !escaped) depth
      else if c == QUOTE then do
        let i1 ← moveTo buf i (i + 1)
        countLoopC buf fuel i1 count true escaped depth
      else if c == LBRACKET then pure (0, i, false)
      else if c == RBRACKET then
        if depth - 1 == 0 then pure (count, i + 1, true)
        else do
          let i1 ← moveTo buf i (i + 1)
          countLoopC buf fuel i1 count false escaped (depth - 1)
      else if c == COMMA then do
        let i1 ← moveTo buf i (i + 1)
        countLoopC buf fuel i1 (count + 1) false escaped depth
      else do
        let i1 ← moveTo buf i (i + 1)
        countLoopC buf fuel i1 count false escaped depth
    else pure (0, i, false)

/-- The function `countArrayItemsAndEnd(buf, start)`, checked. -/
def countArrayItemsAndEndC (buf : List Nat) (start : Nat) : Checked (Nat × Nat × Bool) := do
  let c ← readAt buf start
  if c != LBRACKET then pure (0, start, false)
  else do
    let i1 ← moveTo buf start (start + 1)
    let i ← advanceWhileC isSpace buf buf.length i1
    if i < buf.length then do
      let c1 ← readAt buf i
      if c1 == RBRACKET then pure (0, i + 1, true)
      else countLoopC buf buf.length i 1 false false 1
    else countLoopC buf buf.length i 1 false false 1

/-- Lines 129-173, checked. -/
def parseKeyC (buf : List Nat) (i0 : Nat) : Checked KeyResult := do
  let i ← advanceWhileC isSpaceOrComma buf buf.length i0
  if i ≥ buf.length then pure (.stop i)
  else do
    let c ← readAt buf i
    if c == RBRACE then do
      let i1 ← moveTo buf i (i + 1)
      pure (.stop i1)
    else if c != QUOTE then pure (.fail "invalid json: key not string")
    else do
      let keyStart ← moveTo buf i (i + 1)
      let i ← scanStringC buf buf.length keyStart false
      if i ≥ buf.length then pure (.fail "invalid json: unterminated key")
      else do
        let key ← sliceOf buf keyStart i
        let i1 ← moveTo buf i (i + 1)
        let i ← advanceWhileC isSpace buf buf.length i1
        if i ≥ buf.length then pure (.fail "invalid json: missing colon")
        else do
          let c1 ← readAt buf i
          if c1 != COLON then pure (.fail "invalid json: missing colon")
          else do
            let i1 ← moveTo buf i (i + 1)
            let i ← advanceWhileC isSpace buf buf.length i1
            if i ≥ buf.length then pure (.fail "invalid json: missing value")
            else pure (.key key i)

/-- Lines 176-274, checked. -/
def checkValueC (buf : List Nat) (key : List Nat) (i : Nat) (st : ScanState) : Checked Step :=
  if key = keyUserId then do
    let c ← readAt buf i
    if c != QUOTE then pure (.fail "user_id: not string")
    else do
      let start ← moveTo buf i (i + 1)
      let i ← scanStringC buf buf.length start false
      if i ≥ buf.length then pure (.fail "user_id: unterminated")
      else
        let userLen := i - start
        if userLen < 1 || userLen > 64 then pure (.fail "user_id: length out of bounds")
        else do
          let i1 ← moveTo buf i (i + 1)
          pure (.next i1 { st with userLen := userLen, haveUser := true })
  else if key = keySessionId then do
    let c ← readAt buf i
    if c != QUOTE then pure (.fail "session_id: not string")
    else do
      let start ← moveTo buf i (i + 1)
      let i ← scanStringC buf buf.length start false
      if i ≥ buf.length then pure (.fail "session_id: unterminated")
      else
        let sessLen := i - start
        if sessLen < 1 || sessLen > 64 then pure (.fail "session_id: length out of bounds")
        else do
          let i1 ← moveTo buf i (i + 1)
          pure (.next i1 { st with sessLen := sessLen, haveSess := true })
  else if key = keyTimestamp then do
    let c ← readAt buf i
    let sign : Int := if c == MINUS then -1 else 1
    let i ← if c == MINUS then moveTo buf i (i + 1) else pure i
    if i ≥ buf.length then pure (.fail "timestamp: invalid")
    else do
      let d ← readAt buf i
      if !isDigit d then pure (.fail "timestamp: invalid")
      else do
        let r ← parseDigitsC buf buf.length i 0
        let n := wrapInt64 (r.2 * sign)
        let tsOK := decide (n > 0)
        if !tsOK then pure (.fail "timestamp: must be > 0")
        else pure (.next r.1 { st with tsOK := tsOK, haveTS := true })
  else if key = keyFeatures then do
    let c ← readAt buf i
    if c != LBRACKET then pure (.fail "features: not array")
    else do
      let r ← countArrayItemsAndEndC buf i
      if !r.2.2 then pure (.fail "features: invalid array")
      else if r.1 < 1 || r.1 > 16384 then pure (.fail "features: length out of bounds")
      else do
        let i1 ← moveTo buf i r.2.1
        pure (.next i1 { st with featCount := r.1, haveFeat := true })
  else do
    let c ← readAt buf i
    if c == QUOTE then do
      let i1 ← moveTo buf i (i + 1)
      let i2 ← skipStringC buf buf.length i1 false
      pure (.next i2 st)
    else if c == LBRACE then do
      let i1 ← moveTo buf i (i + 1)
      let i2 ← skipObjectC buf buf.length i1 1
      pure (.next i2 st)
    else if c == LBRACKET then do
      let r ← countArrayItemsAndEndC buf i
      if !r.2.2 then pure (.fail "invalid array")
      else do
        let i1 ← moveTo buf i r.2.1
        pure (.next i1 st)
    else do
      let i1 ← advanceWhileC isScalarByte buf buf.length i
      pure (.next i1 st)

/-- One iteration of the pair loop, checked. -/
def pairStepC (buf : List Nat) (i : Nat) (st : ScanState) : Checked Step := do
  let r ← parseKeyC buf i
  match r with
  | .stop j => pure (.stop j st)
  | .fail msg => pure (.fail msg)
  | .key k j => checkValueC buf k j st

/-- The pair loop, checked. -/
def mainLoopC (buf : List Nat) :
    Nat → Nat → ScanState → Checked (Except String (Nat × ScanState))
  | 0, i, st => if i < buf.length then .error .fuel else .ok (.ok (i, st))
  | fuel + 1, i, st =>
    if i < buf.length then do
      let s ← pairStepC buf i st
      match s with
      | .stop j st1 => pure (.ok (j, st1))
      | .fail msg => pure (.error msg)
      | .next j st1 => mainLoopC buf fuel j st1
    else pure (.ok (i, st))

/-- The function `GuardPredictRaw(buf []byte) error`, checked. -/
def GuardPredictRawC (buf : List Nat) : Checked (Except String Unit) := do
  let i ← advanceWhileC isSpace buf buf.length 0
  if i ≥ buf.length then pure (.error "invalid json: not object")
  else do
    let c ← readAt buf i
    if c != LBRACE then pure (.error "invalid json: not object")
    else do
      let i1 ← moveTo buf i (i + 1)
      let r ← mainLoopC buf buf.length i1 ScanState.init
      match r with
      | .error msg => pure (.error msg)
      | .ok r => pure (finalCheck r.2)

/-! ## The top-level pairs of a buffer

What it means for the bytes after the opening brace to be a sequence of top-level pairs
is said here without the scanner: a pair is a gap of white space and commas, a key
string, a colon, and a value that is complete; the value of a required key has the form
that its case demands, and the value of another key is a string literal, an object with
balanced content, an array without an inner opening bracket, or a run of scalar bytes
that ends in front of a comma, a closing brace, white space or the end of the buffer. -/

/-- A complete value of a key that is none of the four recognized keys, in front of the
bytes `next`. -/
inductive SkippedValue : List Nat → List Nat → Prop
  | string (body next : List Nat) : isStringBody body false = true →
      SkippedValue (QUOTE :: (body ++ [QUOTE])) next
  | object (content next : List Nat) : Balanced content →
      SkippedValue (LBRACE :: (content ++ [RBRACE])) next
  | array (items : List Nat) (k : Nat) (next : List Nat) : FlatItems items k →
      SkippedValue (LBRACKET :: (items ++ [RBRACKET])) next
  | scalar (run next : List Nat) : (∀ x ∈ run, isScalarByte x = true) →
      (∀ c ∈ run.head?, c ≠ QUOTE ∧ c ≠ LBRACE ∧ c ≠ LBRACKET) →
      StopsAt isScalarByte next → SkippedValue run next

/-- The bytes `v` are a complete value of the key `key`, in front of the bytes `next`. -/
inductive CompleteValue : List Nat → List Nat → List Nat → Prop
  | id (key body next : List Nat) : key = keyUserId ∨ key = keySessionId →
      isStringBody body false = true → CompleteValue key (QUOTE :: (body ++ [QUOTE])) next
  | timestamp (sign digits next : List Nat) : sign = [] ∨ sign = [MINUS] → digits ≠ [] →
      (∀ d ∈ digits, isDigit d = true) → StopsAt isDigit next →
      CompleteValue keyTimestamp (sign ++ digits) next
  | features (items : List Nat) (k : Nat) (next : List Nat) : FlatItems items k →
      CompleteValue keyFeatures (LBRACKET :: (items ++ [RBRACKET])) next
  | other (key v next : List Nat) : key ≠ keyUserId → key ≠ keySessionId →
      key ≠ keyTimestamp → key ≠ keyFeatures → SkippedValue v next →
      CompleteValue key v next

/-- One top-level pair with what stands in front of it: the gap, the raw bytes of the
key, the white space before and after the colon, and the bytes of the value. -/
structure Item where
  gap : List Nat
  key : List Nat
  wsA : List Nat
  wsB : List Nat
  value : List Nat

/-- The bytes of a pair: `"key"`, white space, `:`, white space, and the value. -/
def Item.pair (it : Item) : List Nat :=
  QUOTE :: (it.key ++ QUOTE :: (it.wsA ++ COLON :: (it.wsB ++ it.value)))

/-- The bytes of a pair with the gap in front of it. -/
def Item.bytes (it : Item) : List Nat := it.gap ++ it.pair

/-- The bytes of a sequence of pairs. -/
def itemsBytes : List Item → List Nat
  | [] => []
  | it :: its => it.bytes ++ itemsBytes its

/-- The pair is well formed in front of the bytes `next`: the key is a string body, the
colon has white space around it only, and the value is a complete value of the key. -/
def Item.PairOk (it : Item) (next : List Nat) : Prop :=
  isStringBody it.key false = true ∧ allSpace it.wsA = true ∧ allSpace it.wsB = true
    ∧ CompleteValue it.key it.value next

/-- Every pair of the sequence is well formed in front of what follows it: the later
pairs and then the bytes `tail`. -/
def ItemsOk : List Item → List Nat → Prop
  | [], _ => True
  | it :: its, tail => it.PairOk (itemsBytes its ++ tail) ∧ ItemsOk its tail

/-- The gap in front of every pair of the sequence is white space and commas only. -/
def GapsOk (items : List Item) : Prop :=
  ∀ it ∈ items, ∀ x ∈ it.gap, isSpaceOrComma x = true

/-- A value that is not complete and runs to the end of the buffer: a string literal
without its closing quote, or an object no prefix of which is balanced content and a
closing brace. -/
def OpenValue (v : List Nat) : Prop :=
  (∃ body, v = QUOTE :: body ∧ isOpenBody body false = true)
    ∨ (∃ content, v = LBRACE :: content
        ∧ ¬ ∃ c rest, content = c ++ RBRACE :: rest ∧ Balanced c)

/-- What may stand behind the last complete pair of an accepted buffer: white space and
commas, and then the end of the buffer, or a closing brace and any bytes, or one more
pair of an unrecognized key whose value is open. -/
def Ending (tail : List Nat) : Prop :=
  ∃ gap rest, tail = gap ++ rest ∧ (∀ x ∈ gap, isSpaceOrComma x = true)
    ∧ (rest = [] ∨ (∃ t, rest = RBRACE :: t)
      ∨ ∃ key wsA wsB v, rest = QUOTE :: (key ++ QUOTE :: (wsA ++ COLON :: (wsB ++ v)))
          ∧ isStringBody key false = true ∧ allSpace wsA = true ∧ allSpace wsB = true
          ∧ key ≠ keyUserId ∧ key ≠ keySessionId ∧ key ≠ keyTimestamp ∧ key ≠ keyFeatures
          ∧ OpenValue v)

/-- The bytes `x` close `d` open braces: `d` times balanced content and a closing
brace. -/
inductive Closes : Nat → List Nat → Prop
  | zero : Closes 0 []
  | succ (d : Nat) (content rest : List Nat) : Balanced content → Closes d rest →
      Closes (d + 1) (content ++ RBRACE :: rest)

/-- The pairs of Scenario A, each with the gap in front of it. -/
def scenarioAItems : List Item :=
  [ ⟨[], keyUserId, [], [], bytesOf "\"u1\""⟩,
    ⟨[COMMA], keySessionId, [], [], bytesOf "\"s1\""⟩,
    ⟨[COMMA], keyTimestamp, [], [], bytesOf "1000"⟩,
    ⟨[COMMA], keyFeatures, [], [], bytesOf "[1,2,3]"⟩ ]

/-- The pairs of `scenarioAOddCommas`, each with the gap in front of it: a comma, nothing,
two commas, and one comma. -/
def scenarioAOddCommasItems : List Item :=
  [ ⟨[COMMA], keyUserId, [], [], bytesOf "\"u1\""⟩,
    ⟨[], keySessionId, [], [], bytesOf "\"s1\""⟩,
    ⟨[COMMA, COMMA], keyTimestamp, [], [], bytesOf "1000"⟩,
    ⟨[COMMA], keyFeatures, [], [], bytesOf "[1,2,3]"⟩ ]

/-! ## Reading a buffer through its unread suffix -/

theorem lt_of_drop_cons {buf : List Nat} {i c : Nat} {s : List Nat}
    (h : buf.drop i = c :: s) : i < buf.length := by
  by_contra hlt
  rw [List.drop_of_length_le (by omega)] at h
  cases h

theorem byteAt_of_drop_cons {buf : List Nat} {i c : Nat} {s : List Nat}
    (h : buf.drop i = c :: s) : byteAt buf i = c := by
  have hlt := lt_of_drop_cons h
  have h2 : (buf.drop i)[0]? = some c := by rw [h]; simp
  rw [List.getElem?_drop] at h2
  simp only [Nat.add_zero] at h2
  simp [byteAt, List.getD, h2]

theorem drop_succ_of_drop_cons {buf : List Nat} {i c : Nat} {s : List Nat}
    (h : buf.drop i = c :: s) : buf.drop (i + 1) = s := by
  have : buf.drop (i + 1) = (buf.drop i).drop 1 := by
    rw [List.drop_drop]
  rw [this, h]; rfl

theorem le_of_drop_nil {buf : List Nat} {i : Nat} (h : buf.drop i = []) : buf.length ≤ i := by
  simpa using h

theorem drop_add_of_drop_append {buf : List Nat} {i : Nat} {a s : List Nat}
    (h : buf.drop i = a ++ s) : buf.drop (i + a.length) = s := by
  have : buf.drop (i + a.length) = (buf.drop i).drop a.length := by
    rw [List.drop_drop]
  rw [this, h]; simp

theorem advanceWhile_spec (p : Nat → Bool) (buf : List Nat) :
    ∀ (run s : List Nat) (fuel i : Nat), (∀ c ∈ run, p c = true) → StopsAt p s →
      buf.drop i = run ++ s → buf.length ≤ fuel + i →
      advanceWhile p buf fuel i = i + run.length := by
  intro run
  induction run with
  | nil =>
    intro s fuel i _ hs hd _
    cases fuel with
    | zero => simp [advanceWhile]
    | succ f =>
      cases s with
      | nil =>
        have := le_of_drop_nil hd
        simp [advanceWhile, Nat.not_lt.mpr this]
      | cons c t =>
        have hb := byteAt_of_drop_cons hd
        have hc : p c = false := hs c (by simp)
        simp [advanceWhile, hb, hc]
  | cons c run ih =>
    intro s fuel i hrun hs hd hf
    have hlt := lt_of_drop_cons hd
    have hb := byteAt_of_drop_cons hd
    have hc : p c = true := hrun c (by simp)
    cases fuel with
    | zero => omega
    | succ f =>
      have := ih s f (i + 1) (fun x hx => hrun x (by simp [hx])) hs
        (drop_succ_of_drop_cons hd) (by omega)
      simp [advanceWhile, hlt, hb, hc, this]
      omega

/-! ## String literals -/

theorem scanString_spec (buf : List Nat) :
    ∀ (body s : List Nat) (fuel i : Nat) (escaped : Bool), isStringBody body escaped = true →
      buf.drop i = body ++ QUOTE :: s → buf.length ≤ fuel + i →
      scanString buf fuel i escaped = i + body.length := by
  intro body
  induction body with
  | nil =>
    intro s fuel i escaped hb hd hf
    have hlt := lt_of_drop_cons hd
    have hc := byteAt_of_drop_cons hd
    cases fuel with
    | zero => omega
    | succ f =>
      simp [isStringBody] at hb
      simp [scanString, hlt, hc, hb]
  | cons c body ih =>
    intro s fuel i escaped hb hd hf
    have hlt := lt_of_drop_cons hd
    have hc := byteAt_of_drop_cons hd
    cases fuel with
    | zero => omega
    | succ f =>
      simp only [isStringBody] at hb
      split at hb
      · cases hb
      · rename_i hq
        have := ih s f (i + 1) _ hb (drop_succ_of_drop_cons hd) (by omega)
        simp only [scanString, hlt, hc, if_true, hq]
        simp [this]; omega

theorem skipString_spec (buf : List Nat) :
    ∀ (body s : List Nat) (fuel i : Nat) (escaped : Bool), isStringBody body escaped = true →
      buf.drop i = body ++ QUOTE :: s → buf.length ≤ fuel + i →
      skipString buf fuel i escaped = i + body.length + 1 := by
  intro body
  induction body with
  | nil =>
    intro s fuel i escaped hb hd hf
    have hlt := lt_of_drop_cons hd
    have hc := byteAt_of_drop_cons hd
    cases fuel with
    | zero => omega
    | succ f =>
      simp [isStringBody] at hb
      simp [skipString, hlt, hc, hb]
  | cons c body ih =>
    intro s fuel i escaped hb hd hf
    have hlt := lt_of_drop_cons hd
    have hc := byteAt_of_drop_cons hd
    cases fuel with
    | zero => omega
    | succ f =>
      simp only [isStringBody] at hb
      split at hb
      · cases hb
      · rename_i hq
        have := ih s f (i + 1) _ hb (drop_succ_of_drop_cons hd) (by omega)
        simp only [skipString, hlt, hc, if_true, hq]
        simp [this]; omega

/-! ## Integer literals -/

theorem digitsValue_ge (ds : List Nat) : ∀ acc, acc ≤ digitsValue ds acc := by
  induction ds with
  | nil => intro acc; simp [digitsValue]
  | cons d ds ih =>
    intro acc
    have := ih (acc * 10 + (d - ZERO))
    simp only [digitsValue]; omega

theorem wrapInt64_of_lt {x : Int} (h0 : 0 ≤ x) (h1 : x < 2 ^ 63) : wrapInt64 x = x := by
  unfold wrapInt64
  rw [Int.emod_eq_of_lt (by omega) (by omega)]
  omega

theorem parseDigits_spec (buf : List Nat) :
    ∀ (ds s : List Nat) (fuel i acc : Nat), (∀ d ∈ ds, isDigit d = true) → StopsAt isDigit s →
      buf.drop i = ds ++ s → buf.length ≤ fuel + i → digitsValue ds acc < 2 ^ 63 →
      parseDigits buf fuel i (acc : Int) = (i + ds.length, (digitsValue ds acc : Int)) := by
  intro ds
  induction ds with
  | nil =>
    intro s fuel i acc _ hs hd _ _
    cases fuel with
    | zero => simp [parseDigits, digitsValue]
    | succ f =>
      cases s with
      | nil =>
        have := le_of_drop_nil hd
        simp [parseDigits, Nat.not_lt.mpr this, digitsValue]
      | cons c t =>
        have hb := byteAt_of_drop_cons hd
        have hc : isDigit c = false := hs c (by simp)
        simp [parseDigits, hb, hc, digitsValue]
  | cons d ds ih =>
    intro s fuel i acc hds hs hd hf hv
    have hlt := lt_of_drop_cons hd
    have hb := byteAt_of_drop_cons hd
    have hc : isDigit d = true := hds d (by simp)
    cases fuel with
    | zero => omega
    | succ f =>
      simp only [digitsValue] at hv
      have hge := digitsValue_ge ds (acc * 10 + (d - ZERO))
      have hw : wrapInt64 ((acc : Int) * 10 + ((d - ZERO : Nat) : Int))
          = ((acc * 10 + (d - ZERO) : Nat) : Int) := by
        rw [wrapInt64_of_lt] <;> push_cast <;> omega
      have := ih s f (i + 1) (acc * 10 + (d - ZERO)) (fun x hx => hds x (by simp [hx])) hs
        (drop_succ_of_drop_cons hd) (by omega) hv
      simp only [parseDigits, hlt, hb, hc, decide_True, Bool.and_self, if_true, hw, this,
        digitsValue, List.length_cons]
      rw [Nat.add_right_comm i 1 ds.length, Nat.add_assoc]

/-! ## Flat arrays -/

theorem FlatItems.append {a b : List Nat} {k m : Nat} (ha : FlatItems a k)
    (hb : FlatItems b m) : FlatItems (a ++ b) (k + m) := by
  induction ha with
  | nil => simpa using hb
  | plain c t k h1 h2 h3 h4 _ ih => exact FlatItems.plain c _ _ h1 h2 h3 h4 ih
  | comma t k _ ih =>
    have := FlatItems.comma _ _ ih
    rw [Nat.add_right_comm]
    exact this
  | string body t k hbody _ ih =>
    have := FlatItems.string body _ _ hbody ih
    simpa using this

/-- Inside a string literal, `countLoop` runs to the closing quote and goes on after it. -/
theorem countLoop_inString (buf : List Nat) (count : Nat) (depth : Int)
    (R : Nat × Nat × Bool) :
    ∀ (body s : List Nat) (fuel i : Nat) (escaped : Bool), isStringBody body escaped = true →
      buf.drop i = body ++ QUOTE :: s → buf.length ≤ fuel + i →
      (∀ fuel1, buf.length ≤ fuel1 + (i + body.length + 1) →
        countLoop buf fuel1 (i + body.length + 1) count false false depth = R) →
      countLoop buf fuel i count true escaped depth = R := by
  intro body
  induction body with
  | nil =>
    intro s fuel i escaped hb hd hf hk
    have hlt := lt_of_drop_cons hd
    have hc := byteAt_of_drop_cons hd
    cases fuel with
    | zero => omega
    | succ f =>
      simp [isStringBody] at hb
      have := hk f (by simp; omega)
      simp only [List.length_nil, Nat.add_zero] at this
      simp [countLoop, hlt, hc, hb, this, QUOTE, BACKSLASH]
  | cons c body ih =>
    intro s fuel i escaped hb hd hf hk
    have hlt := lt_of_drop_cons hd
    have hc := byteAt_of_drop_cons hd
    cases fuel with
    | zero => omega
    | succ f =>
      simp only [isStringBody] at hb
      split at hb
      · cases hb
      · rename_i hq
        have := ih s f (i + 1) _ hb (drop_succ_of_drop_cons hd) (by omega) (by
          intro fuel1 h1
          have := hk fuel1 (by simp only [List.length_cons]; omega)
          rw [← this]; congr 1; simp only [List.length_cons]; omega)
        simp only [countLoop, hlt, hc, if_true, hq]
        simpa using this

/-- Outside string literals, `countLoop` runs through flat items, counts their commas,
and goes on after them. -/
theorem countLoop_flat (buf : List Nat) (R : Nat × Nat × Bool) {items : List Nat} {k : Nat}
    (hitems : FlatItems items k) :
    ∀ (s : List Nat) (fuel i count : Nat),
      buf.drop i = items ++ s → buf.length ≤ fuel + i →
      (∀ fuel1, buf.length ≤ fuel1 + (i + items.length) →
        countLoop buf fuel1 (i + items.length) (count + k) false false 1 = R) →
      countLoop buf fuel i count false false 1 = R := by
  induction hitems with
  | nil =>
    intro s fuel i count _ hf hk
    simpa using hk fuel (by simpa using hf)
  | plain c t k h1 h2 h3 h4 _ ih =>
    intro s fuel i count hd hf hk
    have hlt := lt_of_drop_cons hd
    have hc := byteAt_of_drop_cons hd
    cases fuel with
    | zero => omega
    | succ f =>
      have := ih s f (i + 1) count (drop_succ_of_drop_cons hd) (by omega) (by
        intro fuel1 hf1
        have := hk fuel1 (by simp only [List.length_cons]; omega)
        rw [← this]; congr 1; simp only [List.length_cons]; omega)
      simp [countLoop, hlt, hc, h1, h2, h3, h4, this]
  | comma t k _ ih =>
    intro s fuel i count hd hf hk
    have hlt := lt_of_drop_cons hd
    have hc := byteAt_of_drop_cons hd
    cases fuel with
    | zero => omega
    | succ f =>
      have := ih s f (i + 1) (count + 1) (drop_succ_of_drop_cons hd) (by omega) (by
        intro fuel1 hf1
        have := hk fuel1 (by simp only [List.length_cons]; omega)
        rw [← this]
        rw [show i + 1 + t.length = i + (COMMA :: t).length by
          simp only [List.length_cons]; omega]
        rw [show count + 1 + k = count + (k + 1) by omega])
      simp [countLoop, hlt, hc, this, COMMA, QUOTE, LBRACKET, RBRACKET]
  | string body t k hbody _ ih =>
    intro s fuel i count hd hf hk
    have hlt := lt_of_drop_cons hd
    have hc := byteAt_of_drop_cons hd
    cases fuel with
    | zero => omega
    | succ f =>
      have hd1 : buf.drop (i + 1) = body ++ QUOTE :: (t ++ s) := by
        rw [drop_succ_of_drop_cons hd]; simp
      have := countLoop_inString buf count 1 R body (t ++ s) f (i + 1) false hbody hd1
        (by omega) (by
          intro fuel1 hf1
          apply ih s fuel1 (i + 1 + body.length + 1) count
          · have := drop_add_of_drop_append hd1
            have h2 := drop_succ_of_drop_cons this
            exact h2
          · exact hf1
          · intro fuel2 hf2
            have := hk fuel2 (by simp only [List.length_cons, List.length_append] at *; omega)
            rw [← this]; congr 1
            simp only [List.length_cons, List.length_append]; omega)
      simp [countLoop, hlt, hc, this]

theorem exists_run_split (p : Nat → Bool) (l : List Nat) :
    ∃ run rest, l = run ++ rest ∧ (∀ c ∈ run, p c = true) ∧ StopsAt p rest := by
  induction l with
  | nil => exact ⟨[], [], rfl, by simp, by simp [StopsAt]⟩
  | cons c t ih =>
    by_cases hc : p c = true
    · obtain ⟨run, rest, h1, h2, h3⟩ := ih
      refine ⟨c :: run, rest, by simp [h1], ?_, h3⟩
      intro x hx
      rcases List.mem_cons.mp hx with h | h
      · rw [h]; exact hc
      · exact h2 x h
    · refine ⟨[], c :: t, rfl, by simp, ?_⟩
      intro x hx
      simp at hx
      rw [← hx]; simpa using hc

theorem FlatItems.of_space_append {ws rest : List Nat} {k : Nat}
    (hws : ∀ c ∈ ws, isSpace c = true) (h : FlatItems (ws ++ rest) k) : FlatItems rest k := by
  induction ws with
  | nil => simpa using h
  | cons w ws ih =>
    have hw : isSpace w = true := hws w (by simp)
    have ih1 := ih (fun c hc => hws c (by simp [hc]))
    generalize hl : (w :: ws ++ rest) = l at h
    cases h with
    | nil => cases hl
    | plain c t k _ _ _ _ ht =>
      injection hl with h1 h2
      rw [← h2] at ht; exact ih1 ht
    | comma t k ht =>
      injection hl with h1 h2
      rw [h1] at hw; simp [isSpace, COMMA, SPACE, NEWLINE, CR, TAB] at hw
    | string body t k _ ht =>
      injection hl with h1 h2
      rw [h1] at hw; simp [isSpace, QUOTE, SPACE, NEWLINE, CR, TAB] at hw

theorem FlatItems.head_ne_rbracket {c : Nat} {t : List Nat} {k : Nat}
    (h : FlatItems (c :: t) k) : c ≠ RBRACKET := by
  generalize hl : (c :: t) = l at h
  cases h with
  | nil => cases hl
  | plain c1 t1 k _ _ h3 _ _ => injection hl with h1 h2; rw [h1]; exact h3
  | comma t1 k _ => injection hl with h1 h2; rw [h1]; simp [COMMA, RBRACKET]
  | string body t1 k _ _ => injection hl with h1 h2; rw [h1]; simp [QUOTE, RBRACKET]

/-- A closed flat array: the count is `0` when only white space stands between the
brackets, and one more than the number of commas outside strings otherwise; the end
is the index after the closing bracket. -/
theorem countArrayItemsAndEnd_flat (buf : List Nat) (start : Nat) {items s : List Nat}
    {k : Nat} (hitems : FlatItems items k)
    (hd : buf.drop start = LBRACKET :: (items ++ RBRACKET :: s)) :
    countArrayItemsAndEnd buf start
      = (if allSpace items then 0 else k + 1, start + items.length + 2, true) := by
  have hb := byteAt_of_drop_cons hd
  have hd1 := drop_succ_of_drop_cons hd
  obtain ⟨ws, rest, hsplit, hws, hstop⟩ := exists_run_split isSpace items
  have hrest : FlatItems rest k := FlatItems.of_space_append hws (hsplit ▸ hitems)
  have hd2 : buf.drop (start + 1) = ws ++ (rest ++ RBRACKET :: s) := by
    rw [hd1, hsplit]; simp
  have hstop2 : StopsAt isSpace (rest ++ RBRACKET :: s) := by
    cases rest with
    | nil => intro c hc; simp at hc; rw [← hc]; decide
    | cons c t => intro x hx; exact hstop x (by simpa using hx)
  have hskip : skipSpaces buf buf.length (start + 1) = start + 1 + ws.length :=
    advanceWhile_spec isSpace buf ws _ _ _ hws hstop2 hd2 (by omega)
  have hd3 := drop_add_of_drop_append hd2
  have hlen : items.length = ws.length + rest.length := by rw [hsplit]; simp
  unfold countArrayItemsAndEnd
  rw [hb, hskip]
  cases rest with
  | nil =>
    have hall : allSpace items = true := by
      rw [hsplit]; simp only [allSpace, List.append_nil, List.all_eq_true]; exact hws
    have hlt := lt_of_drop_cons hd3
    have hc := byteAt_of_drop_cons hd3
    simp at hlen
    simp [hlt, hc, hall, hlen]; omega
  | cons c t =>
    have hne := hrest.head_ne_rbracket
    have hcs : isSpace c = false := hstop c (by simp)
    have hall : allSpace items = false := by
      rw [hsplit]; simp only [allSpace, List.all_append, List.all_cons, hcs]; simp
    have hlt := lt_of_drop_cons hd3
    have hc := byteAt_of_drop_cons hd3
    have hfin : countLoop buf buf.length (start + 1 + ws.length) 1 false false 1
        = (k + 1, start + items.length + 2, true) := by
      apply countLoop_flat buf _ hrest (RBRACKET :: s) _ _ 1 hd3 (by omega)
      intro fuel1 hf1
      have hd4 := drop_add_of_drop_append hd3
      simp only [List.length_cons] at hd4 hlen hf1
      have hlt4 := lt_of_drop_cons hd4
      have hc4 := byteAt_of_drop_cons hd4
      cases fuel1 with
      | zero => omega
      | succ f =>
        simp [countLoop, hlt4, hc4, QUOTE, LBRACKET, RBRACKET, hlen]
        omega
    simp [hlt, hc, hne, hall, hfin, LBRACKET]

/-- A bracket that opens inside a flat array makes `countArrayItemsAndEnd` fail. -/
theorem countArrayItemsAndEnd_nested (buf : List Nat) (start : Nat) {items s : List Nat}
    {k : Nat} (hitems : FlatItems items k)
    (hd : buf.drop start = LBRACKET :: (items ++ LBRACKET :: s)) :
    (countArrayItemsAndEnd buf start).2.2 = false := by
  have hb := byteAt_of_drop_cons hd
  have hd1 := drop_succ_of_drop_cons hd
  obtain ⟨ws, rest, hsplit, hws, hstop⟩ := exists_run_split isSpace items
  have hrest : FlatItems rest k := FlatItems.of_space_append hws (hsplit ▸ hitems)
  have hd2 : buf.drop (start + 1) = ws ++ (rest ++ LBRACKET :: s) := by
    rw [hd1, hsplit]; simp
  have hstop2 : StopsAt isSpace (rest ++ LBRACKET :: s) := by
    cases rest with
    | nil => intro c hc; simp at hc; rw [← hc]; decide
    | cons c t => intro x hx; exact hstop x (by simpa using hx)
  have hskip : skipSpaces buf buf.length (start + 1) = start + 1 + ws.length :=
    advanceWhile_spec isSpace buf ws _ _ _ hws hstop2 hd2 (by omega)
  have hd3 := drop_add_of_drop_append hd2
  have hfin : countLoop buf buf.length (start + 1 + ws.length) 1 false false 1
      = (0, start + 1 + ws.length + rest.length, false) := by
    apply countLoop_flat buf _ hrest (LBRACKET :: s) _ _ 1 hd3 (by omega)
    intro fuel1 hf1
    have hd4 := drop_add_of_drop_append hd3
    have hlt4 := lt_of_drop_cons hd4
    have hc4 := byteAt_of_drop_cons hd4
    cases fuel1 with
    | zero => omega
    | succ f => simp [countLoop, hlt4, hc4, QUOTE, LBRACKET]
  have hne : ¬ (start + 1 + ws.length < buf.length
      ∧ byteAt buf (start + 1 + ws.length) = RBRACKET) := by
    intro ⟨_, h⟩
    cases rest with
    | nil => rw [byteAt_of_drop_cons hd3] at h; simp [LBRACKET, RBRACKET] at h
    | cons c t => rw [byteAt_of_drop_cons hd3] at h; exact hrest.head_ne_rbracket h
  unfold countArrayItemsAndEnd
  rw [hb, hskip]
  simp only [bne_self_eq_false, Bool.false_eq_true, if_false, Bool.and_eq_true,
    decide_eq_true_eq, beq_iff_eq, hne, hfin]

/-! ## The fuel of the loops

Every loop moves the cursor forward, so a loop that is started with at least
`len(buf) - i` units of fuel leaves through its own condition: more fuel does not change
its result. -/

theorem advanceWhile_fuel (p : Nat → Bool) (buf : List Nat) :
    ∀ (fuel fuel1 i : Nat), buf.length ≤ fuel + i → buf.length ≤ fuel1 + i →
      advanceWhile p buf fuel i = advanceWhile p buf fuel1 i := by
  intro fuel
  induction fuel with
  | zero =>
    intro fuel1 i h _
    cases fuel1 with
    | zero => rfl
    | succ f => simp [advanceWhile, Nat.not_lt.mpr (by omega : buf.length ≤ i)]
  | succ fuel ih =>
    intro fuel1 i h h1
    cases fuel1 with
    | zero => simp [advanceWhile, Nat.not_lt.mpr (by omega : buf.length ≤ i)]
    | succ f =>
      simp only [advanceWhile]
      split_ifs with hc
      · simp only [Bool.and_eq_true, decide_eq_true_eq] at hc
        exact ih f (i + 1) (by omega) (by omega)
      · rfl

theorem advanceWhile_ge (p : Nat → Bool) (buf : List Nat) :
    ∀ (fuel i : Nat), i ≤ advanceWhile p buf fuel i := by
  intro fuel
  induction fuel with
  | zero => intro i; simp [advanceWhile]
  | succ fuel ih =>
    intro i
    simp only [advanceWhile]
    split_ifs
    · exact Nat.le_trans (Nat.le_succ i) (ih (i + 1))
    · exact Nat.le_refl i

theorem scanString_fuel (buf : List Nat) :
    ∀ (fuel fuel1 i : Nat) (escaped : Bool), buf.length ≤ fuel + i → buf.length ≤ fuel1 + i →
      scanString buf fuel i escaped = scanString buf fuel1 i escaped := by
  intro fuel
  induction fuel with
  | zero =>
    intro fuel1 i escaped h _
    cases fuel1 with
    | zero => rfl
    | succ f => simp [scanString, Nat.not_lt.mpr (by omega : buf.length ≤ i)]
  | succ fuel ih =>
    intro fuel1 i escaped h h1
    cases fuel1 with
    | zero => simp [scanString, Nat.not_lt.mpr (by omega : buf.length ≤ i)]
    | succ f =>
      simp only [scanString]
      split_ifs with hlt hq
      · rfl
      · exact ih f (i + 1) _ (by omega) (by omega)
      · rfl

theorem scanString_ge (buf : List Nat) :
    ∀ (fuel i : Nat) (escaped : Bool), i ≤ scanString buf fuel i escaped := by
  intro fuel
  induction fuel with
  | zero => intro i _; simp [scanString]
  | succ fuel ih =>
    intro i escaped
    simp only [scanString]
    split_ifs
    · exact Nat.le_refl i
    · exact Nat.le_trans (Nat.le_succ i) (ih (i + 1) _)
    · exact Nat.le_refl i

theorem skipString_fuel (buf : List Nat) :
    ∀ (fuel fuel1 i : Nat) (escaped : Bool), buf.length ≤ fuel + i → buf.length ≤ fuel1 + i →
      skipString buf fuel i escaped = skipString buf fuel1 i escaped := by
  intro fuel
  induction fuel with
  | zero =>
    intro fuel1 i escaped h _
    cases fuel1 with
    | zero => rfl
    | succ f => simp [skipString, Nat.not_lt.mpr (by omega : buf.length ≤ i)]
  | succ fuel ih =>
    intro fuel1 i escaped h h1
    cases fuel1 with
    | zero => simp [skipString, Nat.not_lt.mpr (by omega : buf.length ≤ i)]
    | succ f =>
      simp only [skipString]
      split_ifs with hlt hq
      · rfl
      · exact ih f (i + 1) _ (by omega) (by omega)
      · rfl

theorem skipString_ge (buf : List Nat) :
    ∀ (fuel i : Nat) (escaped : Bool), i ≤ skipString buf fuel i escaped := by
  intro fuel
  induction fuel with
  | zero => intro i _; simp [skipString]
  | succ fuel ih =>
    intro i escaped
    simp only [skipString]
    split_ifs
    · exact Nat.le_succ i
    · exact Nat.le_trans (Nat.le_succ i) (ih (i + 1) _)
    · exact Nat.le_refl i

theorem skipObject_fuel (buf : List Nat) :
    ∀ (fuel fuel1 i : Nat) (depth : Int), buf.length ≤ fuel + i → buf.length ≤ fuel1 + i →
      skipObject buf fuel i depth = skipObject buf fuel1 i depth := by
  intro fuel
  induction fuel with
  | zero =>
    intro fuel1 i depth h _
    cases fuel1 with
    | zero => rfl
    | succ f => simp [skipObject, Nat.not_lt.mpr (by omega : buf.length ≤ i)]
  | succ fuel ih =>
    intro fuel1 i depth h h1
    cases fuel1 with
    | zero => simp [skipObject, Nat.not_lt.mpr (by omega : buf.length ≤ i)]
    | succ f =>
      have hs := skipString_ge buf buf.length (i + 1) false
      simp only [skipObject]
      split_ifs <;> first | rfl | exact ih f _ _ (by omega) (by omega)

theorem skipObject_ge (buf : List Nat) :
    ∀ (fuel i : Nat) (depth : Int), i ≤ skipObject buf fuel i depth := by
  intro fuel
  induction fuel with
  | zero => intro i _; simp [skipObject]
  | succ fuel ih =>
    intro i depth
    have hs := skipString_ge buf buf.length (i + 1) false
    simp only [skipObject]
    split_ifs <;>
      first
      | exact Nat.le_refl i
      | exact Nat.le_trans (Nat.le_succ i) (ih (i + 1) _)
      | exact Nat.le_trans (Nat.le_trans (Nat.le_succ i) hs) (ih _ _)

theorem parseDigits_fuel (buf : List Nat) :
    ∀ (fuel fuel1 i : Nat) (n : Int), buf.length ≤ fuel + i → buf.length ≤ fuel1 + i →
      parseDigits buf fuel i n = parseDigits buf fuel1 i n := by
  intro fuel
  induction fuel with
  | zero =>
    intro fuel1 i n h _
    cases fuel1 with
    | zero => rfl
    | succ f => simp [parseDigits, Nat.not_lt.mpr (by omega : buf.length ≤ i)]
  | succ fuel ih =>
    intro fuel1 i n h h1
    cases fuel1 with
    | zero => simp [parseDigits, Nat.not_lt.mpr (by omega : buf.length ≤ i)]
    | succ f =>
      simp only [parseDigits]
      split_ifs with hc
      · exact ih f (i + 1) _ (by omega) (by omega)
      · rfl

theorem parseDigits_ge (buf : List Nat) :
    ∀ (fuel i : Nat) (n : Int), i ≤ (parseDigits buf fuel i n).1 := by
  intro fuel
  induction fuel with
  | zero => intro i _; simp [parseDigits]
  | succ fuel ih =>
    intro i n
    simp only [parseDigits]
    split_ifs
    · exact Nat.le_trans (Nat.le_succ i) (ih (i + 1) _)
    · exact Nat.le_refl i

theorem countLoop_fuel (buf : List Nat) :
    ∀ (fuel fuel1 i count : Nat) (inString escaped : Bool) (depth : Int),
      buf.length ≤ fuel + i → buf.length ≤ fuel1 + i →
      countLoop buf fuel i count inString escaped depth
        = countLoop buf fuel1 i count inString escaped depth := by
  intro fuel
  induction fuel with
  | zero =>
    intro fuel1 i count inString escaped depth h _
    cases fuel1 with
    | zero => rfl
    | succ f => simp [countLoop, Nat.not_lt.mpr (by omega : buf.length ≤ i)]
  | succ fuel ih =>
    intro fuel1 i count inString escaped depth h h1
    cases fuel1 with
    | zero => simp [countLoop, Nat.not_lt.mpr (by omega : buf.length ≤ i)]
    | succ f =>
      simp only [countLoop]
      split_ifs <;> first | rfl | exact ih f (i + 1) _ _ _ _ (by omega) (by omega)

theorem countLoop_ge (buf : List Nat) :
    ∀ (fuel i count : Nat) (inString escaped : Bool) (depth : Int),
      i ≤ (countLoop buf fuel i count inString escaped depth).2.1 := by
  intro fuel
  induction fuel with
  | zero => intro i _ _ _ _; simp [countLoop]
  | succ fuel ih =>
    intro i count inString escaped depth
    simp only [countLoop]
    split_ifs <;>
      first
      | exact Nat.le_refl i
      | exact Nat.le_succ i
      | exact Nat.le_trans (Nat.le_succ i) (ih (i + 1) _ _ _ _)

theorem countArrayItemsAndEnd_ge (buf : List Nat) (start : Nat) :
    start ≤ (countArrayItemsAndEnd buf start).2.1 := by
  unfold countArrayItemsAndEnd
  have h1 := advanceWhile_ge isSpace buf buf.length (start + 1)
  have h2 := countLoop_ge buf buf.length (skipSpaces buf buf.length (start + 1)) 1 false false 1
  unfold skipSpaces at *
  simp only
  split_ifs
  · exact Nat.le_refl start
  · simp only; omega
  · omega

/-- An iteration that goes on has read the key, which is at least two bytes long. -/
theorem parseKey_advance (buf : List Nat) (i j : Nat) (k : List Nat)
    (h : parseKey buf i = .key k j) : i + 2 ≤ j := by
  have h1 := advanceWhile_ge isSpaceOrComma buf buf.length i
  have h2 := scanString_ge buf buf.length (skipSpacesCommas buf buf.length i + 1) false
  have h3 := advanceWhile_ge isSpace buf buf.length
    (scanString buf buf.length (skipSpacesCommas buf buf.length i + 1) false + 1)
  have h4 := advanceWhile_ge isSpace buf buf.length
    (skipSpaces buf buf.length
      (scanString buf buf.length (skipSpacesCommas buf buf.length i + 1) false + 1) + 1)
  simp only [parseKey] at h
  unfold skipSpaces skipSpacesCommas at *
  split_ifs at h
  injection h with _ hj
  omega

theorem checkValue_advance (buf key : List Nat) (j j1 : Nat) (st st1 : ScanState)
    (h : checkValue buf key j st = .next j1 st1) : j ≤ j1 := by
  have h1 := scanString_ge buf buf.length (j + 1) false
  have h2 := parseDigits_ge buf buf.length j 0
  have h3 := parseDigits_ge buf buf.length (j + 1) 0
  have h4 := countArrayItemsAndEnd_ge buf j
  have h5 := skipString_ge buf buf.length (j + 1) false
  have h6 := skipObject_ge buf buf.length (j + 1) 1
  have h7 := advanceWhile_ge isScalarByte buf buf.length j
  simp only [checkValue] at h
  unfold skipScalar at h
  split_ifs at h <;> injection h with hj _ <;> omega

/-- An iteration of the pair loop that goes on moves the cursor forward by at least
two bytes. -/
theorem pairStep_advance (buf : List Nat) (i j : Nat) (st st1 : ScanState)
    (h : pairStep buf i st = .next j st1) : i + 2 ≤ j := by
  simp only [pairStep] at h
  cases hk : parseKey buf i with
  | stop j0 => simp [hk] at h
  | fail msg => simp [hk] at h
  | key k j0 =>
    simp only [hk] at h
    have := parseKey_advance buf i j0 k hk
    have := checkValue_advance buf k j0 j st st1 h
    omega

/-- The pair loop leaves through its own condition: more fuel than `len(buf) - i`
does not change its result. -/
theorem mainLoop_fuel_irrelevant (buf : List Nat) :
    ∀ (fuel fuel1 i : Nat) (st : ScanState), buf.length ≤ fuel + i → buf.length ≤ fuel1 + i →
      mainLoop buf fuel i st = mainLoop buf fuel1 i st := by
  intro fuel
  induction fuel with
  | zero =>
    intro fuel1 i st h _
    cases fuel1 with
    | zero => rfl
    | succ f => simp [mainLoop, Nat.not_lt.mpr (by omega : buf.length ≤ i)]
  | succ fuel ih =>
    intro fuel1 i st h h1
    cases fuel1 with
    | zero => simp [mainLoop, Nat.not_lt.mpr (by omega : buf.length ≤ i)]
    | succ f =>
      simp only [mainLoop]
      split_ifs with hlt
      · cases hp : pairStep buf i st with
        | stop j st1 => rfl
        | fail msg => rfl
        | next j st1 =>
          have := pairStep_advance buf i j st st1 hp
          exact ih f j st1 (by omega) (by omega)
      · rfl

/-! ## One pair -/

theorem keyUserId_body : isStringBody keyUserId false = true := by decide
theorem keySessionId_body : isStringBody keySessionId false = true := by decide
theorem keyTimestamp_body : isStringBody keyTimestamp false = true := by decide
theorem keyFeatures_body : isStringBody keyFeatures false = true := by decide

theorem stopsAt_cons {p : Nat → Bool} {c : Nat} {t : List Nat} (h : p c = false) :
    StopsAt p (c :: t) := by
  intro x hx
  simp at hx
  rw [← hx]; exact h

theorem allSpace_iff {l : List Nat} : allSpace l = true ↔ ∀ c ∈ l, isSpace c = true := by
  simp [allSpace]

/-- The head of an iteration on a pair: separators, the key, the colon, and the white
space around it are read, and the cursor stops on the first byte `c` of the value. -/
theorem parseKey_spec (buf : List Nat) (seps key wsA wsB : List Nat) (c : Nat) (t : List Nat)
    (i : Nat) (hseps : ∀ x ∈ seps, isSpaceOrComma x = true)
    (hkey : isStringBody key false = true) (hA : allSpace wsA = true)
    (hB : allSpace wsB = true) (hc : isSpace c = false)
    (hd : buf.drop i = seps ++ QUOTE :: (key ++ QUOTE :: (wsA ++ COLON :: (wsB ++ c :: t)))) :
    ∃ j, parseKey buf i = .key key j ∧ buf.drop j = c :: t ∧ i < j := by
  have h1 : skipSpacesCommas buf buf.length i = i + seps.length :=
    advanceWhile_spec _ buf seps _ _ _ hseps (stopsAt_cons (by decide)) hd (by omega)
  have hd1 := drop_add_of_drop_append hd
  have hlt1 := lt_of_drop_cons hd1
  have hb1 := byteAt_of_drop_cons hd1
  have hd2 := drop_succ_of_drop_cons hd1
  have h2 : scanString buf buf.length (i + seps.length + 1) false
      = i + seps.length + 1 + key.length :=
    scanString_spec buf key _ _ _ _ hkey hd2 (by omega)
  have hd3 := drop_add_of_drop_append hd2
  have hlt3 := lt_of_drop_cons hd3
  have hd4 := drop_succ_of_drop_cons hd3
  have h3 : skipSpaces buf buf.length (i + seps.length + 1 + key.length + 1)
      = i + seps.length + 1 + key.length + 1 + wsA.length :=
    advanceWhile_spec _ buf wsA _ _ _ (allSpace_iff.mp hA) (stopsAt_cons (by decide)) hd4
      (by omega)
  have hd5 := drop_add_of_drop_append hd4
  have hlt5 := lt_of_drop_cons hd5
  have hb5 := byteAt_of_drop_cons hd5
  have hd6 := drop_succ_of_drop_cons hd5
  have h4 : skipSpaces buf buf.length (i + seps.length + 1 + key.length + 1 + wsA.length + 1)
      = i + seps.length + 1 + key.length + 1 + wsA.length + 1 + wsB.length :=
    advanceWhile_spec _ buf wsB _ _ _ (allSpace_iff.mp hB) (stopsAt_cons hc) hd6 (by omega)
  have hd7 := drop_add_of_drop_append hd6
  have hlt7 := lt_of_drop_cons hd7
  have hkeyEq : List.take (i + seps.length + 1 + key.length - (i + seps.length + 1))
      (buf.drop (i + seps.length + 1)) = key := by
    rw [hd2, show i + seps.length + 1 + key.length - (i + seps.length + 1) = key.length by omega]
    simp
  refine ⟨i + seps.length + 1 + key.length + 1 + wsA.length + 1 + wsB.length, ?_, hd7,
    by omega⟩
  unfold parseKey
  simp only [h1, h2, h3, h4, hb1, hb5, hkeyEq, ge_iff_le, Nat.not_le.mpr hlt1,
    Nat.not_le.mpr hlt3, Nat.not_le.mpr hlt5, Nat.not_le.mpr hlt7]
  simp [QUOTE, RBRACE]

/-- The result of the `user_id` case on a string literal. -/
theorem checkValue_user (buf : List Nat) (body s : List Nat) (j : Nat) (st : ScanState)
    (hbody : isStringBody body false = true)
    (hd : buf.drop j = QUOTE :: (body ++ QUOTE :: s)) :
    checkValue buf keyUserId j st
      = if body.length < 1 ∨ body.length > 64 then .fail "user_id: length out of bounds"
        else .next (j + body.length + 2)
          { st with userLen := body.length, haveUser := true } := by
  have hb := byteAt_of_drop_cons hd
  have hd1 := drop_succ_of_drop_cons hd
  have h1 : scanString buf buf.length (j + 1) false = j + 1 + body.length :=
    scanString_spec buf body _ _ _ _ hbody hd1 (by omega)
  have hd2 := drop_add_of_drop_append hd1
  have hlt2 := lt_of_drop_cons hd2
  unfold checkValue
  simp only [if_true, hb, h1, ge_iff_le, Nat.not_le.mpr hlt2,
    show j + 1 + body.length - (j + 1) = body.length by omega]
  simp only [bne_self_eq_false, Bool.false_eq_true, if_false, Bool.or_eq_true,
    decide_eq_true_eq]
  split <;> simp; omega

/-- The result of the `session_id` case on a string literal. -/
theorem checkValue_sess (buf : List Nat) (body s : List Nat) (j : Nat) (st : ScanState)
    (hbody : isStringBody body false = true)
    (hd : buf.drop j = QUOTE :: (body ++ QUOTE :: s)) :
    checkValue buf keySessionId j st
      = if body.length < 1 ∨ body.length > 64 then .fail "session_id: length out of bounds"
        else .next (j + body.length + 2)
          { st with sessLen := body.length, haveSess := true } := by
  have hb := byteAt_of_drop_cons hd
  have hd1 := drop_succ_of_drop_cons hd
  have h1 : scanString buf buf.length (j + 1) false = j + 1 + body.length :=
    scanString_spec buf body _ _ _ _ hbody hd1 (by omega)
  have hd2 := drop_add_of_drop_append hd1
  have hlt2 := lt_of_drop_cons hd2
  have hk : keySessionId ≠ keyUserId := by decide
  unfold checkValue
  simp only [if_true, hb, h1, ge_iff_le, Nat.not_le.mpr hlt2, hk, if_false,
    show j + 1 + body.length - (j + 1) = body.length by omega]
  simp only [bne_self_eq_false, Bool.false_eq_true, if_false, Bool.or_eq_true,
    decide_eq_true_eq]
  split <;> simp; omega

/-! ## The values of the required fields -/

theorem isDigit_ne_minus {c : Nat} (h : isDigit c = true) : c ≠ MINUS := by
  intro hc
  rw [hc] at h
  exact absurd h (by decide)

/-- The result of the `timestamp` case on an unsigned digit string whose value fits in
`int64`. -/
theorem checkValue_ts (buf : List Nat) (ds s : List Nat) (j : Nat) (st : ScanState)
    (hne : ds ≠ []) (hds : ∀ d ∈ ds, isDigit d = true) (hs : StopsAt isDigit s)
    (hv : digitsValue ds 0 < 2 ^ 63) (hd : buf.drop j = ds ++ s) :
    checkValue buf keyTimestamp j st
      = if digitsValue ds 0 = 0 then .fail "timestamp: must be > 0"
        else .next (j + ds.length) { st with tsOK := true, haveTS := true } := by
  obtain ⟨d, ds1, rfl⟩ := List.exists_cons_of_ne_nil hne
  have hlt := lt_of_drop_cons hd
  have hb := byteAt_of_drop_cons hd
  have hdig : isDigit d = true := hds d (by simp)
  have hm : d ≠ MINUS := isDigit_ne_minus hdig
  have hp := parseDigits_spec buf (d :: ds1) s buf.length j 0 hds hs hd (by omega) hv
  simp only [Nat.cast_zero] at hp
  have hk1 : keyTimestamp ≠ keyUserId := by decide
  have hk2 : keyTimestamp ≠ keySessionId := by decide
  have hw : wrapInt64 ((digitsValue (d :: ds1) 0 : Nat) : Int) = (digitsValue (d :: ds1) 0 : Nat) :=
    wrapInt64_of_lt (by omega) (by exact_mod_cast hv)
  unfold checkValue
  simp only [hk1, hk2, if_false, if_true, hb, beq_iff_eq, hm, ge_iff_le, Nat.not_le.mpr hlt,
    hdig, hp, Bool.not_true, Bool.or_self, Bool.false_eq_true, mul_one, hw]
  by_cases h0 : digitsValue (d :: ds1) 0 = 0
  · simp [h0]
  · have : (0 : Int) < (digitsValue (d :: ds1) 0 : Nat) := by exact_mod_cast Nat.pos_of_ne_zero h0
    simp [h0, this]

/-- The result of the `timestamp` case on a minus sign and a digit string whose value
fits in `int64`. -/
theorem checkValue_ts_minus (buf : List Nat) (ds s : List Nat) (j : Nat) (st : ScanState)
    (hne : ds ≠ []) (hds : ∀ d ∈ ds, isDigit d = true) (hs : StopsAt isDigit s)
    (hv : digitsValue ds 0 < 2 ^ 63) (hd : buf.drop j = MINUS :: (ds ++ s)) :
    checkValue buf keyTimestamp j st = .fail "timestamp: must be > 0" := by
  obtain ⟨d, ds1, rfl⟩ := List.exists_cons_of_ne_nil hne
  have hb0 := byteAt_of_drop_cons hd
  have hd1 := drop_succ_of_drop_cons hd
  have hlt := lt_of_drop_cons hd1
  have hb := byteAt_of_drop_cons hd1
  have hdig : isDigit d = true := hds d (by simp)
  have hp := parseDigits_spec buf (d :: ds1) s buf.length (j + 1) 0 hds hs hd1 (by omega) hv
  simp only [Nat.cast_zero] at hp
  have hk1 : keyTimestamp ≠ keyUserId := by decide
  have hk2 : keyTimestamp ≠ keySessionId := by decide
  have hw : wrapInt64 ((digitsValue (d :: ds1) 0 : Nat) * (-1 : Int))
      = - ((digitsValue (d :: ds1) 0 : Nat) : Int) := by
    have h1 : ((digitsValue (d :: ds1) 0 : Nat) : Int) < 2 ^ 63 := by exact_mod_cast hv
    unfold wrapInt64
    rw [Int.emod_eq_of_lt (by omega) (by omega)]
    omega
  have hle : ¬ ((0 : Int) < - ((digitsValue (d :: ds1) 0 : Nat) : Int)) := by omega
  unfold checkValue
  simp only [hk1, hk2, if_false, if_true, hb0, beq_self_eq_true, ge_iff_le,
    Nat.not_le.mpr hlt, hb, hdig, hp, Bool.not_true, Bool.or_self, Bool.false_eq_true, hw]
  simp [hle]

theorem FlatItems.of_allSpace {ws : List Nat} (h : allSpace ws = true) : FlatItems ws 0 := by
  induction ws with
  | nil => exact FlatItems.nil
  | cons c t ih =>
    simp only [allSpace, List.all_cons, Bool.and_eq_true] at h
    have hc := h.1
    have h1 : c ≠ QUOTE := by rintro rfl; exact absurd hc (by decide)
    have h2 : c ≠ LBRACKET := by rintro rfl; exact absurd hc (by decide)
    have h3 : c ≠ RBRACKET := by rintro rfl; exact absurd hc (by decide)
    have h4 : c ≠ COMMA := by rintro rfl; exact absurd hc (by decide)
    exact FlatItems.plain c t 0 h1 h2 h3 h4 (ih (by simpa [allSpace] using h.2))

theorem FlatItems.of_tokenBytes {tok : List Nat} (h : tok.all isTokenByte = true) :
    FlatItems tok 0 := by
  induction tok with
  | nil => exact FlatItems.nil
  | cons c t ih =>
    simp only [List.all_cons, Bool.and_eq_true] at h
    have hc := h.1
    have h1 : c ≠ QUOTE := by rintro rfl; exact absurd hc (by decide)
    have h2 : c ≠ LBRACKET := by rintro rfl; exact absurd hc (by decide)
    have h3 : c ≠ RBRACKET := by rintro rfl; exact absurd hc (by decide)
    have h4 : c ≠ COMMA := by rintro rfl; exact absurd hc (by decide)
    exact FlatItems.plain c t 0 h1 h2 h3 h4 (ih h.2)

theorem allSpace_append (a b : List Nat) : allSpace (a ++ b) = (allSpace a && allSpace b) := by
  simp [allSpace]

/-- A well-formed element has no comma outside a string and is not blank. -/
theorem Elem.flat {e : Elem} (h : e.valid = true) :
    FlatItems e.bytes 0 ∧ allSpace e.bytes = false := by
  cases e with
  | token before tok after =>
    simp only [Elem.valid, Bool.and_eq_true] at h
    obtain ⟨⟨⟨h1, h2⟩, h3⟩, h4⟩ := h
    constructor
    · have := (FlatItems.of_allSpace h1).append ((FlatItems.of_tokenBytes h4).append
        (FlatItems.of_allSpace h2))
      simpa [Elem.bytes] using this
    · cases tok with
      | nil => simp at h3
      | cons c t =>
        simp only [List.all_cons, Bool.and_eq_true] at h4
        have hc : isSpace c = false := by
          have := h4.1
          simp only [isTokenByte, Bool.and_eq_true] at this
          simpa using this.1.1.1.1
        simp [Elem.bytes, allSpace, hc]
  | string before body after =>
    simp only [Elem.valid, Bool.and_eq_true] at h
    obtain ⟨⟨h1, h2⟩, h3⟩ := h
    constructor
    · have := (FlatItems.of_allSpace h1).append
        (FlatItems.string body after 0 h3 (FlatItems.of_allSpace h2))
      simpa [Elem.bytes] using this
    · have : isSpace QUOTE = false := by decide
      simp [Elem.bytes, allSpace, this]

/-- The elements of an array, joined by commas: one comma less than elements, and not
blank. -/
theorem flatItems_joinComma (e : Elem) (es : List Elem)
    (h : ∀ x ∈ e :: es, x.valid = true) :
    FlatItems (joinComma ((e :: es).map Elem.bytes)) es.length
      ∧ allSpace (joinComma ((e :: es).map Elem.bytes)) = false := by
  induction es generalizing e with
  | nil =>
    simpa [joinComma] using Elem.flat (h e (by simp))
  | cons e2 es ih =>
    have he := Elem.flat (h e (by simp))
    have ih1 := ih e2 (fun x hx => h x (by simp [hx]))
    constructor
    · have := he.1.append (FlatItems.comma _ _ ih1.1)
      simpa [joinComma] using this
    · simp only [List.map_cons, joinComma, allSpace_append, he.2, Bool.false_and]

/-- The result of the `features` case on a closed flat array. -/
theorem checkValue_feat (buf : List Nat) (items s : List Nat) (k j : Nat) (st : ScanState)
    (hitems : FlatItems items k)
    (hd : buf.drop j = LBRACKET :: (items ++ RBRACKET :: s)) :
    checkValue buf keyFeatures j st
      = if allSpace items = true ∨ 16384 < k + 1 then .fail "features: length out of bounds"
        else .next (j + items.length + 2) { st with featCount := k + 1, haveFeat := true } := by
  have hb := byteAt_of_drop_cons hd
  have hc := countArrayItemsAndEnd_flat buf j hitems hd
  have hk1 : keyFeatures ≠ keyUserId := by decide
  have hk2 : keyFeatures ≠ keySessionId := by decide
  have hk3 : keyFeatures ≠ keyTimestamp := by decide
  unfold checkValue
  simp only [hk1, hk2, hk3, if_false, if_true, hb, hc, bne_self_eq_false, Bool.false_eq_true,
    Bool.not_true]
  by_cases ha : allSpace items = true
  · simp [ha]
  · simp only [ha, if_false, false_or]
    by_cases hk : 16384 < k + 1
    · simp [hk]
    · simp [hk]

/-- The `features` case on a value that does not start with a bracket. -/
theorem checkValue_feat_notArray (buf : List Nat) (c : Nat) (t : List Nat) (j : Nat)
    (st : ScanState) (hc : c ≠ LBRACKET) (hd : buf.drop j = c :: t) :
    checkValue buf keyFeatures j st = .fail "features: not array" := by
  have hb := byteAt_of_drop_cons hd
  have hk1 : keyFeatures ≠ keyUserId := by decide
  have hk2 : keyFeatures ≠ keySessionId := by decide
  have hk3 : keyFeatures ≠ keyTimestamp := by decide
  unfold checkValue
  simp [hk1, hk2, hk3, hb, hc]

/-- The `features` case on an array with an opening bracket inside. -/
theorem checkValue_feat_nested (buf : List Nat) (items s : List Nat) (k j : Nat)
    (st : ScanState) (hitems : FlatItems items k)
    (hd : buf.drop j = LBRACKET :: (items ++ LBRACKET :: s)) :
    checkValue buf keyFeatures j st = .fail "features: invalid array" := by
  have hb := byteAt_of_drop_cons hd
  have hc := countArrayItemsAndEnd_nested buf j hitems hd
  have hk1 : keyFeatures ≠ keyUserId := by decide
  have hk2 : keyFeatures ≠ keySessionId := by decide
  have hk3 : keyFeatures ≠ keyTimestamp := by decide
  unfold checkValue
  simp [hk1, hk2, hk3, hb, hc]

/-! ## The values of other keys -/

/-- The object skipper runs through balanced content at an unchanged depth and goes on
after it. -/
theorem skipObject_balanced (buf : List Nat) (R : Nat) {content : List Nat}
    (hcontent : Balanced content) :
    ∀ (s : List Nat) (fuel i : Nat) (depth : Int), 0 < depth →
      buf.drop i = content ++ s → buf.length ≤ fuel + i →
      (∀ fuel1, buf.length ≤ fuel1 + (i + content.length) →
        skipObject buf fuel1 (i + content.length) depth = R) →
      skipObject buf fuel i depth = R := by
  induction hcontent with
  | nil =>
    intro s fuel i depth _ _ hf hk
    simpa using hk fuel (by simpa using hf)
  | plain c t h1 h2 h3 _ ih =>
    intro s fuel i depth hdep hd hf hk
    have hlt := lt_of_drop_cons hd
    have hc := byteAt_of_drop_cons hd
    cases fuel with
    | zero => omega
    | succ f =>
      have := ih s f (i + 1) depth hdep (drop_succ_of_drop_cons hd) (by omega) (by
        intro fuel1 hf1
        have := hk fuel1 (by simp only [List.length_cons]; omega)
        rw [← this]; congr 1; simp only [List.length_cons]; omega)
      simp [skipObject, hlt, hc, h1, h2, h3, hdep, this]
  | string body t hbody _ ih =>
    intro s fuel i depth hdep hd hf hk
    have hlt := lt_of_drop_cons hd
    have hc := byteAt_of_drop_cons hd
    cases fuel with
    | zero => omega
    | succ f =>
      have hd1 : buf.drop (i + 1) = body ++ QUOTE :: (t ++ s) := by
        rw [drop_succ_of_drop_cons hd]; simp
      have hskip : skipString buf buf.length (i + 1) false = i + 1 + body.length + 1 :=
        skipString_spec buf body _ _ _ _ hbody hd1 (by omega)
      have hd2 := drop_succ_of_drop_cons (drop_add_of_drop_append hd1)
      have hle : i + 1 + body.length + 1 ≤ buf.length := by
        have := lt_of_drop_cons (drop_add_of_drop_append hd1)
        omega
      have := ih s f (i + 1 + body.length + 1) depth hdep hd2 (by omega) (by
        intro fuel1 hf1
        have := hk fuel1 (by simp only [List.length_cons, List.length_append] at *; omega)
        rw [← this]; congr 1
        simp only [List.length_cons, List.length_append]; omega)
      simp [skipObject, hlt, hc, hdep, hskip, this]
  | nest inner t _ _ ihInner ihT =>
    intro s fuel i depth hdep hd hf hk
    have hlt := lt_of_drop_cons hd
    have hc := byteAt_of_drop_cons hd
    cases fuel with
    | zero => omega
    | succ f =>
      have hd1 : buf.drop (i + 1) = inner ++ (RBRACE :: (t ++ s)) := by
        rw [drop_succ_of_drop_cons hd]; simp
      have := ihInner (RBRACE :: (t ++ s)) f (i + 1) (depth + 1) (by omega) hd1 (by omega) (by
        intro fuel1 hf1
        have hd2 := drop_add_of_drop_append hd1
        have hlt2 := lt_of_drop_cons hd2
        have hc2 := byteAt_of_drop_cons hd2
        cases fuel1 with
        | zero => omega
        | succ f1 =>
          have := ihT s f1 (i + 1 + inner.length + 1) depth hdep (drop_succ_of_drop_cons hd2)
            (by omega) (by
              intro fuel2 hf2
              have := hk fuel2 (by
                simp only [List.length_cons, List.length_append] at *; omega)
              rw [← this]; congr 1
              simp only [List.length_cons, List.length_append]; omega)
          have hpos : 0 < depth + 1 := by omega
          simp [skipObject, hlt2, hc2, hpos, this, QUOTE, LBRACE, RBRACE])
      simp [skipObject, hlt, hc, hdep, this, QUOTE, LBRACE, RBRACE]

/-- The object skipper stops one past the brace that closes balanced content. -/
theorem skipObject_closed (buf : List Nat) {content : List Nat} (hcontent : Balanced content)
    (s : List Nat) (i : Nat) (hd : buf.drop i = content ++ RBRACE :: s) :
    skipObject buf buf.length i 1 = i + content.length + 1 := by
  apply skipObject_balanced buf _ hcontent (RBRACE :: s) _ _ 1 (by omega) hd (by omega)
  intro fuel1 hf1
  have hd2 := drop_add_of_drop_append hd
  have hlt2 := lt_of_drop_cons hd2
  have hc2 := byteAt_of_drop_cons hd2
  cases fuel1 with
  | zero => omega
  | succ f1 =>
    cases f1 with
    | zero => simp [skipObject, hlt2, hc2, QUOTE, LBRACE, RBRACE]
    | succ f2 => simp [skipObject, hlt2, hc2, QUOTE, LBRACE, RBRACE]

/-- The default case passes a skippable value and leaves the variables alone. -/
theorem checkValue_other (buf : List Nat) (key value s : List Nat) (j : Nat) (st : ScanState)
    (h1 : key ≠ keyUserId) (h2 : key ≠ keySessionId) (h3 : key ≠ keyTimestamp)
    (h4 : key ≠ keyFeatures) (hv : SkippableValue value) (hs : StopsAt isScalarByte s)
    (hd : buf.drop j = value ++ s) :
    checkValue buf key j st = .next (j + value.length) st := by
  cases hv with
  | string body hbody =>
    have hb := byteAt_of_drop_cons hd
    have hd1 : buf.drop (j + 1) = body ++ QUOTE :: s := by
      rw [drop_succ_of_drop_cons hd]; simp
    have hskip : skipString buf buf.length (j + 1) false = j + 1 + body.length + 1 :=
      skipString_spec buf body _ _ _ _ hbody hd1 (by omega)
    unfold checkValue
    simp only [h1, h2, h3, h4, if_false, hb, beq_self_eq_true, if_true, hskip]
    congr 1; simp; omega
  | scalar c t hc1 hc2 hc3 hall =>
    have hb := byteAt_of_drop_cons hd
    have hskip : skipScalar buf buf.length j = j + (c :: t).length :=
      advanceWhile_spec _ buf (c :: t) s _ _ hall hs hd (by omega)
    unfold checkValue
    simp only [h1, h2, h3, h4, if_false, hb, beq_iff_eq, hc1, hc2, hc3, hskip]
  | object content hcontent =>
    have hb := byteAt_of_drop_cons hd
    have hd1 : buf.drop (j + 1) = content ++ RBRACE :: s := by
      rw [drop_succ_of_drop_cons hd]; simp
    have hskip := skipObject_closed buf hcontent s (j + 1) hd1
    have hne : LBRACE ≠ QUOTE := by decide
    unfold checkValue
    simp only [h1, h2, h3, h4, if_false, hb, beq_iff_eq, hne, if_true, hskip]
    congr 1; simp; omega
  | array items k hitems =>
    have hb := byteAt_of_drop_cons hd
    have hd1 : buf.drop j = LBRACKET :: (items ++ RBRACKET :: s) := by
      rw [hd]; simp
    have hc := countArrayItemsAndEnd_flat buf j hitems hd1
    have hne1 : LBRACKET ≠ QUOTE := by decide
    have hne2 : LBRACKET ≠ LBRACE := by decide
    unfold checkValue
    simp only [h1, h2, h3, h4, if_false, hb, beq_iff_eq, hne1, hne2, if_true, hc,
      Bool.not_true, Bool.false_eq_true]
    congr 1; simp; omega

/-! ## The pair loop on well-formed pairs -/

theorem isSpaceOrComma_of_isSpace {c : Nat} (h : isSpace c = true) :
    isSpaceOrComma c = true := by
  simp [isSpaceOrComma, h]

theorem stopsAt_scalar_pad {ws s : List Nat} (hws : allSpace ws = true)
    (hs : StopsAt isScalarByte s) : StopsAt isScalarByte (ws ++ s) := by
  cases ws with
  | nil => simpa using hs
  | cons w t =>
    simp only [allSpace, List.all_cons, Bool.and_eq_true] at hws
    apply stopsAt_cons
    have hw := hws.1
    simp only [isSpace, Bool.or_eq_true, beq_iff_eq] at hw
    rcases hw with ((h | h) | h) | h <;> rw [h] <;> decide

theorem isDigit_isScalarByte {c : Nat} (h : isDigit c = true) : isScalarByte c = true := by
  simp only [isDigit, Bool.and_eq_true, decide_eq_true_eq, ZERO, NINE] at h
  simp only [isScalarByte, COMMA, RBRACE, NEWLINE, CR, TAB, SPACE, Bool.and_eq_true,
    bne_iff_ne, ne_eq]
  omega

theorem stopsAt_digit_of_scalar {s : List Nat} (hs : StopsAt isScalarByte s) :
    StopsAt isDigit s := by
  intro c hc
  have := hs c hc
  by_contra hd
  rw [isDigit_isScalarByte (by simpa using hd)] at this
  cases this

theorem isSpace_of_isDigit {c : Nat} (h : isDigit c = true) : isSpace c = false := by
  simp only [isDigit, Bool.and_eq_true, decide_eq_true_eq, ZERO, NINE] at h
  simp only [isSpace, SPACE, NEWLINE, CR, TAB, Bool.or_eq_false_iff, beq_eq_false_iff_ne, ne_eq]
  omega

theorem isSpace_of_isScalarByte {c : Nat} (h : isScalarByte c = true) : isSpace c = false := by
  simp only [isScalarByte, COMMA, RBRACE, NEWLINE, CR, TAB, SPACE, Bool.and_eq_true,
    bne_iff_ne, ne_eq] at h
  simp only [isSpace, SPACE, NEWLINE, CR, TAB, Bool.or_eq_false_iff, beq_eq_false_iff_ne, ne_eq]
  omega

/-- An iteration on the pair `"key":value` reads the key and enters the `switch` with
the cursor on the first byte `c` of the value. -/
theorem pairStep_pair (buf : List Nat) (seps : List Nat) (p : Pad) (key : List Nat) (c : Nat)
    (vt s : List Nat) (i : Nat) (st : ScanState)
    (hseps : ∀ x ∈ seps, isSpaceOrComma x = true) (hp : p.valid = true)
    (hkey : isStringBody key false = true) (hc : isSpace c = false)
    (hd : buf.drop i = seps ++ (pairBytes p key (c :: vt) ++ s)) :
    ∃ j, pairStep buf i st = checkValue buf key j st
      ∧ buf.drop j = c :: (vt ++ (p.afterValue ++ s)) ∧ i < j := by
  simp only [Pad.valid, Bool.and_eq_true] at hp
  obtain ⟨⟨⟨hp1, hp2⟩, hp3⟩, _⟩ := hp
  have hseps2 : ∀ x ∈ seps ++ p.beforeKey, isSpaceOrComma x = true := by
    intro x hx
    rcases List.mem_append.mp hx with h | h
    · exact hseps x h
    · exact isSpaceOrComma_of_isSpace (allSpace_iff.mp hp1 x h)
  have hd2 : buf.drop i = (seps ++ p.beforeKey) ++ QUOTE :: (key ++ QUOTE :: (p.afterKey
      ++ COLON :: (p.afterColon ++ c :: (vt ++ (p.afterValue ++ s))))) := by
    rw [hd]; simp [pairBytes]
  obtain ⟨j, h1, h2, h3⟩ := parseKey_spec buf _ key _ _ c _ i hseps2 hkey hp2 hp3 hc hd2
  exact ⟨j, by simp [pairStep, h1], h2, h3⟩

theorem SkippableValue.head {value : List Nat} (h : SkippableValue value) :
    ∃ c vt, value = c :: vt ∧ isSpace c = false := by
  cases h with
  | string body _ => exact ⟨QUOTE, _, rfl, by decide⟩
  | scalar c t _ _ _ hall => exact ⟨c, t, rfl, isSpace_of_isScalarByte (hall c (by simp))⟩
  | object content _ => exact ⟨LBRACE, _, rfl, by decide⟩
  | array items k _ => exact ⟨LBRACKET, _, rfl, by decide⟩

/-- An iteration on a pair that satisfies the schema goes on after the value, records
the field of the pair and nothing else. -/
theorem pairStep_valid (buf : List Nat) (m : Member) (hm : m.Valid) (seps s : List Nat)
    (i : Nat) (st : ScanState) (hseps : ∀ x ∈ seps, isSpaceOrComma x = true)
    (hs : StopsAt isScalarByte s) (hd : buf.drop i = seps ++ (m.bytes ++ s)) :
    ∃ j st1, pairStep buf i st = .next j st1 ∧ i < j ∧ buf.drop j = m.pad.afterValue ++ s
      ∧ (∀ f, st1.has f = (st.has f || decide (m.field = some f)))
      ∧ (st.Sound → st1.Sound) := by
  cases m with
  | userId p body =>
    obtain ⟨hp, hv⟩ := hm
    simp only [validId, Bool.and_eq_true, decide_eq_true_eq] at hv
    obtain ⟨⟨hv1, hv2⟩, hv3⟩ := hv
    obtain ⟨j, h1, h2, h3⟩ := pairStep_pair buf seps p keyUserId QUOTE (body ++ [QUOTE]) s i st
      hseps hp keyUserId_body (by decide) (by simpa [Member.bytes, stringLit] using hd)
    have h2a : buf.drop j = QUOTE :: (body ++ QUOTE :: (p.afterValue ++ s)) := by
      rw [h2]; simp
    have hcv := checkValue_user buf body _ j st hv1 h2a
    rw [if_neg (by omega)] at hcv
    refine ⟨_, _, h1.trans hcv, by omega, ?_, ?_, ?_⟩
    · have := drop_add_of_drop_append (a := QUOTE :: (body ++ [QUOTE])) (s := p.afterValue ++ s)
        (by rw [h2a]; simp : buf.drop j = _)
      simpa [Member.pad, Nat.add_assoc] using this
    · intro f; cases f <;> simp [ScanState.has, Member.field]
    · simp [ScanState.Sound]
  | sessionId p body =>
    obtain ⟨hp, hv⟩ := hm
    simp only [validId, Bool.and_eq_true, decide_eq_true_eq] at hv
    obtain ⟨⟨hv1, hv2⟩, hv3⟩ := hv
    obtain ⟨j, h1, h2, h3⟩ := pairStep_pair buf seps p keySessionId QUOTE (body ++ [QUOTE]) s i
      st hseps hp keySessionId_body (by decide) (by simpa [Member.bytes, stringLit] using hd)
    have h2a : buf.drop j = QUOTE :: (body ++ QUOTE :: (p.afterValue ++ s)) := by
      rw [h2]; simp
    have hcv := checkValue_sess buf body _ j st hv1 h2a
    rw [if_neg (by omega)] at hcv
    refine ⟨_, _, h1.trans hcv, by omega, ?_, ?_, ?_⟩
    · have := drop_add_of_drop_append (a := QUOTE :: (body ++ [QUOTE])) (s := p.afterValue ++ s)
        (by rw [h2a]; simp : buf.drop j = _)
      simpa [Member.pad, Nat.add_assoc] using this
    · intro f; cases f <;> simp [ScanState.has, Member.field]
    · simp [ScanState.Sound]
  | timestamp p digits =>
    obtain ⟨hp, hv⟩ := hm
    simp only [validTimestamp, Bool.and_eq_true, decide_eq_true_eq, List.all_eq_true] at hv
    obtain ⟨⟨⟨hv1, hv2⟩, hv3⟩, hv4⟩ := hv
    cases digits with
    | nil => simp at hv1
    | cons d ds =>
      have hpv := hp
      simp only [Pad.valid, Bool.and_eq_true] at hpv
      obtain ⟨j, h1, h2, h3⟩ := pairStep_pair buf seps p keyTimestamp d ds s i st
        hseps hp keyTimestamp_body (isSpace_of_isDigit (hv2 d (by simp)))
        (by simpa [Member.bytes] using hd)
      have hcv := checkValue_ts buf (d :: ds) (p.afterValue ++ s) j st (by simp) hv2
        (stopsAt_digit_of_scalar (stopsAt_scalar_pad hpv.2 hs)) hv4 (by rw [h2]; simp)
      rw [if_neg (by omega)] at hcv
      refine ⟨_, _, h1.trans hcv, by omega, ?_, ?_, ?_⟩
      · exact drop_add_of_drop_append (a := d :: ds) (s := p.afterValue ++ s)
          (by rw [h2]; simp)
      · intro f; cases f <;> simp [ScanState.has, Member.field]
      · simp [ScanState.Sound]
  | features p ws elems =>
    obtain ⟨hp, hv⟩ := hm
    simp only [validFeatures, Bool.and_eq_true, decide_eq_true_eq, List.all_eq_true] at hv
    obtain ⟨⟨⟨hv1, hv2⟩, hv3⟩, hv4⟩ := hv
    cases elems with
    | nil => simp at hv3
    | cons e es =>
      obtain ⟨hflat, hblank⟩ := flatItems_joinComma e es hv2
      have hitems := (FlatItems.of_allSpace hv1).append hflat
      obtain ⟨j, h1, h2, h3⟩ := pairStep_pair buf seps p keyFeatures LBRACKET
        (ws ++ (joinComma ((e :: es).map Elem.bytes) ++ [RBRACKET])) s i st
        hseps hp keyFeatures_body (by decide) (by simpa [Member.bytes, arrayLit] using hd)
      have h2a : buf.drop j = LBRACKET :: ((ws ++ joinComma ((e :: es).map Elem.bytes))
          ++ RBRACKET :: (p.afterValue ++ s)) := by
        rw [h2]; simp
      have hcv := checkValue_feat buf _ _ _ j st hitems h2a
      have hnb : ¬ (allSpace (ws ++ joinComma ((e :: es).map Elem.bytes)) = true
          ∨ 16384 < 0 + es.length + 1) := by
        rw [allSpace_append, hblank]
        simp only [List.length_cons] at hv4
        simp; omega
      rw [if_neg hnb] at hcv
      refine ⟨_, _, h1.trans hcv, by omega, ?_, ?_, ?_⟩
      · have := drop_add_of_drop_append
          (a := LBRACKET :: ((ws ++ joinComma ((e :: es).map Elem.bytes)) ++ [RBRACKET]))
          (s := p.afterValue ++ s) (by rw [h2a]; simp : buf.drop j = _)
        simpa [Member.pad, Nat.add_assoc] using this
      · intro f; cases f <;> simp [ScanState.has, Member.field]
      · simp [ScanState.Sound]
  | pair p key value =>
    obtain ⟨hp, hkey, hk1, hk2, hk3, hk4, hv⟩ := hm
    obtain ⟨c, vt, rfl, hc⟩ := hv.head
    have hpv := hp
    simp only [Pad.valid, Bool.and_eq_true] at hpv
    obtain ⟨j, h1, h2, h3⟩ := pairStep_pair buf seps p key c vt s i st
      hseps hp hkey hc (by simpa [Member.bytes] using hd)
    have hcv := checkValue_other buf key (c :: vt) (p.afterValue ++ s) j st hk1 hk2 hk3 hk4 hv
      (stopsAt_scalar_pad hpv.2 hs) (by rw [h2]; simp)
    refine ⟨_, _, h1.trans hcv, by omega, ?_, ?_, ?_⟩
    · exact drop_add_of_drop_append (a := c :: vt) (s := p.afterValue ++ s) (by rw [h2]; simp)
    · intro f; cases f <;> simp [ScanState.has, Member.field]
    · exact id

/-- The head of an iteration on the closing brace of the object. -/
theorem parseKey_close (buf : List Nat) (seps s : List Nat) (i : Nat)
    (hseps : ∀ x ∈ seps, isSpaceOrComma x = true)
    (hd : buf.drop i = seps ++ RBRACE :: s) :
    parseKey buf i = .stop (i + seps.length + 1) := by
  have h1 : skipSpacesCommas buf buf.length i = i + seps.length :=
    advanceWhile_spec _ buf seps _ _ _ hseps (stopsAt_cons (by decide)) hd (by omega)
  have hd1 := drop_add_of_drop_append hd
  have hlt1 := lt_of_drop_cons hd1
  have hb1 := byteAt_of_drop_cons hd1
  unfold parseKey
  simp [h1, hb1, Nat.not_le.mpr hlt1]

theorem joinComma_cons_cons (a b : List Nat) (l : List (List Nat)) :
    joinComma (a :: b :: l) = a ++ COMMA :: joinComma (b :: l) := rfl

theorem Member.bytes_ne_nil (m : Member) : m.bytes ≠ [] := by
  cases m <;> simp [Member.bytes, pairBytes]

/-- The pair loop runs through pairs that satisfy the schema, records their fields,
and goes on with what follows them. -/
theorem mainLoop_members (buf : List Nat) (P : Except String (Nat × ScanState) → Prop) :
    ∀ (ms : List Member), (∀ m ∈ ms, m.Valid) → ∀ (seps tail : List Nat) (i fuel : Nat)
      (st : ScanState), (∀ x ∈ seps, isSpaceOrComma x = true) →
      (ms ≠ [] → StopsAt isScalarByte tail) →
      buf.drop i = seps ++ (joinComma (ms.map Member.bytes) ++ tail) →
      buf.length ≤ fuel + i →
      (∀ (fuel1 j : Nat) (st1 : ScanState) (seps1 : List Nat),
        (∀ x ∈ seps1, isSpaceOrComma x = true) → buf.drop j = seps1 ++ tail →
        buf.length ≤ fuel1 + j →
        (∀ f, st1.has f = (st.has f || decide (f ∈ fieldsOf ms))) →
        (st.Sound → st1.Sound) → P (mainLoop buf fuel1 j st1)) →
      P (mainLoop buf fuel i st) := by
  intro ms
  induction ms with
  | nil =>
    intro _ seps tail i fuel st hseps _ hd hf hk
    exact hk fuel i st seps hseps (by simpa [joinComma] using hd) hf
      (by intro f; simp [fieldsOf]) id
  | cons m ms ih =>
    intro hvalid seps tail i fuel st hseps htail hd hf hk
    have hm : m.Valid := hvalid m (by simp)
    have hms : ∀ x ∈ ms, x.Valid := fun x hx => hvalid x (by simp [hx])
    have hpad : allSpace m.pad.afterValue = true := by
      cases m <;> (simp only [Member.Valid, Pad.valid, Bool.and_eq_true] at hm
                   simp only [Member.pad]
                   exact hm.1.2)
    have hlt : i < buf.length := by
      by_contra hge
      rw [List.drop_of_length_le (by omega)] at hd
      have := congrArg List.length hd
      have hne : 0 < m.bytes.length := List.length_pos.mpr (Member.bytes_ne_nil m)
      cases ms <;> simp [joinComma] at this <;> omega
    cases fuel with
    | zero => omega
    | succ fuel0 =>
      cases ms with
      | nil =>
        have hd1 : buf.drop i = seps ++ (m.bytes ++ tail) := by
          simpa [joinComma] using hd
        obtain ⟨j, st1, h1, h2, h3, h4, h5⟩ :=
          pairStep_valid buf m hm seps tail i st hseps (htail (by simp)) hd1
        have := hk fuel0 j st1 m.pad.afterValue
          (fun x hx => isSpaceOrComma_of_isSpace (allSpace_iff.mp hpad x hx)) h3 (by omega)
          (by intro f
              rw [h4 f]
              cases hmf : m.field <;> simp [fieldsOf, List.filterMap_cons, hmf, eq_comm]) h5
        simpa [mainLoop, hlt, h1] using this
      | cons m2 ms2 =>
        have hd1 : buf.drop i = seps ++ (m.bytes
            ++ COMMA :: (joinComma ((m2 :: ms2).map Member.bytes) ++ tail)) := by
          rw [hd]; simp [joinComma]
        obtain ⟨j, st1, h1, h2, h3, h4, h5⟩ :=
          pairStep_valid buf m hm seps _ i st hseps (stopsAt_cons (by decide)) hd1
        have hseps1 : ∀ x ∈ m.pad.afterValue ++ [COMMA], isSpaceOrComma x = true := by
          intro x hx
          rcases List.mem_append.mp hx with h | h
          · exact isSpaceOrComma_of_isSpace (allSpace_iff.mp hpad x h)
          · simp at h; rw [h]; decide
        have := ih hms (m.pad.afterValue ++ [COMMA]) tail j fuel0 st1 hseps1
          (fun _ => htail (by simp)) (by rw [h3]; simp) (by omega) (by
            intro fuel1 j1 st2 seps1 hs1 hd2 hf1 hhas hsound
            apply hk fuel1 j1 st2 seps1 hs1 hd2 hf1
            · intro f
              rw [hhas f, h4 f]
              cases hmf : m.field <;>
                simp [fieldsOf, List.filterMap_cons, hmf, eq_comm, Bool.or_assoc]
            · exact fun h => hsound (h5 h))
        simpa [mainLoop, hlt, h1] using this

/-! ## GuardPredictRaw on rendered objects -/

theorem joinComma_split (xs : List (List Nat)) (y : List Nat) (ys : List (List Nat)) :
    joinComma (xs ++ y :: ys)
      = joinComma xs ++ (commaAfter xs ++ (y ++ (commaAfter ys ++ joinComma ys))) := by
  induction xs with
  | nil => cases ys <;> simp [joinComma, commaAfter]
  | cons x xs ih =>
    cases xs with
    | nil =>
      simp only [List.cons_append, List.nil_append, joinComma_cons_cons]
      have := ih
      simp only [List.nil_append, joinComma, commaAfter, List.isEmpty_nil, if_true] at this
      rw [this]
      simp [joinComma, commaAfter]
    | cons x2 xs2 =>
      simp only [List.cons_append, joinComma_cons_cons] at ih ⊢
      rw [ih]
      simp [commaAfter]

theorem commaAfter_sep (xs : List (List Nat)) :
    ∀ x ∈ commaAfter xs, isSpaceOrComma x = true := by
  intro x hx
  unfold commaAfter at hx
  split at hx
  · simp at hx
  · simp at hx; rw [hx]; decide

/-- The scan of a buffer that opens an object starts the pair loop after the brace. -/
theorem guard_start (buf lead body : List Nat) (hlead : allSpace lead = true)
    (hbuf : buf = lead ++ LBRACE :: body) :
    GuardPredictRaw buf
        = (match mainLoop buf buf.length (lead.length + 1) ScanState.init with
          | .error msg => .error msg
          | .ok r => finalCheck r.2)
      ∧ buf.drop (lead.length + 1) = body := by
  have hd : buf.drop 0 = lead ++ LBRACE :: body := by rw [hbuf]; rfl
  have h1 : skipSpaces buf buf.length 0 = 0 + lead.length :=
    advanceWhile_spec _ _ lead _ _ _ (allSpace_iff.mp hlead) (stopsAt_cons (by decide)) hd
      (by omega)
  have hd1 := drop_add_of_drop_append hd
  have hlt := lt_of_drop_cons hd1
  have hb := byteAt_of_drop_cons hd1
  have hd2 := drop_succ_of_drop_cons hd1
  simp only [Nat.zero_add] at hlt hb h1 hd2
  refine ⟨?_, hd2⟩
  unfold GuardPredictRaw
  simp only [h1, ge_iff_le, Nat.not_le.mpr hlt, hb, decide_False, bne_self_eq_false,
    Bool.or_self, Bool.false_eq_true, if_false]

theorem lt_of_drop_ne_nil {buf : List Nat} {j : Nat} {s : List Nat} (hd : buf.drop j = s)
    (hs : s ≠ []) : j < buf.length := by
  by_contra hge
  rw [List.drop_of_length_le (by omega)] at hd
  exact hs hd.symm

theorem finalCheck_of_has (st : ScanState) (fs : List Field) (hsound : st.Sound)
    (hhas : ∀ f, st.has f = decide (f ∈ fs)) :
    finalCheck st = if allFields fs = true then .ok () else .error "missing required fields" := by
  have h1 := hhas .user
  have h2 := hhas .sess
  have h3 := hhas .ts
  have h4 := hhas .feat
  simp only [ScanState.has] at h1 h2 h3 h4
  unfold finalCheck allFields
  rw [h1, h2, h3]
  by_cases hf : Field.feat ∈ fs
  · have h5 : st.haveFeat = true := by rw [h4]; simpa using hf
    have h6 := hsound h5
    rw [h5]
    by_cases hu : Field.user ∈ fs <;> by_cases hs : Field.sess ∈ fs <;>
      by_cases ht : Field.ts ∈ fs <;> simp [hu, hs, ht, hf, h6]
  · have h5 : st.haveFeat = false := by rw [h4]; simpa using hf
    rw [h5]
    simp [hf]

/-- On an object of pairs that satisfy the schema the scan succeeds when all four
required fields are among them, and reports missing fields otherwise. -/
theorem guard_render_valid (lead trail : List Nat) (ms : List Member)
    (hlead : allSpace lead = true) (hvalid : ∀ m ∈ ms, m.Valid) :
    GuardPredictRaw (lead ++ render ms ++ trail)
      = if allFields (fieldsOf ms) = true then .ok ()
        else .error "missing required fields" := by
  obtain ⟨buf, hB⟩ : ∃ buf, buf = lead ++ render ms ++ trail := ⟨_, rfl⟩
  have hbuf : buf = lead ++ LBRACE :: (joinComma (ms.map Member.bytes) ++ RBRACE :: trail) := by
    simp [hB, render, object]
  obtain ⟨hstart, hd⟩ := guard_start buf lead _ hlead hbuf
  rw [← hB, hstart]
  exact mainLoop_members buf
    (fun r => (match r with
      | .error msg => Except.error msg
      | .ok r => finalCheck r.2)
        = if allFields (fieldsOf ms) = true then .ok () else .error "missing required fields")
    ms hvalid [] (RBRACE :: trail) (lead.length + 1) buf.length ScanState.init (by simp)
    (fun _ => stopsAt_cons (by decide)) (by rw [hd]; simp) (by omega) (by
      intro fuel1 j st1 seps1 hs1 hd1 hf1 hhas hsound
      have hlt : j < buf.length := lt_of_drop_ne_nil hd1 (by simp)
      have hpk := parseKey_close _ seps1 trail j hs1 hd1
      cases fuel1 with
      | zero => omega
      | succ f =>
        simp only [mainLoop, hlt, if_true, pairStep, hpk]
        apply finalCheck_of_has st1 _ (hsound (by simp [ScanState.Sound, ScanState.init]))
        intro f
        rw [hhas f]
        cases f <;> simp [ScanState.has, ScanState.init])

/-- When the iteration on the pair `bad` fails, wherever it stands, the scan of an
object that holds `bad` after pairs that satisfy the schema returns the same error. -/
theorem guard_fail_at (lead trail : List Nat) (before after : List Member) (bad : Member)
    (msg : String) (hlead : allSpace lead = true) (hvalid : ∀ m ∈ before, m.Valid)
    (hbad : ∀ (buf seps s : List Nat) (i : Nat) (st : ScanState),
      (∀ x ∈ seps, isSpaceOrComma x = true) → StopsAt isScalarByte s →
      buf.drop i = seps ++ (bad.bytes ++ s) → pairStep buf i st = .fail msg) :
    GuardPredictRaw (lead ++ render (before ++ bad :: after) ++ trail) = .error msg := by
  obtain ⟨buf, hB⟩ : ∃ buf, buf = lead ++ render (before ++ bad :: after) ++ trail := ⟨_, rfl⟩
  obtain ⟨rest, hrest⟩ : ∃ rest, rest = commaAfter (after.map Member.bytes)
    ++ (joinComma (after.map Member.bytes) ++ RBRACE :: trail) := ⟨_, rfl⟩
  have hbuf : buf = lead ++ LBRACE :: (joinComma (before.map Member.bytes)
        ++ (commaAfter (before.map Member.bytes) ++ (bad.bytes ++ rest))) := by
    simp [hB, hrest, render, object, joinComma_split]
  have hstop : StopsAt isScalarByte rest := by
    rw [hrest]
    cases after with
    | nil => simp [commaAfter, joinComma]; exact stopsAt_cons (by decide)
    | cons a as => simp [commaAfter]; exact stopsAt_cons (by decide)
  obtain ⟨hstart, hd⟩ := guard_start buf lead _ hlead hbuf
  rw [← hB, hstart]
  have htail : before ≠ [] → StopsAt isScalarByte
      (commaAfter (before.map Member.bytes) ++ (bad.bytes ++ rest)) := by
    intro hne
    cases hb : before with
    | nil => exact absurd hb hne
    | cons b bs => simp [commaAfter]; exact stopsAt_cons (by decide)
  exact mainLoop_members buf
    (fun r => (match r with
      | .error msg => Except.error msg
      | .ok r => finalCheck r.2) = Except.error msg)
    before hvalid [] _ (lead.length + 1) buf.length ScanState.init (by simp) htail
    (by rw [hd]; simp) (by omega) (by
      intro fuel1 j st1 seps1 hs1 hd1 hf1 _ _
      have hne := Member.bytes_ne_nil bad
      have hlt : j < buf.length := lt_of_drop_ne_nil hd1 (by simp [hne])
      have hstep := hbad buf (seps1 ++ commaAfter (before.map Member.bytes)) rest j st1 (by
        intro x hx
        rcases List.mem_append.mp hx with h | h
        · exact hs1 x h
        · exact commaAfter_sep _ x h) hstop (by rw [hd1]; simp)
      cases fuel1 with
      | zero => omega
      | succ f => simp only [mainLoop, hlt, if_true, hstep])

/-! ## The claims -/

theorem scenarioAMembers_valid : ∀ m ∈ scenarioAMembers, m.Valid := by
  intro m hm
  simp only [scenarioAMembers, List.mem_cons, List.mem_singleton, List.not_mem_nil,
    or_false] at hm
  rcases hm with rfl | rfl | rfl | rfl <;> simp only [Member.Valid] <;> decide

theorem missingUserMembers_valid : ∀ m ∈ missingUserMembers, m.Valid := by
  intro m hm
  simp only [missingUserMembers, List.mem_cons, List.mem_singleton, List.not_mem_nil,
    or_false] at hm
  rcases hm with rfl | rfl | rfl | rfl
  · simp only [Member.Valid]; decide
  · refine ⟨by decide, by decide, by decide, by decide, by decide, by decide, ?_⟩
    exact SkippableValue.scalar _ _ (by decide) (by decide) (by decide) (by decide)
  · simp only [Member.Valid]; decide
  · simp only [Member.Valid]; decide

theorem allFields_of_perm {fs : List (Option Field)} {ms : List Member}
    (h : ms.map Member.field = fs)
    (hp : fs.Perm [some .user, some .sess, some .ts, some .feat]) :
    allFields (fieldsOf ms) = true := by
  have hmem : ∀ f : Field, some f ∈ ms.map Member.field → f ∈ fieldsOf ms := by
    intro f hf
    obtain ⟨m, hm, hmf⟩ := List.mem_map.mp hf
    exact List.mem_filterMap.mpr ⟨m, hm, hmf⟩
  have h1 := hmem .user (by rw [h]; exact hp.mem_iff.mpr (by simp))
  have h2 := hmem .sess (by rw [h]; exact hp.mem_iff.mpr (by simp))
  have h3 := hmem .ts (by rw [h]; exact hp.mem_iff.mpr (by simp))
  have h4 := hmem .feat (by rw [h]; exact hp.mem_iff.mpr (by simp))
  simp [allFields, h1, h2, h3, h4]

/-- Claim C1. A buffer that is an object (after optional white space `lead`, before any
bytes `trail`) holding exactly the four required fields, in any order, separated by
commas, each with a value within its bounds (`user_id` and `session_id` strings of 1 to
64 raw bytes, `timestamp` a positive integer literal below `2^63`, `features` a flat
array of 1 to 16384 scalar elements), is accepted: `GuardPredictRaw` returns `nil`. -/
theorem C1_valid_object_accepted (lead trail : List Nat) (ms : List Member)
    (hlead : allSpace lead = true) (hvalid : ∀ m ∈ ms, m.Valid)
    (hfour : (ms.map Member.field).Perm [some .user, some .sess, some .ts, some .feat]) :
    GuardPredictRaw (lead ++ render ms ++ trail) = .ok () := by
  rw [guard_render_valid lead trail ms hlead hvalid, if_pos (allFields_of_perm rfl hfour)]

/-- Scenario A satisfies the hypotheses of C1 and is accepted. -/
theorem C1_valid_object_accepted_witness :
    GuardPredictRaw ([] ++ render scenarioAMembers ++ []) = .ok () :=
  C1_valid_object_accepted [] [] scenarioAMembers (by decide) scenarioAMembers_valid
    (by decide)

/-- Claim C2. On an object whose pairs all satisfy the schema and in which a required key
`f` does not occur as a top-level key (in particular when exactly one of the four is
missing), `GuardPredictRaw` returns the error `missing required fields`. -/
theorem C2_missing_field (lead trail : List Nat) (ms : List Member) (f : Field)
    (hlead : allSpace lead = true) (hvalid : ∀ m ∈ ms, m.Valid)
    (hmissing : f ∉ fieldsOf ms) :
    GuardPredictRaw (lead ++ render ms ++ trail) = .error "missing required fields" := by
  rw [guard_render_valid lead trail ms hlead hvalid, if_neg]
  intro hall
  simp only [allFields, Bool.and_eq_true, decide_eq_true_eq] at hall
  cases f
  · exact hmissing hall.1.1.1
  · exact hmissing hall.1.1.2
  · exact hmissing hall.1.2
  · exact hmissing hall.2

/-- An object without `user_id` satisfies the hypotheses of C2 and is rejected. -/
theorem C2_missing_field_witness :
    GuardPredictRaw ([SPACE] ++ render missingUserMembers ++ [NEWLINE])
      = .error "missing required fields" :=
  C2_missing_field [SPACE] [NEWLINE] missingUserMembers .user (by decide)
    missingUserMembers_valid (by decide)

theorem scenarioARest_valid : ∀ m ∈ [] ++ scenarioARest, m.Valid := by
  intro m hm
  simp only [scenarioARest, List.nil_append, List.mem_cons, List.mem_singleton,
    List.not_mem_nil, or_false] at hm
  rcases hm with rfl | rfl | rfl <;> simp only [Member.Valid] <;> decide

theorem scenarioAHead_valid : ∀ m ∈ scenarioAHead ++ [], m.Valid := by
  intro m hm
  simp only [scenarioAHead, List.append_nil, List.mem_cons, List.mem_singleton,
    List.not_mem_nil, or_false] at hm
  rcases hm with rfl | rfl | rfl <;> simp only [Member.Valid] <;> decide

theorem fieldsOf_insert (before after : List Member) (m : Member) (g : Field) :
    g ∈ fieldsOf (before ++ m :: after) ↔ (g ∈ fieldsOf (before ++ after) ∨ m.field = some g) := by
  simp only [fieldsOf, List.filterMap_append, List.filterMap_cons, List.mem_append]
  cases hm : m.field with
  | none => simp
  | some f =>
    simp only [List.mem_cons, Option.some.injEq]
    constructor
    · rintro (h | h | h)
      · exact Or.inl (Or.inl h)
      · exact Or.inr h.symm
      · exact Or.inl (Or.inr h)
    · rintro ((h | h) | h)
      · exact Or.inl h
      · exact Or.inr (Or.inr h)
      · exact Or.inr (Or.inl h.symm)

theorem allFields_insert (before after : List Member) (m : Member) (f : Field)
    (hm : m.field = some f) (hothers : ∀ g, g ≠ f → g ∈ fieldsOf (before ++ after)) :
    allFields (fieldsOf (before ++ m :: after)) = true := by
  have key : ∀ g, g ∈ fieldsOf (before ++ m :: after) := by
    intro g
    rw [fieldsOf_insert]
    by_cases hg : g = f
    · exact Or.inr (by rw [hm, hg])
    · exact Or.inl (hothers g hg)
  simp [allFields, key]

theorem valid_insert {before after : List Member} {m : Member}
    (hvalid : ∀ x ∈ before ++ after, x.Valid) (hm : m.Valid) :
    ∀ x ∈ before ++ m :: after, x.Valid := by
  intro x hx
  rcases List.mem_append.mp hx with h | h
  · exact hvalid x (List.mem_append.mpr (Or.inl h))
  · rcases List.mem_cons.mp h with h | h
    · rw [h]; exact hm
    · exact hvalid x (List.mem_append.mpr (Or.inr h))

/-- Claim C3. In an otherwise-valid object (the other pairs satisfy the schema and hold
the other three required fields), let the value of `user_id` (respectively
`session_id`) be a string with the raw bytes `body` between its quotes. When the byte
count is 0 or greater than 64, `GuardPredictRaw` returns `user_id: length out of bounds`
(respectively `session_id: length out of bounds`); for every byte count from 1 to 64
the field is accepted and the scan succeeds. -/
theorem C3_id_length_bounds (lead trail : List Nat) (before after : List Member) (f : Field)
    (p : Pad) (body : List Nat) (hf : f = .user ∨ f = .sess) (hlead : allSpace lead = true)
    (hvalid : ∀ m ∈ before ++ after, m.Valid)
    (hothers : ∀ g, g ≠ f → g ∈ fieldsOf (before ++ after))
    (hp : p.valid = true) (hbody : isStringBody body false = true) :
    GuardPredictRaw (lead ++ render (before ++ idMember f p body :: after) ++ trail)
      = if body.length = 0 ∨ 64 < body.length then
          .error (f.name ++ ": length out of bounds")
        else .ok () := by
  by_cases hlen : body.length = 0 ∨ 64 < body.length
  · rw [if_pos hlen]
    apply guard_fail_at lead trail before after _ _ hlead
      (fun m hm => hvalid m (List.mem_append.mpr (Or.inl hm)))
    intro buf seps s i st hseps _ hd
    rcases hf with rfl | rfl
    · obtain ⟨j, h1, h2, _⟩ := pairStep_pair buf seps p keyUserId QUOTE (body ++ [QUOTE]) s i
        st hseps hp keyUserId_body (by decide)
        (by simpa [idMember, Member.bytes, stringLit] using hd)
      have hcv := checkValue_user buf body (p.afterValue ++ s) j st hbody
        (by rw [h2]; simp)
      rw [if_pos (by omega)] at hcv
      rw [h1, hcv]; rfl
    · obtain ⟨j, h1, h2, _⟩ := pairStep_pair buf seps p keySessionId QUOTE (body ++ [QUOTE]) s
        i st hseps hp keySessionId_body (by decide)
        (by simpa [idMember, Member.bytes, stringLit] using hd)
      have hcv := checkValue_sess buf body (p.afterValue ++ s) j st hbody
        (by rw [h2]; simp)
      rw [if_pos (by omega)] at hcv
      rw [h1, hcv]; rfl
  · rw [if_neg hlen]
    have hm : (idMember f p body).Valid ∧ (idMember f p body).field = some f := by
      have hv : validId body = true := by
        simp only [validId, Bool.and_eq_true, decide_eq_true_eq]
        exact ⟨⟨hbody, by omega⟩, by omega⟩
      rcases hf with rfl | rfl
      · exact ⟨⟨hp, hv⟩, rfl⟩
      · exact ⟨⟨hp, hv⟩, rfl⟩
    rw [guard_render_valid lead trail _ hlead (valid_insert hvalid hm.1),
      if_pos (allFields_insert before after _ f hm.2 hothers)]

/-- Scenario B (an empty `user_id` in front of the other three fields) satisfies the
hypotheses of C3 and gets the `user_id` bound violation. -/
theorem C3_id_length_bounds_witness :
    GuardPredictRaw ([] ++ render ([] ++ idMember .user Pad.tight [] :: scenarioARest) ++ [])
      = if ([] : List Nat).length = 0 ∨ 64 < ([] : List Nat).length then
          .error (Field.user.name ++ ": length out of bounds")
        else .ok () :=
  C3_id_length_bounds [] [] [] scenarioARest .user Pad.tight [] (Or.inl rfl) (by decide)
    scenarioARest_valid (by intro g hg; cases g <;> first | exact absurd rfl hg | decide)
    (by decide) (by decide)

set_option maxRecDepth 100000 in
/-- Claim C4, the code at the failing input. The timestamp literal `-9223372036854775809`
denotes a negative integer, but its digits wrap around in `int64` to
`-9223372036854775807`, which the sign turns into a positive number: the buffer is
accepted. -/
theorem C4_negative_timestamp_accepted :
    GuardPredictRaw (bytesOf
      "\x7b\"user_id\":\"u1\",\"session_id\":\"s1\",\"timestamp\":-9223372036854775809,\"features\":[1]\x7d")
      = .ok () := by
  decide

/-- Claim C5. In an otherwise-valid object, a `features` value that is a flat array of
`n` scalar elements makes `GuardPredictRaw` return `features: length out of bounds`
when `n = 0` or `n > 16384`, and is accepted (the scan succeeds) when `1 ≤ n ≤ 16384`;
a `features` value whose first byte `c` is not `'['` gets the different error
`features: not array`. -/
theorem C5_features_length (lead trail : List Nat) (before after : List Member) (p : Pad)
    (ws : List Nat) (elems : List Elem) (c : Nat) (vt : List Nat)
    (hlead : allSpace lead = true) (hvalid : ∀ m ∈ before ++ after, m.Valid)
    (hothers : ∀ g, g ≠ Field.feat → g ∈ fieldsOf (before ++ after))
    (hp : p.valid = true) (hws : allSpace ws = true) (helems : ∀ e ∈ elems, e.valid = true)
    (hc : c ≠ LBRACKET) (hcs : isSpace c = false) :
    GuardPredictRaw (lead ++ render (before ++ .features p ws elems :: after) ++ trail)
        = (if elems.length = 0 ∨ 16384 < elems.length then
            .error "features: length out of bounds"
          else .ok ())
      ∧ GuardPredictRaw (lead ++ render (before ++ .pair p keyFeatures (c :: vt) :: after)
          ++ trail) = .error "features: not array"
      ∧ ("features: not array" : String) ≠ "features: length out of bounds" := by
  refine ⟨?_, ?_, by decide⟩
  · by_cases hlen : elems.length = 0 ∨ 16384 < elems.length
    · rw [if_pos hlen]
      apply guard_fail_at lead trail before after _ _ hlead
        (fun m hm => hvalid m (List.mem_append.mpr (Or.inl hm)))
      intro buf seps s i st hseps _ hd
      obtain ⟨j, h1, h2, _⟩ := pairStep_pair buf seps p keyFeatures LBRACKET
        (ws ++ (joinComma (elems.map Elem.bytes) ++ [RBRACKET])) s i st
        hseps hp keyFeatures_body (by decide) (by simpa [Member.bytes, arrayLit] using hd)
      have h2a : buf.drop j = LBRACKET :: ((ws ++ joinComma (elems.map Elem.bytes))
          ++ RBRACKET :: (p.afterValue ++ s)) := by
        rw [h2]; simp
      cases elems with
      | nil =>
        have hcv := checkValue_feat buf _ _ _ j st
          ((FlatItems.of_allSpace hws).append FlatItems.nil) h2a
        rw [if_pos (Or.inl (by simpa [joinComma] using hws))] at hcv
        rw [h1, hcv]
      | cons e es =>
        obtain ⟨hflat, _⟩ := flatItems_joinComma e es helems
        have hcv := checkValue_feat buf _ _ _ j st ((FlatItems.of_allSpace hws).append hflat)
          h2a
        rw [if_pos (Or.inr (by simp only [List.length_cons] at hlen; omega))] at hcv
        rw [h1, hcv]
    · rw [if_neg hlen]
      have hm : (Member.features p ws elems).Valid := by
        refine ⟨hp, ?_⟩
        simp only [validFeatures, Bool.and_eq_true, decide_eq_true_eq, List.all_eq_true]
        exact ⟨⟨⟨hws, helems⟩, by omega⟩, by omega⟩
      rw [guard_render_valid lead trail _ hlead (valid_insert hvalid hm),
        if_pos (allFields_insert before after (.features p ws elems) .feat rfl hothers)]
  · apply guard_fail_at lead trail before after _ _ hlead
      (fun m hm => hvalid m (List.mem_append.mpr (Or.inl hm)))
    intro buf seps s i st hseps _ hd
    obtain ⟨j, h1, h2, _⟩ := pairStep_pair buf seps p keyFeatures c vt s i st
      hseps hp keyFeatures_body hcs (by simpa [Member.bytes] using hd)
    rw [h1, checkValue_feat_notArray buf c _ j st hc h2]

/-- Scenario D (an empty `features` array after the other three fields), together with
a `features` value that is the number `7`, satisfies the hypotheses of C5. -/
theorem C5_features_length_witness :
    GuardPredictRaw ([] ++ render (scenarioAHead ++ .features Pad.tight [] [] :: []) ++ [])
        = (if ([] : List Elem).length = 0 ∨ 16384 < ([] : List Elem).length then
            .error "features: length out of bounds"
          else .ok ())
      ∧ GuardPredictRaw ([] ++ render (scenarioAHead ++ .pair Pad.tight keyFeatures (55 :: [])
          :: []) ++ []) = .error "features: not array"
      ∧ ("features: not array" : String) ≠ "features: length out of bounds" :=
  C5_features_length [] [] scenarioAHead [] Pad.tight [] [] 55 [] (by decide)
    scenarioAHead_valid (by intro g hg; cases g <;> first | exact absurd rfl hg | decide)
    (by decide) (by decide) (by decide) (by decide) (by decide)

set_option maxRecDepth 100000 in
/-- Claim C6, counterexample. A nested array in `features` (Scenario E) and an
unterminated `features` array get one and the same classification,
`features: invalid array`: the nested array has no classification of its own. -/
theorem C6_nested_not_distinct :
    GuardPredictRaw scenarioE = .error "features: invalid array"
      ∧ GuardPredictRaw unterminatedFeatures = .error "features: invalid array" := by
  decide

/-- Claim C6, amended. In an otherwise-valid object, a `features` array with an opening
bracket inside it (after flat items `items`, outside string literals) makes
`GuardPredictRaw` return `features: invalid array`, which differs from
`features: not array`. -/
theorem C6_nested_array_invalid (lead trail : List Nat) (before after : List Member) (p : Pad)
    (items rest : List Nat) (k : Nat) (hlead : allSpace lead = true)
    (hvalid : ∀ m ∈ before ++ after, m.Valid) (hp : p.valid = true)
    (hitems : FlatItems items k) :
    GuardPredictRaw (lead ++ render (before
        ++ .pair p keyFeatures (LBRACKET :: (items ++ LBRACKET :: rest)) :: after) ++ trail)
        = .error "features: invalid array"
      ∧ ("features: invalid array" : String) ≠ "features: not array" := by
  refine ⟨?_, by decide⟩
  apply guard_fail_at lead trail before after _ _ hlead
    (fun m hm => hvalid m (List.mem_append.mpr (Or.inl hm)))
  intro buf seps s i st hseps _ hd
  obtain ⟨j, h1, h2, _⟩ := pairStep_pair buf seps p keyFeatures LBRACKET
    (items ++ LBRACKET :: rest) s i st hseps hp keyFeatures_body (by decide)
    (by simpa [Member.bytes] using hd)
  rw [h1, checkValue_feat_nested buf items (rest ++ (p.afterValue ++ s)) k j st hitems
    (by rw [h2]; simp)]

/-- Scenario E satisfies the hypotheses of the amended C6. -/
theorem C6_nested_array_invalid_witness :
    GuardPredictRaw ([] ++ render (scenarioAHead
        ++ .pair Pad.tight keyFeatures (LBRACKET :: ([] ++ LBRACKET :: bytesOf "1,2]]")) :: [])
        ++ []) = .error "features: invalid array"
      ∧ ("features: invalid array" : String) ≠ "features: not array" :=
  C6_nested_array_invalid [] [] scenarioAHead [] Pad.tight [] (bytesOf "1,2]]") 0 (by decide)
    scenarioAHead_valid (by decide) FlatItems.nil

set_option maxRecDepth 100000 in
/-- Claim C7, the code at the failing input. Scenario A is accepted, but with the
additional pair `"other":[[1,2],[3,4]]`, whose key is not recognized and whose value is
a well-formed array of arrays, the buffer is rejected with `invalid array`. -/
theorem C7_nested_array_pair_rejected :
    GuardPredictRaw scenarioA = .ok ()
      ∧ GuardPredictRaw scenarioAWithNestedOther = .error "invalid array" := by
  decide

/-- The values that the skipper does pass. When an object of pairs that satisfy the
schema is accepted, it is still accepted after the insertion, at any pair position, of
a pair whose key is a string other than the four recognized keys and whose value is a
string, a scalar token (number, `true`, `false`, `null`), an object, or an array
without an opening bracket inside it outside string literals. -/
theorem insert_unrecognized_accepted (lead trail : List Nat) (before after : List Member) (p : Pad)
    (key value : List Nat) (hlead : allSpace lead = true)
    (hvalid : ∀ m ∈ before ++ after, m.Valid)
    (haccepted : GuardPredictRaw (lead ++ render (before ++ after) ++ trail) = .ok ())
    (hnew : (Member.pair p key value).Valid) :
    GuardPredictRaw (lead ++ render (before ++ .pair p key value :: after) ++ trail)
      = .ok () := by
  rw [guard_render_valid lead trail _ hlead hvalid] at haccepted
  have hall : allFields (fieldsOf (before ++ after)) = true := by
    by_contra h
    rw [if_neg h] at haccepted
    cases haccepted
  rw [guard_render_valid lead trail _ hlead (valid_insert hvalid hnew), if_pos]
  simp only [allFields, Bool.and_eq_true, decide_eq_true_eq] at hall ⊢
  simp only [fieldsOf_insert, Member.field]
  exact ⟨⟨⟨Or.inl hall.1.1.1, Or.inl hall.1.1.2⟩, Or.inl hall.1.2⟩, Or.inl hall.2⟩

theorem metaMember_valid : (Member.pair Pad.tight (bytesOf "meta")
    (LBRACE :: (bytesOf "\"k\":\"\x7d\"" ++ [RBRACE]))).Valid := by
  refine ⟨by decide, by decide, by decide, by decide, by decide, by decide, ?_⟩
  apply SkippableValue.object
  exact Balanced.string (bytesOf "k") _ (by decide)
    (Balanced.plain COLON _ (by decide) (by decide) (by decide)
      (Balanced.string (bytesOf "\x7d") _ (by decide) Balanced.nil))

set_option maxRecDepth 100000 in
/-- Scenario A with the pair `"meta":{"k":"}"}` inserted after `user_id` is an instance
of `insert_unrecognized_accepted`. -/
theorem insert_unrecognized_accepted_witness :
    GuardPredictRaw ([] ++ render (scenarioAMembers.take 1
        ++ .pair Pad.tight (bytesOf "meta") (LBRACE :: (bytesOf "\"k\":\"\x7d\"" ++ [RBRACE]))
          :: scenarioAMembers.drop 1) ++ []) = .ok () :=
  insert_unrecognized_accepted [] [] (scenarioAMembers.take 1) (scenarioAMembers.drop 1) Pad.tight
    (bytesOf "meta") (LBRACE :: (bytesOf "\"k\":\"\x7d\"" ++ [RBRACE])) (by decide)
    scenarioAMembers_valid (by decide) metaMember_valid

set_option maxRecDepth 100000 in
/-- Claim C8, the code at the failing input. Scenario A without its closing brace holds
no `'}'` byte at all, and `GuardPredictRaw` accepts it: the pair loop ends at the end
of the buffer and the final test only looks at the four flags. -/
theorem C8_unclosed_object_accepted :
    GuardPredictRaw scenarioAUnclosed = .ok () ∧ RBRACE ∉ scenarioAUnclosed := by
  decide

set_option maxRecDepth 100000 in
/-- Claim C10, the code at the failing input. The buffer ends inside the string value of
the unrecognized key `x`, and `GuardPredictRaw` accepts it. -/
theorem C10_open_string_value_accepted :
    GuardPredictRaw scenarioAOpenString = .ok () := by
  decide

/-! ## The keys of an accepted buffer -/

/-- An iteration sets the flag of a required field only when its key is the key of
that field. -/
theorem checkValue_has (buf key : List Nat) (j j1 : Nat) (st st1 : ScanState)
    (h : checkValue buf key j st = .next j1 st1) (f : Field) (hf : st1.has f = true) :
    st.has f = true ∨ key = f.key := by
  simp only [checkValue] at h
  split_ifs at h <;> cases h <;> cases f <;> simp_all [ScanState.has, Field.key]

/-- The `switch` on the key never leaves the pair loop. -/
theorem checkValue_ne_stop (buf key : List Nat) (j j1 : Nat) (st st1 : ScanState) :
    checkValue buf key j st ≠ .stop j1 st1 := by
  intro h
  simp only [checkValue] at h
  split_ifs at h

/-- The flags at the exit of the pair loop were set at its entry or belong to keys
that the loop has read. -/
theorem mainLoop_has (buf : List Nat) :
    ∀ (fuel i : Nat) (st : ScanState) (r : Nat × ScanState),
      mainLoop buf fuel i st = .ok r → ∀ f : Field, r.2.has f = true →
      st.has f = true ∨ f.key ∈ scannedKeys buf fuel i st := by
  intro fuel
  induction fuel with
  | zero =>
    intro i st r h f hf
    simp only [mainLoop, Except.ok.injEq] at h
    subst h
    exact Or.inl hf
  | succ fuel ih =>
    intro i st r h f hf
    simp only [mainLoop] at h
    simp only [scannedKeys]
    split_ifs at h with hlt
    · simp only [pairStep] at h
      rw [if_pos hlt]
      cases hk : parseKey buf i with
      | stop j =>
        simp only [hk, Except.ok.injEq] at h
        subst h
        exact Or.inl hf
      | fail msg => simp [hk] at h
      | key k j =>
        simp only [hk] at h ⊢
        cases hc : checkValue buf k j st with
        | stop j1 st1 => exact absurd hc (checkValue_ne_stop buf k j j1 st st1)
        | fail msg => simp [hc] at h
        | next j1 st1 =>
          simp only [hc] at h ⊢
          rcases ih j1 st1 r h f hf with h1 | h1
          · rcases checkValue_has buf k j j1 st st1 hc f h1 with h2 | h2
            · exact Or.inl h2
            · exact Or.inr (by rw [h2]; simp)
          · exact Or.inr (List.mem_cons_of_mem _ h1)
    · simp only [Except.ok.injEq] at h
      subst h
      exact Or.inl hf

theorem finalCheck_ok (st : ScanState) (h : finalCheck st = .ok ()) (f : Field) :
    st.has f = true := by
  unfold finalCheck at h
  split_ifs at h with hc
  simp only [Bool.or_eq_true, Bool.not_eq_true', beq_iff_eq, not_or, Bool.not_eq_false]
    at hc
  cases f <;> simp [ScanState.has, hc]

set_option maxRecDepth 100000 in
/-- Claim C9, counterexample. Scenario A with a second `user_id` pair is accepted, and
the key `user_id` is read twice as a top-level key. -/
theorem C9_repeated_key_accepted :
    GuardPredictRaw scenarioATwoUsers = .ok ()
      ∧ (topLevelKeys scenarioATwoUsers).count keyUserId = 2 := by
  decide

/-- If `GuardPredictRaw` returns success on a buffer, then each of the four required keys
appears at least once among the keys that the scan reads as top-level keys. -/
theorem required_keys_scanned (buf : List Nat) (f : Field)
    (h : GuardPredictRaw buf = .ok ()) : 1 ≤ (topLevelKeys buf).count f.key := by
  unfold GuardPredictRaw at h
  unfold topLevelKeys
  simp only at h ⊢
  split_ifs at h with hc
  rw [if_neg hc]
  cases hm : mainLoop buf buf.length (skipSpaces buf buf.length 0 + 1) ScanState.init with
  | error msg => simp [hm] at h
  | ok r =>
    simp only [hm] at h
    have hf := finalCheck_ok r.2 h f
    rcases mainLoop_has buf _ _ _ r hm f hf with h1 | h1
    · cases f <;> simp [ScanState.has, ScanState.init] at h1
    · exact List.count_pos_iff.mpr h1

/-! ## The timestamp within the range of `int64` -/

/-- In an otherwise-valid object, let the `timestamp` value be the digits `digits`,
whose value is below `2^63`, after a minus sign or not. With the minus sign, or with
the value zero, `GuardPredictRaw` returns `timestamp: must be > 0`; without the sign
and with a positive value the scan succeeds. -/
theorem timestamp_in_range (lead trail : List Nat) (before after : List Member) (p : Pad)
    (digits : List Nat) (hlead : allSpace lead = true)
    (hvalid : ∀ m ∈ before ++ after, m.Valid)
    (hothers : ∀ g, g ≠ Field.ts → g ∈ fieldsOf (before ++ after))
    (hp : p.valid = true) (hne : digits ≠ []) (hdigits : ∀ d ∈ digits, isDigit d = true)
    (hrange : digitsValue digits 0 < 2 ^ 63) :
    GuardPredictRaw (lead ++ render (before ++ .pair p keyTimestamp (MINUS :: digits) :: after)
        ++ trail) = .error "timestamp: must be > 0"
      ∧ GuardPredictRaw (lead ++ render (before ++ .timestamp p digits :: after) ++ trail)
        = if digitsValue digits 0 = 0 then .error "timestamp: must be > 0" else .ok () := by
  have hpv := hp
  simp only [Pad.valid, Bool.and_eq_true] at hpv
  constructor
  · apply guard_fail_at lead trail before after _ _ hlead
      (fun m hm => hvalid m (List.mem_append.mpr (Or.inl hm)))
    intro buf seps s i st hseps hs hd
    obtain ⟨j, h1, h2, _⟩ := pairStep_pair buf seps p keyTimestamp MINUS digits s i st
      hseps hp keyTimestamp_body (by decide) (by simpa [Member.bytes] using hd)
    rw [h1, checkValue_ts_minus buf digits (p.afterValue ++ s) j st hne hdigits
      (stopsAt_digit_of_scalar (stopsAt_scalar_pad hpv.2 hs)) hrange h2]
  · by_cases hz : digitsValue digits 0 = 0
    · rw [if_pos hz]
      apply guard_fail_at lead trail before after _ _ hlead
        (fun m hm => hvalid m (List.mem_append.mpr (Or.inl hm)))
      intro buf seps s i st hseps hs hd
      obtain ⟨d, ds, rfl⟩ := List.exists_cons_of_ne_nil hne
      obtain ⟨j, h1, h2, _⟩ := pairStep_pair buf seps p keyTimestamp d ds s i st
        hseps hp keyTimestamp_body (isSpace_of_isDigit (hdigits d (by simp)))
        (by simpa [Member.bytes] using hd)
      have hcv := checkValue_ts buf (d :: ds) (p.afterValue ++ s) j st (by simp) hdigits
        (stopsAt_digit_of_scalar (stopsAt_scalar_pad hpv.2 hs)) hrange (by rw [h2]; simp)
      rw [if_pos hz] at hcv
      rw [h1, hcv]
    · rw [if_neg hz]
      have hm : (Member.timestamp p digits).Valid := by
        refine ⟨hp, ?_⟩
        simp only [validTimestamp, Bool.and_eq_true, decide_eq_true_eq, List.all_eq_true]
        refine ⟨⟨⟨?_, hdigits⟩, by omega⟩, hrange⟩
        cases digits with
        | nil => exact absurd rfl hne
        | cons d ds => rfl
      rw [guard_render_valid lead trail _ hlead (valid_insert hvalid hm),
        if_pos (allFields_insert before after (.timestamp p digits) .ts rfl hothers)]

/-! ## Strings that run to the end of the buffer -/

theorem scanString_open (buf : List Nat) :
    ∀ (body : List Nat) (fuel i : Nat) (escaped : Bool), isOpenBody body escaped = true →
      buf.drop i = body → buf.length ≤ fuel + i →
      buf.length ≤ scanString buf fuel i escaped := by
  intro body
  induction body with
  | nil =>
    intro fuel i escaped _ hd _
    exact Nat.le_trans (le_of_drop_nil hd) (scanString_ge buf fuel i escaped)
  | cons c body ih =>
    intro fuel i escaped hb hd hf
    have hlt := lt_of_drop_cons hd
    have hc := byteAt_of_drop_cons hd
    cases fuel with
    | zero => omega
    | succ f =>
      simp only [isOpenBody] at hb
      split at hb
      · cases hb
      · rename_i hq
        have := ih f (i + 1) _ hb (drop_succ_of_drop_cons hd) (by omega)
        simp only [scanString, hlt, hc, if_true, hq]
        simpa using this

/-- When the iteration on what follows pairs that satisfy the schema fails, the scan
returns the same error. -/
theorem guard_fail_prefix (lead : List Nat) (before : List Member) (tail : List Nat)
    (msg : String) (hlead : allSpace lead = true) (hvalid : ∀ m ∈ before, m.Valid)
    (htail : tail ≠ [])
    (hbad : ∀ (buf seps : List Nat) (i : Nat) (st : ScanState),
      (∀ x ∈ seps, isSpaceOrComma x = true) → buf.drop i = seps ++ tail →
      pairStep buf i st = .fail msg) :
    GuardPredictRaw (lead ++ LBRACE :: (joinComma (before.map Member.bytes)
      ++ (commaAfter (before.map Member.bytes) ++ tail))) = .error msg := by
  obtain ⟨buf, hB⟩ : ∃ buf, buf = lead ++ LBRACE :: (joinComma (before.map Member.bytes)
      ++ (commaAfter (before.map Member.bytes) ++ tail)) := ⟨_, rfl⟩
  obtain ⟨hstart, hd⟩ := guard_start buf lead _ hlead hB
  rw [← hB, hstart]
  have hstop : before ≠ [] → StopsAt isScalarByte
      (commaAfter (before.map Member.bytes) ++ tail) := by
    intro hne
    cases hb : before with
    | nil => exact absurd hb hne
    | cons b bs => simp [commaAfter]; exact stopsAt_cons (by decide)
  exact mainLoop_members buf
    (fun r => (match r with
      | .error msg => Except.error msg
      | .ok r => finalCheck r.2) = Except.error msg)
    before hvalid [] _ (lead.length + 1) buf.length ScanState.init (by simp) hstop
    (by rw [hd]; simp) (by omega) (by
      intro fuel1 j st1 seps1 hs1 hd1 hf1 _ _
      have hlt : j < buf.length := lt_of_drop_ne_nil hd1 (by simp [htail])
      have hstep := hbad buf (seps1 ++ commaAfter (before.map Member.bytes)) j st1 (by
        intro x hx
        rcases List.mem_append.mp hx with h | h
        · exact hs1 x h
        · exact commaAfter_sep _ x h) (by rw [hd1]; simp)
      cases fuel1 with
      | zero => omega
      | succ f => simp only [mainLoop, hlt, if_true, hstep])

/-- The part of claim C10 that the code keeps. After pairs that satisfy the schema, a
key string that runs to the end of the buffer makes `GuardPredictRaw` return
`invalid json: unterminated key`, and a `user_id` (respectively `session_id`) string
value that runs to the end of the buffer makes it return `user_id: unterminated`
(respectively `session_id: unterminated`). -/
theorem unterminated_key_or_id_rejected (lead : List Nat) (before : List Member)
    (ws wsA wsB body : List Nat) (hlead : allSpace lead = true)
    (hvalid : ∀ m ∈ before, m.Valid) (hws : allSpace ws = true) (hA : allSpace wsA = true)
    (hB : allSpace wsB = true) (hbody : isOpenBody body false = true) :
    GuardPredictRaw (lead ++ openObject (before.map Member.bytes ++ [ws ++ QUOTE :: body]))
        = .error "invalid json: unterminated key"
      ∧ GuardPredictRaw (lead ++ openObject (before.map Member.bytes
          ++ [pairBytes ⟨ws, wsA, wsB, []⟩ keyUserId (QUOTE :: body)]))
        = .error "user_id: unterminated"
      ∧ GuardPredictRaw (lead ++ openObject (before.map Member.bytes
          ++ [pairBytes ⟨ws, wsA, wsB, []⟩ keySessionId (QUOTE :: body)]))
        = .error "session_id: unterminated" := by
  have hpad : (Pad.mk ws wsA wsB []).valid = true := by
    simp only [Pad.valid, hws, hA, hB, Bool.and_self, Bool.true_and]
    rfl
  have hsplit : ∀ y : List Nat, openObject (before.map Member.bytes ++ [y])
      = LBRACE :: (joinComma (before.map Member.bytes)
        ++ (commaAfter (before.map Member.bytes) ++ y)) := by
    intro y
    simp [openObject, joinComma_split, commaAfter, joinComma]
  refine ⟨?_, ?_, ?_⟩
  · rw [hsplit]
    apply guard_fail_prefix lead before _ _ hlead hvalid (by simp)
    intro buf seps i st hseps hd
    have hseps2 : ∀ x ∈ seps ++ ws, isSpaceOrComma x = true := by
      intro x hx
      rcases List.mem_append.mp hx with h | h
      · exact hseps x h
      · exact isSpaceOrComma_of_isSpace (allSpace_iff.mp hws x h)
    have hd0 : buf.drop i = (seps ++ ws) ++ QUOTE :: body := by rw [hd]; simp
    have h1 : skipSpacesCommas buf buf.length i = i + (seps ++ ws).length :=
      advanceWhile_spec _ buf _ _ _ _ hseps2 (stopsAt_cons (by decide)) hd0 (by omega)
    have hd1 := drop_add_of_drop_append hd0
    have hlt1 := lt_of_drop_cons hd1
    have hb1 := byteAt_of_drop_cons hd1
    have h2 := scanString_open buf body buf.length (i + (seps ++ ws).length + 1) false hbody
      (drop_succ_of_drop_cons hd1) (by omega)
    simp only [pairStep, parseKey, h1, hb1, ge_iff_le, Nat.not_le.mpr hlt1, h2]
    simp [QUOTE, RBRACE]
  · rw [hsplit]
    apply guard_fail_prefix lead before _ _ hlead hvalid (by simp [pairBytes])
    intro buf seps i st hseps hd
    obtain ⟨j, h1, h2, _⟩ := pairStep_pair buf seps ⟨ws, wsA, wsB, []⟩ keyUserId QUOTE body []
      i st hseps hpad keyUserId_body (by decide) (by rw [hd]; simp)
    have hb := byteAt_of_drop_cons h2
    have h3 := scanString_open buf body buf.length (j + 1) false hbody
      (by rw [drop_succ_of_drop_cons h2]; simp) (by omega)
    rw [h1]
    simp only [checkValue, if_true, hb, ge_iff_le, h3]
    simp
  · rw [hsplit]
    apply guard_fail_prefix lead before _ _ hlead hvalid (by simp [pairBytes])
    intro buf seps i st hseps hd
    obtain ⟨j, h1, h2, _⟩ := pairStep_pair buf seps ⟨ws, wsA, wsB, []⟩ keySessionId QUOTE body
      [] i st hseps hpad keySessionId_body (by decide) (by rw [hd]; simp)
    have hb := byteAt_of_drop_cons h2
    have h3 := scanString_open buf body buf.length (j + 1) false hbody
      (by rw [drop_succ_of_drop_cons h2]; simp) (by omega)
    have hk : keySessionId ≠ keyUserId := by decide
    rw [h1]
    simp only [checkValue, hk, if_false, if_true, hb, ge_iff_le, h3]
    simp

/-! ## What a successful `countArrayItemsAndEnd` has read -/

theorem drop_eq_byteAt_cons {buf : List Nat} {i : Nat} (h : i < buf.length) :
    buf.drop i = byteAt buf i :: buf.drop (i + 1) := by
  rw [List.drop_eq_getElem_cons h]
  simp [byteAt, List.getD, List.getElem?_eq_getElem h]

/-- A loop `for i < len(buf) && p(buf[i]) { i++ }` passes bytes that satisfy `p` and
stops at the end of the buffer or on a byte that fails `p`. -/
theorem advanceWhile_run (p : Nat → Bool) (buf : List Nat) :
    ∀ (fuel i : Nat), buf.length ≤ fuel + i →
      ∃ run, buf.drop i = run ++ buf.drop (advanceWhile p buf fuel i)
        ∧ (∀ x ∈ run, p x = true) ∧ advanceWhile p buf fuel i = i + run.length
        ∧ StopsAt p (buf.drop (advanceWhile p buf fuel i)) := by
  intro fuel
  induction fuel with
  | zero =>
    intro i hf
    refine ⟨[], by simp [advanceWhile], by simp, by simp [advanceWhile], ?_⟩
    simp [advanceWhile, List.drop_of_length_le (by omega : buf.length ≤ i), StopsAt]
  | succ fuel ih =>
    intro i hf
    simp only [advanceWhile]
    split_ifs with hc
    · simp only [Bool.and_eq_true, decide_eq_true_eq] at hc
      obtain ⟨run, h1, h2, h3, h4⟩ := ih (i + 1) (by omega)
      refine ⟨byteAt buf i :: run, ?_, ?_, ?_, h4⟩
      · rw [drop_eq_byteAt_cons hc.1, h1]; rfl
      · intro x hx
        rcases List.mem_cons.mp hx with h | h
        · rw [h]; exact hc.2
        · exact h2 x h
      · rw [h3]; simp only [List.length_cons]; omega
    · refine ⟨[], by simp, by simp, by simp, ?_⟩
      by_cases hlt : i < buf.length
      · rw [drop_eq_byteAt_cons hlt]
        apply stopsAt_cons
        simpa [hlt] using hc
      · rw [List.drop_of_length_le (by omega)]
        simp [StopsAt]

/-- A successful run of the loop of `countArrayItemsAndEnd` has read, up to the closing
bracket, flat items (inside a string literal: first the rest of that literal), and its
count is the count at the start plus the commas outside the string literals. -/
theorem countLoop_sound (buf : List Nat) (c e : Nat) :
    ∀ (fuel i count : Nat) (inString escaped : Bool),
      countLoop buf fuel i count inString escaped 1 = (c, e, true) →
      (inString = false → escaped = false →
        ∃ items k, buf.drop i = items ++ RBRACKET :: buf.drop e ∧ FlatItems items k
          ∧ e = i + items.length + 1 ∧ c = count + k)
      ∧ (inString = true →
        ∃ body items k, buf.drop i = body ++ QUOTE :: (items ++ RBRACKET :: buf.drop e)
          ∧ isStringBody body escaped = true ∧ FlatItems items k
          ∧ e = i + body.length + 1 + items.length + 1 ∧ c = count + k) := by
  intro fuel
  induction fuel with
  | zero =>
    intro i count inString escaped h
    simp [countLoop] at h
  | succ fuel ih =>
    intro i count inString escaped h
    simp only [countLoop] at h
    by_cases hlt : i < buf.length
    · simp only [hlt, if_true] at h
      have hdrop := drop_eq_byteAt_cons hlt
      cases inString with
      | true =>
        simp only [if_true] at h
        refine ⟨by simp, fun _ => ?_⟩
        by_cases hq : (byteAt buf i == QUOTE && !escaped) = true
        · simp only [hq, if_true] at h
          have hq2 := hq
          simp only [Bool.and_eq_true, beq_iff_eq, Bool.not_eq_true'] at hq2
          have hesc : (byteAt buf i == BACKSLASH && !escaped) = false := by
            rw [hq2.1]; simp [QUOTE, BACKSLASH]
          rw [hesc] at h
          obtain ⟨items, k, h1, h2, h3, h4⟩ := (ih (i + 1) count false false h).1 rfl rfl
          refine ⟨[], items, k, ?_, ?_, h2, ?_, h4⟩
          · rw [hdrop, h1, hq2.1]; rfl
          · rw [hq2.2]; rfl
          · rw [h3]; simp
        · simp only [hq, if_false, Bool.false_eq_true] at h
          obtain ⟨body, items, k, h1, h2, h3, h4, h5⟩ := (ih (i + 1) count true _ h).2 rfl
          refine ⟨byteAt buf i :: body, items, k, ?_, ?_, h3, ?_, h5⟩
          · rw [hdrop, h1]; rfl
          · simp only [isStringBody, hq, if_false, Bool.false_eq_true]; exact h2
          · rw [h4]; simp only [List.length_cons]; omega
      | false =>
        simp only [Bool.false_eq_true, if_false] at h
        refine ⟨fun _ hesc => ?_, by simp⟩
        subst hesc
        by_cases hq : byteAt buf i = QUOTE
        · simp only [hq, beq_self_eq_true, if_true] at h
          obtain ⟨body, items, k, h1, h2, h3, h4, h5⟩ := (ih (i + 1) count true false h).2 rfl
          refine ⟨QUOTE :: (body ++ QUOTE :: items), k, ?_, FlatItems.string body items k h2 h3,
            ?_, h5⟩
          · rw [hdrop, h1, hq]; simp
          · rw [h4]; simp only [List.length_cons, List.length_append]; omega
        · by_cases hl : byteAt buf i = LBRACKET
          · simp [hq, hl, LBRACKET, QUOTE] at h
          · by_cases hr : byteAt buf i = RBRACKET
            · have h1 : (byteAt buf i == QUOTE) = false := by simpa using hq
              have h2 : (byteAt buf i == LBRACKET) = false := by simpa using hl
              simp only [h1, h2, Bool.false_eq_true, if_false, hr, beq_self_eq_true, if_true,
                show ((1 : Int) - 1 == 0) = true by decide] at h
              injection h with hc h'
              injection h' with he _
              refine ⟨[], 0, ?_, FlatItems.nil, ?_, ?_⟩
              · rw [hdrop, hr, ← he]; rfl
              · rw [← he]; simp
              · rw [← hc]; simp
            · by_cases hcm : byteAt buf i = COMMA
              · have h1 : (byteAt buf i == QUOTE) = false := by simpa using hq
                have h2 : (byteAt buf i == LBRACKET) = false := by simpa using hl
                have h3 : (byteAt buf i == RBRACKET) = false := by simpa using hr
                simp only [h1, h2, h3, Bool.false_eq_true, if_false, hcm, beq_self_eq_true,
                  if_true] at h
                obtain ⟨items, k, g1, g2, g3, g4⟩ := (ih (i + 1) (count + 1) false false h).1
                  rfl rfl
                refine ⟨COMMA :: items, k + 1, ?_, FlatItems.comma items k g2, ?_, ?_⟩
                · rw [hdrop, g1, hcm]; rfl
                · rw [g3]; simp only [List.length_cons]; omega
                · rw [g4]; omega
              · have h1 : (byteAt buf i == QUOTE) = false := by simpa using hq
                have h2 : (byteAt buf i == LBRACKET) = false := by simpa using hl
                have h3 : (byteAt buf i == RBRACKET) = false := by simpa using hr
                have h4 : (byteAt buf i == COMMA) = false := by simpa using hcm
                simp only [h1, h2, h3, h4, Bool.false_eq_true, if_false] at h
                obtain ⟨items, k, g1, g2, g3, g4⟩ := (ih (i + 1) count false false h).1 rfl rfl
                refine ⟨byteAt buf i :: items, k, ?_,
                  FlatItems.plain _ items k hq hl hr hcm g2, ?_, g4⟩
                · rw [hdrop, g1]; rfl
                · rw [g3]; simp only [List.length_cons]; omega
    · simp [hlt] at h

theorem countArrayItemsAndEnd_sound (buf : List Nat) (start c e : Nat)
    (hlt : start < buf.length) (hopen : byteAt buf start = LBRACKET)
    (hok : countArrayItemsAndEnd buf start = (c, e, true)) :
    ∃ items k, buf.drop start = LBRACKET :: (items ++ RBRACKET :: buf.drop e)
      ∧ FlatItems items k ∧ e = start + items.length + 2
      ∧ c = if allSpace items = true then 0 else k + 1 := by
  obtain ⟨run, h1, h2, h3, h4⟩ := advanceWhile_run isSpace buf buf.length (start + 1) (by omega)
  have hdrop := drop_eq_byteAt_cons hlt
  rw [hopen] at hdrop
  unfold countArrayItemsAndEnd at hok
  unfold skipSpaces at hok
  simp only [hopen, bne_self_eq_false, Bool.false_eq_true, if_false] at hok
  have hrun : allSpace run = true := allSpace_iff.mpr h2
  split_ifs at hok with hc
  · simp only [Bool.and_eq_true, decide_eq_true_eq, beq_iff_eq] at hc
    injection hok with hc0 h'
    injection h' with he _
    have hd2 := drop_eq_byteAt_cons hc.1
    rw [hc.2] at hd2
    refine ⟨run, 0, ?_, FlatItems.of_allSpace hrun, ?_, ?_⟩
    · rw [hdrop, h1, hd2, ← he]
    · rw [← he, h3]; omega
    · rw [hrun, ← hc0]; rfl
  · obtain ⟨items, k, g1, g2, g3, g4⟩ :=
      (countLoop_sound buf c e _ _ _ _ _ hok).1 rfl rfl
    refine ⟨run ++ items, k, ?_, ?_, ?_, ?_⟩
    · rw [hdrop, h1, g1]; simp
    · simpa using (FlatItems.of_allSpace hrun).append g2
    · rw [g3, h3]; simp only [List.length_append]; omega
    · have hns : allSpace (run ++ items) = false := by
        rw [allSpace_append, hrun, Bool.true_and]
        cases items with
        | nil =>
          exfalso
          apply hc
          have hj : advanceWhile isSpace buf buf.length (start + 1) < buf.length :=
            lt_of_drop_ne_nil g1 (by simp)
          have hb := byteAt_of_drop_cons (by simpa using g1 :
            buf.drop (advanceWhile isSpace buf buf.length (start + 1)) = RBRACKET :: buf.drop e)
          simp [hj, hb]
        | cons x t =>
          have := h4 x (by rw [g1]; simp)
          simp [allSpace, this]
      rw [hns, g4]; simp; omega

/-- Claim C12. Let `buf[start]` be `'['` and let `countArrayItemsAndEnd` return
`(c, e, true)`. Then `start < e ≤ len(buf)`; the bytes `items` between `buf[start]` and
`buf[e-1]` are flat items, which hold no bracket outside a string literal, so that
`buf[e-1]` is the first `']'` outside string literals after `start` and no `'['` stands
outside string literals before it; and `c` is `0` when `items` is white space only, and
otherwise one more than the number `k` of commas outside string literals in `items`.
Hence on a flat array of `n ≥ 1` comma-separated numbers or strings (which may hold
commas, brackets and escaped quotes) it returns the count `n` and the index after the
closing bracket. -/
theorem C12_countArrayItemsAndEnd_contract (buf : List Nat) (start c e : Nat)
    (pre ws rest : List Nat) (elems : List Elem)
    (hlt : start < buf.length) (hopen : byteAt buf start = LBRACKET)
    (hok : countArrayItemsAndEnd buf start = (c, e, true))
    (hws : allSpace ws = true) (helems : ∀ x ∈ elems, x.valid = true) (hne : elems ≠ []) :
    (start < e ∧ e ≤ buf.length
      ∧ ∃ items k, buf.drop start = LBRACKET :: (items ++ RBRACKET :: buf.drop e)
        ∧ e = start + items.length + 2 ∧ FlatItems items k
        ∧ c = if allSpace items = true then 0 else k + 1)
    ∧ countArrayItemsAndEnd (pre ++ (arrayLit ws elems ++ rest)) pre.length
        = (elems.length, pre.length + (arrayLit ws elems).length, true) := by
  constructor
  · obtain ⟨items, k, h1, h2, h3, h4⟩ := countArrayItemsAndEnd_sound buf start c e hlt hopen hok
    have hlen := congrArg List.length h1
    simp only [List.length_drop, List.length_cons, List.length_append] at hlen
    exact ⟨by omega, by omega, items, k, h1, h3, h2, h4⟩
  · obtain ⟨x, xs, rfl⟩ := List.exists_cons_of_ne_nil hne
    obtain ⟨hflat, hblank⟩ := flatItems_joinComma x xs helems
    have hitems := (FlatItems.of_allSpace hws).append hflat
    have hd : (pre ++ (arrayLit ws (x :: xs) ++ rest)).drop pre.length
        = LBRACKET :: ((ws ++ joinComma ((x :: xs).map Elem.bytes)) ++ RBRACKET :: rest) := by
      simp [arrayLit]
    rw [countArrayItemsAndEnd_flat _ _ hitems hd, allSpace_append, hblank]
    simp [arrayLit]
    omega

set_option maxRecDepth 100000 in
/-- The array `[1,"a,]",3]` at index 1 of `x[1,"a,]",3]y` satisfies the hypotheses of
C12: the count is 3 and the end is 12. -/
theorem C12_countArrayItemsAndEnd_contract_witness :
    (1 < 12 ∧ 12 ≤ arrayExample.length
      ∧ ∃ items k, arrayExample.drop 1 = LBRACKET :: (items ++ RBRACKET :: arrayExample.drop 12)
        ∧ 12 = 1 + items.length + 2 ∧ FlatItems items k
        ∧ 3 = if allSpace items = true then 0 else k + 1)
    ∧ countArrayItemsAndEnd ([120] ++ (arrayLit [] [.token [] [49] [],
          .string [] (bytesOf "a,]") [], .token [] [51] []] ++ [121])) ([120] : List Nat).length
        = ([Elem.token [] [49] [], .string [] (bytesOf "a,]") [], .token [] [51] []].length,
          ([120] : List Nat).length + (arrayLit [] [.token [] [49] [],
            .string [] (bytesOf "a,]") [], .token [] [51] []]).length, true) :=
  C12_countArrayItemsAndEnd_contract arrayExample 1 3 12 [120] [] [121]
    [.token [] [49] [], .string [] (bytesOf "a,]") [], .token [] [51] []]
    (by decide) (by decide) (by decide) (by decide) (by decide) (List.cons_ne_nil _ _)

/-- Claim C14. On a flat array of `n ≥ 1` scalar elements with a trailing comma before
the closing bracket (and optional white space `tws` after the comma),
`countArrayItemsAndEnd` does not fail: it returns `ok = true`, the count `n + 1`, and
the index after the closing bracket. -/
theorem C14_trailing_comma_overcounts (pre ws tws rest : List Nat) (elems : List Elem)
    (hws : allSpace ws = true) (htws : allSpace tws = true)
    (helems : ∀ x ∈ elems, x.valid = true) (hne : elems ≠ []) :
    countArrayItemsAndEnd
        (pre ++ (LBRACKET :: (ws ++ (joinComma (elems.map Elem.bytes)
          ++ (COMMA :: (tws ++ [RBRACKET])))) ++ rest)) pre.length
      = (elems.length + 1,
          pre.length + (ws.length + (joinComma (elems.map Elem.bytes)).length + tws.length + 3),
          true) := by
  obtain ⟨x, xs, rfl⟩ := List.exists_cons_of_ne_nil hne
  obtain ⟨hflat, hblank⟩ := flatItems_joinComma x xs helems
  have hitems := (FlatItems.of_allSpace hws).append
    (hflat.append (FlatItems.comma _ _ (FlatItems.of_allSpace htws)))
  have hd : (pre ++ (LBRACKET :: (ws ++ (joinComma ((x :: xs).map Elem.bytes)
      ++ (COMMA :: (tws ++ [RBRACKET])))) ++ rest)).drop pre.length
      = LBRACKET :: ((ws ++ (joinComma ((x :: xs).map Elem.bytes) ++ COMMA :: tws))
        ++ RBRACKET :: rest) := by
    simp
  rw [countArrayItemsAndEnd_flat _ _ hitems hd, allSpace_append, allSpace_append, hblank]
  simp
  omega

set_option maxRecDepth 100000 in
/-- The array `[1,2, ]` satisfies the hypotheses of C14: the count is 3. -/
theorem C14_trailing_comma_overcounts_witness :
    countArrayItemsAndEnd
        ([] ++ (LBRACKET :: ([] ++ (joinComma ([Elem.token [] [49] [],
          Elem.token [] [50] []].map Elem.bytes) ++ (COMMA :: ([SPACE] ++ [RBRACKET])))) ++ []))
        ([] : List Nat).length
      = ([Elem.token [] [49] [], Elem.token [] [50] []].length + 1,
          ([] : List Nat).length + (([] : List Nat).length + (joinComma ([Elem.token [] [49] [],
            Elem.token [] [50] []].map Elem.bytes)).length + [SPACE].length + 3), true) :=
  C14_trailing_comma_overcounts [] [] [SPACE] [] [.token [] [49] [], .token [] [50] []]
    (by decide) (by decide) (by decide) (List.cons_ne_nil _ _)

/-- The default case on an array with an opening bracket inside. -/
theorem checkValue_other_nested (buf : List Nat) (key items s : List Nat) (k j : Nat)
    (st : ScanState) (h1 : key ≠ keyUserId) (h2 : key ≠ keySessionId)
    (h3 : key ≠ keyTimestamp) (h4 : key ≠ keyFeatures) (hitems : FlatItems items k)
    (hd : buf.drop j = LBRACKET :: (items ++ LBRACKET :: s)) :
    checkValue buf key j st = .fail "invalid array" := by
  have hb := byteAt_of_drop_cons hd
  have hc := countArrayItemsAndEnd_nested buf j hitems hd
  have hne1 : LBRACKET ≠ QUOTE := by decide
  have hne2 : LBRACKET ≠ LBRACE := by decide
  unfold checkValue
  simp [h1, h2, h3, h4, hb, hc, hne1, hne2]

/-- Claim C13. In an otherwise-valid object, a pair whose key is not one of the four
recognized keys and whose value is an array with an opening bracket inside it (after
flat items `items`, outside string literals), such as `"other":[[1,2],[3,4]]`, is not
skipped: `GuardPredictRaw` returns the error `invalid array`. -/
theorem C13_nested_array_under_other_key (lead trail : List Nat) (before after : List Member)
    (p : Pad) (key items rest : List Nat) (k : Nat) (hlead : allSpace lead = true)
    (hvalid : ∀ m ∈ before ++ after, m.Valid) (hp : p.valid = true)
    (hkey : isStringBody key false = true) (h1 : key ≠ keyUserId) (h2 : key ≠ keySessionId)
    (h3 : key ≠ keyTimestamp) (h4 : key ≠ keyFeatures) (hitems : FlatItems items k) :
    GuardPredictRaw (lead ++ render (before
      ++ .pair p key (LBRACKET :: (items ++ LBRACKET :: rest)) :: after) ++ trail)
      = .error "invalid array" := by
  apply guard_fail_at lead trail before after _ _ hlead
    (fun m hm => hvalid m (List.mem_append.mpr (Or.inl hm)))
  intro buf seps s i st hseps _ hd
  obtain ⟨j, g1, g2, _⟩ := pairStep_pair buf seps p key LBRACKET
    (items ++ LBRACKET :: rest) s i st hseps hp hkey (by decide)
    (by simpa [Member.bytes] using hd)
  rw [g1, checkValue_other_nested buf key items (rest ++ (p.afterValue ++ s)) k j st h1 h2 h3
    h4 hitems (by rw [g2]; simp)]

/-- Scenario A with the pair `"other":[[1,2],[3,4]]` in front satisfies the hypotheses
of C13. -/
theorem C13_nested_array_under_other_key_witness :
    GuardPredictRaw ([] ++ render ([]
      ++ .pair Pad.tight (bytesOf "other") (LBRACKET :: ([] ++ LBRACKET :: bytesOf "1,2],[3,4]]"))
        :: scenarioAMembers) ++ []) = .error "invalid array" :=
  C13_nested_array_under_other_key [] [] [] scenarioAMembers Pad.tight (bytesOf "other") []
    (bytesOf "1,2],[3,4]]") 0 (by decide) scenarioAMembers_valid (by decide) (by decide)
    (by decide) (by decide) (by decide) (by decide) FlatItems.nil

theorem dropWhile_of_run (p : Nat → Bool) :
    ∀ (run s : List Nat), (∀ x ∈ run, p x = true) → StopsAt p s →
      (run ++ s).dropWhile p = s := by
  intro run
  induction run with
  | nil =>
    intro s _ hs
    cases s with
    | nil => rfl
    | cons c t =>
      have := hs c (by simp)
      simp [List.dropWhile, this]
  | cons x run ih =>
    intro s hrun hs
    have hx := hrun x (by simp)
    simp only [List.cons_append, List.dropWhile, hx]
    exact ih s (fun y hy => hrun y (by simp [hy])) hs

/-- Claim C15. On a buffer that is empty, or white space only, or whose first byte after
the leading white space is not `'{'`, `GuardPredictRaw` returns the error
`invalid json: not object`. -/
theorem C15_not_object (buf : List Nat)
    (h : (buf.dropWhile isSpace).head? ≠ some LBRACE) :
    GuardPredictRaw buf = .error "invalid json: not object" := by
  obtain ⟨run, h1, h2, h3, h4⟩ := advanceWhile_run isSpace buf buf.length 0 (by omega)
  have hdw : buf.dropWhile isSpace = buf.drop (advanceWhile isSpace buf buf.length 0) := by
    have := dropWhile_of_run isSpace run _ h2 h4
    rw [← h1] at this
    simpa using this
  rw [hdw] at h
  unfold GuardPredictRaw skipSpaces
  by_cases hlt : advanceWhile isSpace buf buf.length 0 < buf.length
  · have hd := drop_eq_byteAt_cons hlt
    rw [hd] at h
    have hne : byteAt buf (advanceWhile isSpace buf buf.length 0) ≠ LBRACE := by
      intro heq
      apply h
      simp [heq]
    simp [hne]
  · simp [Nat.not_lt.mp hlt]

/-- The buffers ` [1]` and the empty buffer satisfy the hypothesis of C15. -/
theorem C15_not_object_witness :
    GuardPredictRaw (bytesOf " [1]") = .error "invalid json: not object"
      ∧ GuardPredictRaw [] = .error "invalid json: not object" :=
  ⟨C15_not_object (bytesOf " [1]") (by decide), C15_not_object [] (by decide)⟩

/-! ## Pairs that the scan skips, and what stands between pairs -/

theorem balanced_append {a b : List Nat} (ha : Balanced a) (hb : Balanced b) :
    Balanced (a ++ b) := by
  induction ha with
  | nil => simpa using hb
  | plain c t h1 h2 h3 _ ih => exact Balanced.plain c _ h1 h2 h3 ih
  | string body t hbody _ ih =>
    have := Balanced.string body _ hbody ih
    simpa using this
  | nest inner t hinner _ _ ih =>
    have := Balanced.nest inner _ hinner ih
    simpa using this

theorem balanced_metadataEntry (e : List Nat × List Nat) (h1 : isStringBody e.1 false = true)
    (h2 : isStringBody e.2 false = true) : Balanced (metadataEntry e) :=
  Balanced.string e.1 _ h1
    (Balanced.plain COLON _ (by decide) (by decide) (by decide)
      (Balanced.string e.2 [] h2 Balanced.nil))

theorem balanced_metadataEntries (entries : List (List Nat × List Nat))
    (h : ∀ e ∈ entries, isStringBody e.1 false = true ∧ isStringBody e.2 false = true) :
    Balanced (joinComma (entries.map metadataEntry)) := by
  induction entries with
  | nil => exact Balanced.nil
  | cons e es ih =>
    have he := h e (by simp)
    have hes := ih (fun x hx => h x (by simp [hx]))
    cases es with
    | nil => simpa [joinComma] using balanced_metadataEntry e he.1 he.2
    | cons e2 es2 =>
      have := balanced_append (balanced_metadataEntry e he.1 he.2)
        (Balanced.plain COMMA _ (by decide) (by decide) (by decide) hes)
      simpa [joinComma] using this

set_option maxRecDepth 100000 in
/-- Claim C16, counterexample. Scenario A followed by a `metadata` object whose only key
is 65 bytes long, one more than the declared bound of 64, is accepted. -/
theorem C16_long_metadata_key_accepted :
    GuardPredictRaw (render longMetadataKeyMembers) = .ok ()
      ∧ 64 < (List.replicate 65 107).length := by
  decide

/-- Claim C16, amended. `GuardPredictRaw` does not check the bounds of `metadata`: an
accepted object of pairs that satisfy the schema is still accepted with an additional
top-level `metadata` object of any number of entries, whatever the lengths of their
keys and values. -/
theorem C16_metadata_not_checked (lead trail : List Nat) (before after : List Member) (p : Pad)
    (entries : List (List Nat × List Nat)) (hlead : allSpace lead = true)
    (hvalid : ∀ m ∈ before ++ after, m.Valid)
    (haccepted : GuardPredictRaw (lead ++ render (before ++ after) ++ trail) = .ok ())
    (hp : p.valid = true)
    (hentries : ∀ e ∈ entries, isStringBody e.1 false = true ∧ isStringBody e.2 false = true) :
    GuardPredictRaw (lead ++ render (before
      ++ .pair p keyMetadata (metadataObject entries) :: after) ++ trail) = .ok () :=
  insert_unrecognized_accepted lead trail before after p keyMetadata (metadataObject entries)
    hlead hvalid haccepted
    ⟨hp, by decide, by decide, by decide, by decide, by decide,
      SkippableValue.object _ (balanced_metadataEntries entries hentries)⟩

set_option maxRecDepth 100000 in
/-- Scenario A with a `metadata` object whose only key is 65 bytes long satisfies the
hypotheses of the amended C16. -/
theorem C16_metadata_not_checked_witness :
    GuardPredictRaw ([] ++ render (scenarioAMembers
      ++ .pair Pad.tight keyMetadata (metadataObject [(List.replicate 65 107, bytesOf "v")])
        :: []) ++ []) = .ok () :=
  C16_metadata_not_checked [] [] scenarioAMembers [] Pad.tight
    [(List.replicate 65 107, bytesOf "v")] (by decide)
    (by simpa using scenarioAMembers_valid) (by decide) (by decide) (by decide)

theorem scannedGaps_separators (buf : List Nat) :
    ∀ (fuel i : Nat) (st : ScanState), ∀ g ∈ scannedGaps buf fuel i st,
      ∀ x ∈ g, isSpaceOrComma x = true := by
  intro fuel
  induction fuel with
  | zero => intro i st g hg; simp [scannedGaps] at hg
  | succ fuel ih =>
    intro i st g hg
    have hgap : ∀ x ∈ (buf.drop i).take (skipSpacesCommas buf buf.length i - i),
        isSpaceOrComma x = true := by
      obtain ⟨run, h1, h2, h3, _⟩ := advanceWhile_run isSpaceOrComma buf buf.length i (by omega)
      unfold skipSpacesCommas
      rw [h3, h1, show i + run.length - i = run.length by omega]
      simpa using h2
    simp only [scannedGaps] at hg
    split_ifs at hg with hlt
    · cases hk : parseKey buf i with
      | stop j => simp [hk] at hg
      | fail msg => simp [hk] at hg
      | key k j =>
        simp only [hk] at hg
        cases hc : checkValue buf k j st with
        | stop j1 st1 =>
          simp only [hc, List.mem_singleton] at hg
          rw [hg]; exact hgap
        | fail msg =>
          simp only [hc, List.mem_singleton] at hg
          rw [hg]; exact hgap
        | next j1 st1 =>
          simp only [hc, List.mem_cons] at hg
          rcases hg with h | h
          · rw [h]; exact hgap
          · exact ih j1 st1 g h
    · simp at hg

set_option maxRecDepth 100000 in
/-- Claim C19, counterexample. Scenario A with a leading comma, no comma between
`user_id` and `session_id`, and two commas between `session_id` and `timestamp` is
accepted. -/
theorem C19_odd_commas_accepted :
    GuardPredictRaw scenarioAOddCommas = .ok ()
      ∧ topLevelGaps scenarioAOddCommas = [[COMMA], [], [COMMA, COMMA], [COMMA]] := by
  decide

/-- On every buffer, what the scan skips in front of each top-level key that it reads
(after `'{'`, and between the end of a value and the next key) is white space and commas
only. -/
theorem scanned_gaps_are_separators (buf : List Nat) :
    ∀ g ∈ topLevelGaps buf, ∀ x ∈ g, isSpaceOrComma x = true := by
  intro g hg
  unfold topLevelGaps at hg
  simp only at hg
  split_ifs at hg with hc
  · simp at hg
  · exact scannedGaps_separators buf _ _ _ g hg

/-! ## The entry points -/

/-- Claim C11. When `GuardPredictRaw` returns an error `e` on a buffer,
`GuardAndDecodePredict` returns exactly `e`, makes no call of the decoder and leaves the
destination as it was. The decoder is called only when `GuardPredictRaw` has returned
success, and then `GuardAndDecodePredict` returns the result of the decoder. -/
theorem C11_guard_failure_stops_decode {D : Type}
    (unmarshal : List Nat → D → Except String Unit × D) (buf : List Nat) (dst : D) :
    (∀ e, GuardPredictRaw buf = .error e →
        (GuardAndDecodePredict unmarshal buf dst).err = .error e
        ∧ (GuardAndDecodePredict unmarshal buf dst).dst = dst
        ∧ Event.decode ∉ (GuardAndDecodePredict unmarshal buf dst).events)
    ∧ (Event.decode ∈ (GuardAndDecodePredict unmarshal buf dst).events →
        GuardPredictRaw buf = .ok ())
    ∧ (GuardPredictRaw buf = .ok () →
        (GuardAndDecodePredict unmarshal buf dst).err = (unmarshal buf dst).1
        ∧ (GuardAndDecodePredict unmarshal buf dst).dst = (unmarshal buf dst).2
        ∧ (GuardAndDecodePredict unmarshal buf dst).events = [.guard, .decode]) := by
  cases hg : GuardPredictRaw buf with
  | error e0 =>
    refine ⟨?_, ?_, ?_⟩
    · intro e he
      injection he with he
      subst he
      simp [GuardAndDecodePredict, hg]
    · simp [GuardAndDecodePredict, hg]
    · intro h; cases h
  | ok u =>
    refine ⟨?_, ?_, ?_⟩
    · intro e he; cases he
    · intro _; cases u; rfl
    · intro _; simp [GuardAndDecodePredict, hg]

set_option maxRecDepth 100000 in
/-- On Scenario B the guard fails and a decoder that would change the destination is
not called; on Scenario A it is called and its result is returned. -/
theorem C11_guard_failure_stops_decode_witness :
    ((GuardAndDecodePredict (fun _ (d : Nat) => (Except.ok (), d + 1)) scenarioB 7).err
        = .error "user_id: length out of bounds"
      ∧ (GuardAndDecodePredict (fun _ (d : Nat) => (Except.ok (), d + 1)) scenarioB 7).dst = 7
      ∧ Event.decode
        ∉ (GuardAndDecodePredict (fun _ (d : Nat) => (Except.ok (), d + 1)) scenarioB 7).events)
    ∧ ((GuardAndDecodePredict (fun _ (d : Nat) => (Except.ok (), d + 1)) scenarioA 7).err
        = .ok ()
      ∧ (GuardAndDecodePredict (fun _ (d : Nat) => (Except.ok (), d + 1)) scenarioA 7).dst = 8
      ∧ (GuardAndDecodePredict (fun _ (d : Nat) => (Except.ok (), d + 1)) scenarioA 7).events
        = [.guard, .decode]) :=
  ⟨(C11_guard_failure_stops_decode (fun _ (d : Nat) => (Except.ok (), d + 1)) scenarioB 7).1
      "user_id: length out of bounds" (by decide),
    (C11_guard_failure_stops_decode (fun _ (d : Nat) => (Except.ok (), d + 1)) scenarioA
      7).2.2 (by decide)⟩

/-- Claim C17. In `DecodeValidateJSON` with a non-empty body: `validateFn` is called
only after the guard (when the destination is a `PredictRequest`) and the decode have
both succeeded; when `validateFn` is supplied and returns an error `e` there,
`DecodeValidateJSON` returns `e`; when the guard or the decode fails, that failure is
returned and `validateFn` is never called. -/
theorem C17_validateFn_after_guard_and_decode {D : Type}
    (unmarshal : List Nat → D → Except String Unit × D) (isPredict : Bool)
    (validateFn : Option (D → Except String Unit)) (w : Recorder) (buf : List Nat) (dst : D)
    (out : Outcome D) (hne : buf ≠ [])
    (hout : DecodeValidateJSON unmarshal isPredict validateFn w buf dst = out) :
    (Event.validate ∈ out.events →
        (isPredict = true → GuardPredictRaw buf = .ok ()) ∧ (unmarshal buf dst).1 = .ok ())
    ∧ (∀ f e, validateFn = some f → (isPredict = true → GuardPredictRaw buf = .ok ()) →
        (unmarshal buf dst).1 = .ok () → f (unmarshal buf dst).2 = .error e →
        out.err = .error e)
    ∧ (∀ e, isPredict = true → GuardPredictRaw buf = .error e →
        out.err = .error e ∧ Event.validate ∉ out.events)
    ∧ (∀ e, (isPredict = true → GuardPredictRaw buf = .ok ()) →
        (unmarshal buf dst).1 = .error e →
        out.err = .error e ∧ Event.validate ∉ out.events) := by
  have hlen : (buf.length == 0) = false := by
    cases buf with
    | nil => exact absurd rfl hne
    | cons x t => rfl
  subst hout
  cases isPredict with
  | true =>
    cases hg : GuardPredictRaw buf with
    | error e0 =>
      refine ⟨?_, ?_, ?_, ?_⟩
      · simp [DecodeValidateJSON, hlen, GuardAndDecodePredict, hg]
      · intro f e _ h; cases h rfl
      · intro e _ he
        injection he with he
        subst he
        simp [DecodeValidateJSON, hlen, GuardAndDecodePredict, hg]
      · intro e h; cases h rfl
    | ok u =>
      cases u
      cases hu : (unmarshal buf dst).1 with
      | error e1 =>
        refine ⟨?_, ?_, ?_, ?_⟩
        · simp [DecodeValidateJSON, hlen, GuardAndDecodePredict, hg, hu]
        · intro f e _ _ h; cases h
        · intro e _ h; cases h
        · intro e _ he
          injection he with he
          subst he
          simp [DecodeValidateJSON, hlen, GuardAndDecodePredict, hg, hu]
      | ok u1 =>
        cases u1
        refine ⟨fun _ => ⟨fun _ => rfl, rfl⟩, ?_, ?_, ?_⟩
        · intro f e hf _ _ hfe
          subst hf
          simp [DecodeValidateJSON, hlen, GuardAndDecodePredict, hg, hu, hfe]
        · intro e _ h; cases h
        · intro e _ h; cases h
  | false =>
    cases hu : (unmarshal buf dst).1 with
    | error e1 =>
      refine ⟨?_, ?_, ?_, ?_⟩
      · simp [DecodeValidateJSON, hlen, hu]
      · intro f e _ _ h; cases h
      · intro e h; cases h
      · intro e _ he
        injection he with he
        subst he
        simp [DecodeValidateJSON, hlen, hu]
    | ok u1 =>
      cases u1
      refine ⟨fun _ => ⟨fun h => (by cases h), rfl⟩, ?_, ?_, ?_⟩
      · intro f e hf _ _ hfe
        subst hf
        simp [DecodeValidateJSON, hlen, hu, hfe]
      · intro e h; cases h
      · intro e _ h; cases h

set_option maxRecDepth 100000 in
/-- The run of `TestDecodeValidateJSON_ValidationError` satisfies the hypotheses of C17:
the decode succeeds, `validateFn` is called and its error is returned. -/
theorem C17_validateFn_after_guard_and_decode_witness :
    (DecodeValidateJSON (D := Unit) decodeOk false
        (some (fun _ => Except.error "validation error")) ⟨200⟩ validationErrorBody ()).err
      = .error "validation error" :=
  (C17_validateFn_after_guard_and_decode (D := Unit) decodeOk false
    (some (fun _ => Except.error "validation error")) ⟨200⟩ validationErrorBody () _
    (by decide) rfl).2.1 (fun _ => Except.error "validation error") "validation error" rfl
    (fun h => by cases h) rfl rfl

set_option maxRecDepth 100000 in
/-- Claim C18, the code at the failing inputs. In the runs of
`TestDecodeValidateJSON_ValidationError` (the decode succeeds, `validateFn` fails) and of
`TestDecodeValidateJSON_InvalidJSON` (the decode fails), `DecodeValidateJSON` returns an
error and the recorder still has the status 200 that `httptest.NewRecorder()` gave it,
not 400. -/
theorem C18_status_not_written :
    ((DecodeValidateJSON (D := Unit) decodeOk false
          (some (fun _ => Except.error "validation error")) ⟨200⟩ validationErrorBody ()).err
        = .error "validation error"
      ∧ (DecodeValidateJSON (D := Unit) decodeOk false
          (some (fun _ => Except.error "validation error")) ⟨200⟩ validationErrorBody ()).w.code
        = 200)
    ∧ ((DecodeValidateJSON (D := Unit) decodeFail false (some (fun _ => Except.ok ())) ⟨200⟩
          invalidJSONBody ()).err
        = .error "invalid character '\x7d' looking for beginning of object key string"
      ∧ (DecodeValidateJSON (D := Unit) decodeFail false (some (fun _ => Except.ok ())) ⟨200⟩
          invalidJSONBody ()).w.code = 200) := by
  decide

/-- The response writer is the same after every run of `DecodeValidateJSON`. -/
theorem DecodeValidateJSON_leaves_writer {D : Type}
    (unmarshal : List Nat → D → Except String Unit × D) (isPredict : Bool)
    (validateFn : Option (D → Except String Unit)) (w : Recorder) (buf : List Nat) (dst : D) :
    (DecodeValidateJSON unmarshal isPredict validateFn w buf dst).w = w := by
  unfold DecodeValidateJSON
  simp only
  repeat' (first | rfl | split)

set_option maxRecDepth 100000 in
/-- Claim C20, the code at the failing inputs. On Scenario C (`timestamp` is `-5`) and
on Scenario E (`features` is `[[1,2]]`) the reference validator `fastValidatePredict`,
run on the value that `json.Unmarshal` decodes the buffer to and with the rules of the
struct tags, accepts, and `GuardPredictRaw` rejects. -/
theorem C20_reference_accepts_guard_rejects :
    (fastValidatePredict (fun _ => .ok scenarioCShape) validateGuardShape scenarioC = .ok ()
      ∧ GuardPredictRaw scenarioC = .error "timestamp: must be > 0")
    ∧ (fastValidatePredict (fun _ => .ok scenarioEShape) validateGuardShape scenarioE = .ok ()
      ∧ GuardPredictRaw scenarioE = .error "features: invalid array") := by
  decide

/-! ## The two counters on arrays without strings and brackets -/

theorem fastCountLoop_plain (inner : List Nat) :
    ∀ (fuel p count : Nat), inner.length ≤ fuel + p → (∀ c ∈ inner.drop p, c ≠ QUOTE) →
      fastCountLoop inner fuel p count false = count + (inner.drop p).count COMMA := by
  intro fuel
  induction fuel with
  | zero =>
    intro p count hf _
    simp [fastCountLoop, List.drop_of_length_le (by omega : inner.length ≤ p)]
  | succ fuel ih =>
    intro p count hf hq
    unfold fastCountLoop
    by_cases hp : p < inner.length
    · have hd := drop_eq_byteAt_cons hp
      have hc : byteAt inner p ≠ QUOTE := hq _ (by rw [hd]; simp)
      have hq1 : ∀ c ∈ inner.drop (p + 1), c ≠ QUOTE := by
        intro c hc1
        exact hq c (by rw [hd]; exact List.mem_cons_of_mem _ hc1)
      rw [if_pos hp]
      simp only [beq_iff_eq, hc, if_false, Bool.not_false, Bool.true_and]
      rw [ih (p + 1) _ (by omega) hq1, hd, List.count_cons]
      by_cases hcm : byteAt inner p = COMMA
      · simp [hcm]; omega
      · simp [hcm]
    · rw [if_neg hp]
      simp [List.drop_of_length_le (by omega : inner.length ≤ p)]

theorem flatItems_of_plain :
    ∀ (l : List Nat), (∀ c ∈ l, c ≠ QUOTE ∧ c ≠ LBRACKET ∧ c ≠ RBRACKET) →
      FlatItems l (l.count COMMA) := by
  intro l
  induction l with
  | nil => intro _; exact FlatItems.nil
  | cons c t ih =>
    intro h
    have hc := h c (by simp)
    have ht := ih (fun x hx => h x (List.mem_cons_of_mem _ hx))
    by_cases hcm : c = COMMA
    · subst hcm
      rw [List.count_cons_self]
      exact FlatItems.comma t _ ht
    · rw [List.count_cons_of_ne (fun h => hcm h.symm)]
      exact FlatItems.plain c t _ hc.1 hc.2.1 hc.2.2 hcm ht

theorem count_comma_of_spaces {run : List Nat} (h : ∀ c ∈ run, isSpace c = true) :
    run.count COMMA = 0 := by
  rw [List.count_eq_zero]
  intro hm
  exact absurd (h _ hm) (by decide)

theorem indexByte_head (c : Nat) (t : List Nat) : indexByte (c :: t) c = 0 := by
  simp [indexByte, List.indexOf_cons_self]

theorem lastIndexByte_last (c : Nat) (l : List Nat) :
    lastIndexByte (l ++ [c]) c = (l.length : Int) := by
  simp [lastIndexByte, List.indexOf_cons_self]

/-- Claim C26. On a byte sequence `'[' ++ inner ++ ']'` whose `inner` holds no bracket, no
quote and no backslash, the counter of the reference path and the counter of the scanner
return the same count with `ok = true`, the scanner with the end index `len(b)`: the
count is 0 when `inner` is white space only, and one more than the number of commas of
`inner` otherwise. -/
theorem C26_counters_agree_on_numeric_arrays (inner : List Nat)
    (h : ∀ c ∈ inner, c ≠ LBRACKET ∧ c ≠ RBRACKET ∧ c ≠ QUOTE ∧ c ≠ BACKSLASH) :
    fastCountArrayItems (LBRACKET :: (inner ++ [RBRACKET]))
        = (if allSpace inner then 0 else inner.count COMMA + 1, true)
      ∧ countArrayItemsAndEnd (LBRACKET :: (inner ++ [RBRACKET])) 0
        = (if allSpace inner then 0 else inner.count COMMA + 1,
            (LBRACKET :: (inner ++ [RBRACKET])).length, true) := by
  constructor
  · have hl : indexByte (LBRACKET :: (inner ++ [RBRACKET])) LBRACKET = 0 := indexByte_head _ _
    have hr : lastIndexByte (LBRACKET :: (inner ++ [RBRACKET])) RBRACKET
        = ((inner.length + 1 : Nat) : Int) := by
      have := lastIndexByte_last RBRACKET (LBRACKET :: inner)
      simpa using this
    obtain ⟨run, hrun, hsp, hlen, hstop⟩ :=
      advanceWhile_run isSpace inner inner.length 0 (by omega)
    have hp : skipSpaces inner inner.length 0 = run.length := by
      simpa [skipSpaces] using hlen
    simp only [List.drop_zero] at hrun
    have hin : ((LBRACKET :: (inner ++ [RBRACKET])).drop ((0 : Int).toNat + 1)).take
        (((inner.length + 1 : Nat) : Int).toNat - ((0 : Int).toNat + 1)) = inner := by
      simp
    unfold fastCountArrayItems
    simp only [hl, hr, hin]
    rw [if_neg (by decide), if_neg (by simp; omega), hp]
    by_cases hall : allSpace inner = true
    · have hge : run.length ≥ inner.length := by
        by_contra hlt
        have hlt1 : advanceWhile isSpace inner inner.length 0 < inner.length := by
          rw [hlen]; omega
        have hd := drop_eq_byteAt_cons hlt1
        have := hstop (byteAt inner (advanceWhile isSpace inner inner.length 0))
          (by rw [hd]; simp)
        have hm : byteAt inner (advanceWhile isSpace inner inner.length 0) ∈ inner := by
          have : byteAt inner (advanceWhile isSpace inner inner.length 0)
              ∈ inner.drop (advanceWhile isSpace inner inner.length 0) := by
            rw [hd]; simp
          exact List.mem_of_mem_drop this
        rw [allSpace_iff.1 hall _ hm] at this
        cases this
      rw [if_pos hge, if_pos hall]
    · have hlt : ¬ run.length ≥ inner.length := by
        intro hge
        apply hall
        have hnil : inner.drop (advanceWhile isSpace inner inner.length 0) = [] :=
          List.drop_of_length_le (by rw [hlen]; omega)
        rw [hnil, List.append_nil] at hrun
        rw [allSpace_iff, hrun]
        exact hsp
      rw [if_neg hlt, if_neg hall]
      have hq : ∀ c ∈ inner.drop run.length, c ≠ QUOTE :=
        fun c hc => (h c (List.mem_of_mem_drop hc)).2.2.1
      rw [fastCountLoop_plain inner _ _ _ (by omega) hq]
      have hcount : inner.count COMMA = (inner.drop run.length).count COMMA := by
        have h0 : advanceWhile isSpace inner inner.length 0 = run.length := by
          rw [hlen]; omega
        rw [h0] at hrun
        conv_lhs => rw [hrun]
        rw [List.count_append, count_comma_of_spaces hsp]
        omega
      rw [hcount, Nat.add_comm]
  · have hflat : FlatItems inner (inner.count COMMA) :=
      flatItems_of_plain inner (fun c hc => ⟨(h c hc).2.2.1, (h c hc).1, (h c hc).2.1⟩)
    have := countArrayItemsAndEnd_flat (LBRACKET :: (inner ++ [RBRACKET])) 0 (s := []) hflat
      (by simp)
    rw [this]
    simp

/-- The array `[1, 2,3]` of three numbers: both counters return 3. -/
theorem C26_counters_agree_on_numeric_arrays_witness :
    (∀ c ∈ bytesOf "1, 2,3", c ≠ LBRACKET ∧ c ≠ RBRACKET ∧ c ≠ QUOTE ∧ c ≠ BACKSLASH)
      ∧ fastCountArrayItems (LBRACKET :: (bytesOf "1, 2,3" ++ [RBRACKET])) = (3, true)
      ∧ countArrayItemsAndEnd (LBRACKET :: (bytesOf "1, 2,3" ++ [RBRACKET])) 0 = (3, 8, true) :=
  ⟨by decide,
    (C26_counters_agree_on_numeric_arrays (bytesOf "1, 2,3") (by decide)).1,
    (C26_counters_agree_on_numeric_arrays (bytesOf "1, 2,3") (by decide)).2⟩

/-! ## Required keys inside the value of another key -/

theorem balanced_plain_append (l : List Nat) {t : List Nat}
    (h : ∀ c ∈ l, c ≠ QUOTE ∧ c ≠ LBRACE ∧ c ≠ RBRACE) (ht : Balanced t) :
    Balanced (l ++ t) := by
  induction l with
  | nil => simpa using ht
  | cons c l ih =>
    have hc := h c (by simp)
    exact Balanced.plain c _ hc.1 hc.2.1 hc.2.2 (ih (fun x hx => h x (List.mem_cons_of_mem _ hx)))

/-- The content of Scenario A is balanced: four keys, two string values, and bytes
without quote or brace. -/
theorem scenarioAContent_balanced : Balanced scenarioAContent :=
  Balanced.string (bytesOf "user_id") _ (by decide) <|
  balanced_plain_append (bytesOf ":") (by decide) <|
  Balanced.string (bytesOf "u1") _ (by decide) <|
  balanced_plain_append (bytesOf ",") (by decide) <|
  Balanced.string (bytesOf "session_id") _ (by decide) <|
  balanced_plain_append (bytesOf ":") (by decide) <|
  Balanced.string (bytesOf "s1") _ (by decide) <|
  balanced_plain_append (bytesOf ",") (by decide) <|
  Balanced.string (bytesOf "timestamp") _ (by decide) <|
  balanced_plain_append (bytesOf ":1000,") (by decide) <|
  Balanced.string (bytesOf "features") _ (by decide) <|
  balanced_plain_append (bytesOf ":[1,2,3]") (by decide) Balanced.nil

/-- Claim C25. A buffer `{"k":V}` (with any white space before the object and around the
tokens of the pair, and anything after the object) whose key `k` is none of the four
recognized keys and whose value `V` is an object with balanced content or a string
literal is rejected with `missing required fields`, whatever `V` holds: required keys
inside `V` do not count as present. -/
theorem C25_nested_required_keys_not_counted (lead trail : List Nat) (p : Pad)
    (k V : List Nat) (hlead : allSpace lead = true) (hp : p.valid = true)
    (hk : isStringBody k false = true) (hk1 : k ≠ keyUserId) (hk2 : k ≠ keySessionId)
    (hk3 : k ≠ keyTimestamp) (hk4 : k ≠ keyFeatures)
    (hV : (∃ content, Balanced content ∧ V = LBRACE :: (content ++ [RBRACE]))
      ∨ (∃ body, isStringBody body false = true ∧ V = stringLit body)) :
    GuardPredictRaw (lead ++ render [Member.pair p k V] ++ trail)
      = .error "missing required fields" := by
  have hskip : SkippableValue V := by
    rcases hV with ⟨content, hc, rfl⟩ | ⟨body, hb, rfl⟩
    · exact SkippableValue.object content hc
    · exact SkippableValue.string body hb
  have hvalid : ∀ m ∈ [Member.pair p k V], m.Valid := by
    intro m hm
    rw [List.mem_singleton] at hm
    subst hm
    exact ⟨hp, hk, hk1, hk2, hk3, hk4, hskip⟩
  rw [guard_render_valid lead trail _ hlead hvalid]
  rfl

/-- The buffers `{"k":{"user_id":"u1",...}}` and `{"k":"{\"user_id\":\"u1\",...}"}`, whose
value holds all of Scenario A, are rejected with `missing required fields`. -/
theorem C25_nested_required_keys_not_counted_witness :
    GuardPredictRaw ([] ++ render [Member.pair Pad.tight (bytesOf "k")
        (LBRACE :: (scenarioAContent ++ [RBRACE]))] ++ [])
        = .error "missing required fields"
      ∧ GuardPredictRaw ([] ++ render [Member.pair Pad.tight (bytesOf "k")
        (stringLit scenarioAEscaped)] ++ [])
        = .error "missing required fields" :=
  ⟨C25_nested_required_keys_not_counted [] [] Pad.tight (bytesOf "k") _ (by decide) (by decide)
      (by decide) (by decide) (by decide) (by decide) (by decide)
      (Or.inl ⟨scenarioAContent, scenarioAContent_balanced, rfl⟩),
    C25_nested_required_keys_not_counted [] [] Pad.tight (bytesOf "k") _ (by decide) (by decide)
      (by decide) (by decide) (by decide) (by decide) (by decide)
      (Or.inr ⟨scenarioAEscaped, by decide, rfl⟩)⟩

/-! ## The closing quote of a string and the backslashes before it -/

theorem trailingBackslashes_snoc (l : List Nat) (c : Nat) :
    trailingBackslashes (l ++ [c])
      = if c == BACKSLASH then trailingBackslashes l + 1 else 0 := by
  unfold trailingBackslashes
  rw [List.reverse_append, List.reverse_singleton, List.singleton_append, List.takeWhile_cons]
  split <;> simp

theorem escapedAfter_snoc (e : Bool) (l : List Nat) (c : Nat) :
    escapedAfter e (l ++ [c]) = (c == BACKSLASH && !escapedAfter e l) := by
  simp [escapedAfter, List.foldl_append]

/-- The flag `escaped` is set after the bytes `l` exactly when `l` ends with an odd
number of backslashes. -/
theorem escapedAfter_eq_odd (l : List Nat) :
    escapedAfter false l = decide (trailingBackslashes l % 2 = 1) := by
  induction l using List.reverseRecOn with
  | nil => rfl
  | append_singleton l c ih =>
    rw [escapedAfter_snoc, trailingBackslashes_snoc, ih]
    by_cases hc : c = BACKSLASH
    · subst hc
      rcases Nat.mod_two_eq_zero_or_one (trailingBackslashes l) with h | h
      · have h1 : (trailingBackslashes l + 1) % 2 = 1 := by omega
        simp [h, h1]
      · have h1 : (trailingBackslashes l + 1) % 2 = 0 := by omega
        simp [h, h1]
    · simp [hc]

theorem isStringBody_iff_escapedAfter :
    ∀ (body : List Nat) (e : Bool),
      isStringBody body e = true
        ↔ (∀ m, m < body.length → byteAt body m = QUOTE → escapedAfter e (body.take m) = true)
          ∧ escapedAfter e body = false := by
  intro body
  induction body with
  | nil =>
    intro e
    simp [isStringBody, escapedAfter]
  | cons c cs ih =>
    intro e
    unfold isStringBody
    by_cases hc : (c == QUOTE && !e) = true
    · rw [if_pos hc]
      simp only [Bool.and_eq_true, beq_iff_eq, Bool.not_eq_true'] at hc
      constructor
      · intro h; cases h
      · intro h
        have := h.1 0 (by simp) (by simp [byteAt, hc.1])
        simp [escapedAfter, hc.2] at this
    · rw [if_neg hc, ih]
      have hfold : ∀ l, escapedAfter e (c :: l) = escapedAfter (c == BACKSLASH && !e) l := by
        intro l; rfl
      constructor
      · rintro ⟨h1, h2⟩
        refine ⟨?_, by rw [hfold]; exact h2⟩
        intro m hm hq
        cases m with
        | zero =>
          simp only [byteAt, List.getD_cons_zero] at hq
          simp only [Bool.and_eq_true, beq_iff_eq, Bool.not_eq_true', not_and,
            Bool.not_eq_false] at hc
          simpa [escapedAfter] using hc hq
        | succ m =>
          rw [List.take_succ_cons, hfold]
          exact h1 m (by simpa using hm) (by simpa [byteAt] using hq)
      · rintro ⟨h1, h2⟩
        refine ⟨?_, by rw [hfold] at h2; exact h2⟩
        intro m hm hq
        have := h1 (m + 1) (by simpa using hm) (by simpa [byteAt] using hq)
        rw [List.take_succ_cons, hfold] at this
        exact this

/-- The bytes `body` are the inside of a string literal exactly when every quote among
them follows an odd number of consecutive backslashes and they end with an even number
of backslashes. -/
theorem isStringBody_iff_parity (body : List Nat) :
    isStringBody body false = true
      ↔ (∀ m, m < body.length → byteAt body m = QUOTE →
            trailingBackslashes (body.take m) % 2 = 1)
          ∧ trailingBackslashes body % 2 = 0 := by
  rw [isStringBody_iff_escapedAfter]
  constructor
  · rintro ⟨h1, h2⟩
    refine ⟨fun m hm hq => ?_, ?_⟩
    · have := h1 m hm hq
      rw [escapedAfter_eq_odd] at this
      simpa using this
    · rw [escapedAfter_eq_odd] at h2
      have : ¬ trailingBackslashes body % 2 = 1 := by simpa using h2
      omega
  · rintro ⟨h1, h2⟩
    refine ⟨fun m hm hq => ?_, ?_⟩
    · rw [escapedAfter_eq_odd]
      simpa using h1 m hm hq
    · rw [escapedAfter_eq_odd]
      simp
      omega

/-- Claim C22. Let the bytes after an opening quote be `body`, a quote, and `s`, where
every quote of `body` follows an odd number of consecutive backslashes and `body` ends
with an even number (possibly zero) of backslashes, so that the quote after `body` is
the first quote preceded by an even number of backslashes. Then the string loop stops on
that quote, the `user_id` and the `session_id` case test the number `len(body)` of raw
bytes against the bounds 1 and 64 and go on behind that quote, and a key that is read
there is `body`. -/
theorem C22_string_ends_at_first_unescaped_quote (buf : List Nat) (j : Nat) (st : ScanState)
    (body s : List Nat) (hd : buf.drop j = QUOTE :: (body ++ QUOTE :: s))
    (hin : ∀ m, m < body.length → byteAt body m = QUOTE →
      trailingBackslashes (body.take m) % 2 = 1)
    (hend : trailingBackslashes body % 2 = 0) :
    scanString buf buf.length (j + 1) false = j + 1 + body.length
      ∧ checkValue buf keyUserId j st
        = (if body.length < 1 ∨ body.length > 64 then .fail "user_id: length out of bounds"
          else .next (j + body.length + 2)
            { st with userLen := body.length, haveUser := true })
      ∧ checkValue buf keySessionId j st
        = (if body.length < 1 ∨ body.length > 64 then .fail "session_id: length out of bounds"
          else .next (j + body.length + 2)
            { st with sessLen := body.length, haveSess := true })
      ∧ (∀ (c : Nat) (t : List Nat), s = COLON :: c :: t → isSpace c = false →
          parseKey buf j = .key body (j + body.length + 3)) := by
  have hbody : isStringBody body false = true := (isStringBody_iff_parity body).2 ⟨hin, hend⟩
  refine ⟨?_, checkValue_user buf body s j st hbody hd,
    checkValue_sess buf body s j st hbody hd, ?_⟩
  · exact scanString_spec buf body s _ _ _ hbody (drop_succ_of_drop_cons hd) (by omega)
  · intro c t hs hc
    subst hs
    obtain ⟨j1, h1, h2, _⟩ := parseKey_spec buf [] body [] [] c t j (by simp) hbody (by decide)
      (by decide) hc (by simpa using hd)
    rw [h1]
    congr 1
    have h3 : buf.drop (j + body.length + 3) = c :: t := by
      have := drop_add_of_drop_append (a := QUOTE :: (body ++ [QUOTE, COLON])) (s := c :: t)
        (by simpa using hd)
      simpa [Nat.add_assoc] using this
    have hl1 := lt_of_drop_cons h2
    have hl3 := lt_of_drop_cons h3
    have e1 := congrArg List.length h2
    have e3 := congrArg List.length h3
    simp only [List.length_drop, List.length_cons] at e1 e3
    omega

/-- In the buffer `"a\"b\\":1` the quote after `a\` follows one backslash and does not end
the string, and the quote after `b\\` follows two and does: the loop stops at index 7,
and the length that the `user_id` case tests is 6. -/
theorem C22_string_ends_at_first_unescaped_quote_witness :
    scanString (QUOTE :: (escapedBody ++ QUOTE :: bytesOf ":1"))
        (QUOTE :: (escapedBody ++ QUOTE :: bytesOf ":1")).length 1 false = 7
      ∧ checkValue (QUOTE :: (escapedBody ++ QUOTE :: bytesOf ":1")) keyUserId 0 ScanState.init
        = .next 8 { ScanState.init with userLen := 6, haveUser := true }
      ∧ parseKey (QUOTE :: (escapedBody ++ QUOTE :: bytesOf ":1")) 0 = .key escapedBody 9 :=
  ⟨(C22_string_ends_at_first_unescaped_quote _ 0 ScanState.init escapedBody (bytesOf ":1") rfl
      (by decide) (by decide)).1,
    (C22_string_ends_at_first_unescaped_quote _ 0 ScanState.init escapedBody (bytesOf ":1") rfl
      (by decide) (by decide)).2.1,
    (C22_string_ends_at_first_unescaped_quote _ 0 ScanState.init escapedBody (bytesOf ":1") rfl
      (by decide) (by decide)).2.2.2 49 [] rfl (by decide)⟩

/-! ## The checked run never fails a check -/

theorem readAt_ok {buf : List Nat} {i : Nat} (h : i < buf.length) :
    readAt buf i = .ok (byteAt buf i) := by
  simp [readAt, byteAt, List.getD, List.get?_eq_getElem?, List.getElem?_eq_getElem h]

theorem readAt_out {buf : List Nat} {i : Nat} (h : buf.length ≤ i) :
    readAt buf i = .error .outOfRange := by
  simp [readAt, List.get?_eq_getElem?, List.getElem?_eq_none h]

theorem moveTo_succ {buf : List Nat} {i : Nat} (h : i < buf.length) :
    moveTo buf i (i + 1) = .ok (i + 1) := by
  simp [moveTo]; omega

theorem moveTo_ok {buf : List Nat} {i j : Nat} (h1 : i < j) (h2 : j ≤ buf.length) :
    moveTo buf i j = .ok j := by
  simp [moveTo, h1, h2]

theorem ok_bind {α β : Type} (a : α) (f : α → Checked β) :
    ((Except.ok a : Checked α) >>= f) = f a := rfl

theorem advanceWhileC_eq (p : Nat → Bool) (buf : List Nat) :
    ∀ (fuel i : Nat), buf.length ≤ fuel + i →
      advanceWhileC p buf fuel i = .ok (advanceWhile p buf fuel i) := by
  intro fuel
  induction fuel with
  | zero =>
    intro i hf
    simp [advanceWhileC, advanceWhile, Nat.not_lt.mpr (by omega : buf.length ≤ i)]
  | succ fuel ih =>
    intro i hf
    unfold advanceWhileC advanceWhile
    by_cases hi : i < buf.length
    · simp only [hi, if_true, readAt_ok hi, ok_bind, decide_True, Bool.true_and]
      by_cases hp : p (byteAt buf i) = true
      · simp only [hp, if_true, moveTo_succ hi, ok_bind]
        exact ih (i + 1) (by omega)
      · simp only [hp, if_false, Bool.false_eq_true]
        rfl
    · simp only [hi, if_false, decide_False, Bool.false_and, Bool.false_eq_true]
      rfl

theorem scanStringC_eq (buf : List Nat) :
    ∀ (fuel i : Nat) (escaped : Bool), buf.length ≤ fuel + i →
      scanStringC buf fuel i escaped = .ok (scanString buf fuel i escaped) := by
  intro fuel
  induction fuel with
  | zero =>
    intro i escaped hf
    simp [scanStringC, scanString, Nat.not_lt.mpr (by omega : buf.length ≤ i)]
  | succ fuel ih =>
    intro i escaped hf
    unfold scanStringC scanString
    by_cases hi : i < buf.length
    · simp only [hi, if_true, readAt_ok hi, ok_bind]
      by_cases hq : (byteAt buf i == QUOTE && !escaped) = true
      · simp only [hq, if_true]
        rfl
      · simp only [hq, if_false, Bool.false_eq_true, moveTo_succ hi, ok_bind]
        exact ih (i + 1) _ (by omega)
    · simp only [hi, if_false]
      rfl

theorem skipStringC_eq (buf : List Nat) :
    ∀ (fuel i : Nat) (escaped : Bool), buf.length ≤ fuel + i →
      skipStringC buf fuel i escaped = .ok (skipString buf fuel i escaped) := by
  intro fuel
  induction fuel with
  | zero =>
    intro i escaped hf
    simp [skipStringC, skipString, Nat.not_lt.mpr (by omega : buf.length ≤ i)]
  | succ fuel ih =>
    intro i escaped hf
    unfold skipStringC skipString
    by_cases hi : i < buf.length
    · simp only [hi, if_true, readAt_ok hi, ok_bind]
      by_cases hq : (byteAt buf i == QUOTE && !escaped) = true
      · simp only [hq, if_true, moveTo_succ hi]
      · simp only [hq, if_false, Bool.false_eq_true, moveTo_succ hi, ok_bind]
        exact ih (i + 1) _ (by omega)
    · simp only [hi, if_false]
      rfl

theorem skipObjectC_eq (buf : List Nat) :
    ∀ (fuel i : Nat) (depth : Int), buf.length ≤ fuel + i →
      skipObjectC buf fuel i depth = .ok (skipObject buf fuel i depth) := by
  intro fuel
  induction fuel with
  | zero =>
    intro i depth hf
    simp [skipObjectC, skipObject, Nat.not_lt.mpr (by omega : buf.length ≤ i)]
  | succ fuel ih =>
    intro i depth hf
    unfold skipObjectC skipObject
    by_cases hc : (decide (i < buf.length) && decide (depth > 0)) = true
    · have hi : i < buf.length := by
        simp only [Bool.and_eq_true, decide_eq_true_eq] at hc
        exact hc.1
      simp only [hc, if_true, readAt_ok hi, ok_bind]
      by_cases hq : (byteAt buf i == QUOTE) = true
      · simp only [hq, if_true, moveTo_succ hi, ok_bind,
          skipStringC_eq buf buf.length (i + 1) false (by omega)]
        have := skipString_ge buf buf.length (i + 1) false
        exact ih _ _ (by omega)
      · simp only [hq, if_false, Bool.false_eq_true, moveTo_succ hi, ok_bind]
        exact ih (i + 1) _ (by omega)
    · simp only [hc, if_false, Bool.false_eq_true]
      rfl

theorem parseDigitsC_eq (buf : List Nat) :
    ∀ (fuel i : Nat) (n : Int), buf.length ≤ fuel + i →
      parseDigitsC buf fuel i n = .ok (parseDigits buf fuel i n) := by
  intro fuel
  induction fuel with
  | zero =>
    intro i n hf
    simp [parseDigitsC, parseDigits, Nat.not_lt.mpr (by omega : buf.length ≤ i)]
  | succ fuel ih =>
    intro i n hf
    unfold parseDigitsC parseDigits
    by_cases hi : i < buf.length
    · simp only [hi, if_true, readAt_ok hi, ok_bind, decide_True, Bool.true_and]
      by_cases hp : isDigit (byteAt buf i) = true
      · simp only [hp, if_true, moveTo_succ hi, ok_bind]
        exact ih (i + 1) _ (by omega)
      · simp only [hp, if_false, Bool.false_eq_true]
        rfl
    · simp only [hi, if_false, decide_False, Bool.false_and, Bool.false_eq_true]
      rfl

theorem countLoopC_eq (buf : List Nat) :
    ∀ (fuel i count : Nat) (inString escaped : Bool) (depth : Int), buf.length ≤ fuel + i →
      countLoopC buf fuel i count inString escaped depth
        = .ok (countLoop buf fuel i count inString escaped depth) := by
  intro fuel
  induction fuel with
  | zero =>
    intro i count inString escaped depth hf
    simp [countLoopC, countLoop, Nat.not_lt.mpr (by omega : buf.length ≤ i)]
  | succ fuel ih =>
    intro i count inString escaped depth hf
    unfold countLoopC countLoop
    by_cases hi : i < buf.length
    · simp only [hi, if_true, readAt_ok hi, ok_bind, moveTo_succ hi]
      split
      · exact ih (i + 1) _ _ _ _ (by omega)
      · split
        · exact ih (i + 1) _ _ _ _ (by omega)
        · split
          · rfl
          · split
            · split
              · rfl
              · exact ih (i + 1) _ _ _ _ (by omega)
            · split
              · exact ih (i + 1) _ _ _ _ (by omega)
              · exact ih (i + 1) _ _ _ _ (by omega)
    · simp only [hi, if_false]
      rfl

/-- A successful count ends behind the cursor it started from and inside the buffer. -/
theorem countLoop_ok_bound (buf : List Nat) :
    ∀ (fuel i count : Nat) (inString escaped : Bool) (depth : Int),
      (countLoop buf fuel i count inString escaped depth).2.2 = true →
      i < (countLoop buf fuel i count inString escaped depth).2.1
        ∧ (countLoop buf fuel i count inString escaped depth).2.1 ≤ buf.length := by
  intro fuel
  induction fuel with
  | zero =>
    intro i count inString escaped depth h
    simp [countLoop] at h
  | succ fuel ih =>
    intro i count inString escaped depth
    unfold countLoop
    by_cases hi : i < buf.length
    · simp only [hi, if_true]
      split
      · intro h; have := ih _ _ _ _ _ h; omega
      · split
        · intro h; have := ih _ _ _ _ _ h; omega
        · split
          · intro h; cases h
          · split
            · split
              · intro _; simp; omega
              · intro h; have := ih _ _ _ _ _ h; omega
            · split
              · intro h; have := ih _ _ _ _ _ h; omega
              · intro h; have := ih _ _ _ _ _ h; omega
    · simp only [hi, if_false]
      intro h; cases h

theorem countArrayItemsAndEnd_ok_bound (buf : List Nat) (start : Nat)
    (h : (countArrayItemsAndEnd buf start).2.2 = true) :
    start < (countArrayItemsAndEnd buf start).2.1
      ∧ (countArrayItemsAndEnd buf start).2.1 ≤ buf.length := by
  have hge := advanceWhile_ge isSpace buf buf.length (start + 1)
  unfold countArrayItemsAndEnd skipSpaces at h ⊢
  split at h
  · cases h
  · rename_i h0
    rw [if_neg h0]
    simp only at h ⊢
    split at h
    · rename_i h1
      rw [if_pos h1]
      simp only [Bool.and_eq_true, decide_eq_true_eq] at h1
      simp only
      omega
    · rename_i h1
      rw [if_neg h1]
      have := countLoop_ok_bound buf _ _ _ _ _ _ h
      omega

theorem countArrayItemsAndEndC_eq (buf : List Nat) (start : Nat) (hs : start < buf.length) :
    countArrayItemsAndEndC buf start = .ok (countArrayItemsAndEnd buf start) := by
  unfold countArrayItemsAndEndC countArrayItemsAndEnd skipSpaces
  simp only [readAt_ok hs, ok_bind]
  by_cases h0 : (byteAt buf start != LBRACKET) = true
  · simp only [h0, if_true]
    rfl
  · simp only [h0, if_false, Bool.false_eq_true, moveTo_succ hs, ok_bind,
      advanceWhileC_eq isSpace buf buf.length (start + 1) (by omega)]
    by_cases hi : advanceWhile isSpace buf buf.length (start + 1) < buf.length
    · simp only [hi, if_true, readAt_ok hi, ok_bind, decide_True, Bool.true_and]
      split
      · rfl
      · exact countLoopC_eq buf _ _ _ _ _ _ (by omega)
    · simp only [hi, if_false, decide_False, Bool.false_and, Bool.false_eq_true]
      exact countLoopC_eq buf _ _ _ _ _ _ (by omega)

theorem countArrayItemsAndEndC_out (buf : List Nat) (start : Nat) (hs : buf.length ≤ start) :
    countArrayItemsAndEndC buf start = .error .outOfRange := by
  unfold countArrayItemsAndEndC
  rw [readAt_out hs]
  rfl

theorem sliceOf_ok {buf : List Nat} {a b : Nat} (h1 : a ≤ b) (h2 : b ≤ buf.length) :
    sliceOf buf a b = .ok ((buf.drop a).take (b - a)) := by
  simp [sliceOf, h1, h2]

theorem parseKeyC_eq (buf : List Nat) (i0 : Nat) :
    parseKeyC buf i0 = .ok (parseKey buf i0) := by
  unfold parseKeyC parseKey skipSpacesCommas skipSpaces
  simp only [advanceWhileC_eq isSpaceOrComma buf buf.length i0 (by omega), ok_bind]
  generalize advanceWhile isSpaceOrComma buf buf.length i0 = i
  by_cases h1 : i ≥ buf.length
  · simp only [h1, if_true]
    rfl
  · have hi : i < buf.length := by omega
    simp only [h1, if_false, readAt_ok hi, ok_bind]
    by_cases h2 : (byteAt buf i == RBRACE) = true
    · simp only [h2, if_true, moveTo_succ hi, ok_bind]
      rfl
    · simp only [h2, if_false, Bool.false_eq_true]
      by_cases h3 : (byteAt buf i != QUOTE) = true
      · simp only [h3, if_true]
        rfl
      · simp only [h3, if_false, Bool.false_eq_true, moveTo_succ hi, ok_bind,
          scanStringC_eq buf buf.length (i + 1) false (by omega)]
        have hge := scanString_ge buf buf.length (i + 1) false
        generalize scanString buf buf.length (i + 1) false = e at hge ⊢
        by_cases h4 : e ≥ buf.length
        · simp only [h4, if_true]
          rfl
        · have he : e < buf.length := by omega
          simp only [h4, if_false, sliceOf_ok hge (Nat.le_of_lt he), moveTo_succ he, ok_bind,
            advanceWhileC_eq isSpace buf buf.length (e + 1) (by omega)]
          generalize advanceWhile isSpace buf buf.length (e + 1) = c
          by_cases h5 : c ≥ buf.length
          · simp only [h5, if_true, decide_True, Bool.true_or]
            rfl
          · have hc : c < buf.length := by omega
            simp only [h5, if_false, readAt_ok hc, ok_bind, decide_False, Bool.false_or]
            by_cases h6 : (byteAt buf c != COLON) = true
            · simp only [h6, if_true]
              rfl
            · simp only [h6, if_false, Bool.false_eq_true, moveTo_succ hc, ok_bind,
                advanceWhileC_eq isSpace buf buf.length (c + 1) (by omega)]
              split <;> rfl

theorem parseKey_key_lt (buf : List Nat) (i j : Nat) (k : List Nat)
    (h : parseKey buf i = .key k j) : j < buf.length := by
  unfold parseKey at h
  simp only at h
  split_ifs at h with h1 h2 h3 h4 h5 h6
  injection h with _ hj
  omega

theorem checkValueC_eq (buf : List Nat) (key : List Nat) (i : Nat) (st : ScanState)
    (hi : i < buf.length) :
    checkValueC buf key i st = .ok (checkValue buf key i st) := by
  unfold checkValueC checkValue
  by_cases hk1 : key = keyUserId
  · simp only [hk1, if_true, readAt_ok hi, ok_bind]
    by_cases h1 : (byteAt buf i != QUOTE) = true
    · simp only [h1, if_true]; rfl
    · simp only [h1, if_false, Bool.false_eq_true, moveTo_succ hi, ok_bind,
        scanStringC_eq buf buf.length (i + 1) false (by omega)]
      generalize scanString buf buf.length (i + 1) false = e
      by_cases h2 : e ≥ buf.length
      · simp only [h2, if_true]; rfl
      · have he : e < buf.length := by omega
        simp only [h2, if_false]
        split
        · rfl
        · simp only [moveTo_succ he, ok_bind]; rfl
  · simp only [hk1, if_false]
    by_cases hk2 : key = keySessionId
    · simp only [hk2, if_true, readAt_ok hi, ok_bind]
      by_cases h1 : (byteAt buf i != QUOTE) = true
      · simp only [h1, if_true]; rfl
      · simp only [h1, if_false, Bool.false_eq_true, moveTo_succ hi, ok_bind,
          scanStringC_eq buf buf.length (i + 1) false (by omega)]
        generalize scanString buf buf.length (i + 1) false = e
        by_cases h2 : e ≥ buf.length
        · simp only [h2, if_true]; rfl
        · have he : e < buf.length := by omega
          simp only [h2, if_false]
          split
          · rfl
          · simp only [moveTo_succ he, ok_bind]; rfl
    · simp only [hk2, if_false]
      by_cases hk3 : key = keyTimestamp
      · simp only [hk3, if_true, readAt_ok hi, ok_bind]
        by_cases hm : (byteAt buf i == MINUS) = true
        · simp only [hm, if_true, moveTo_succ hi, ok_bind]
          by_cases h2 : i + 1 ≥ buf.length
          · simp only [h2, if_true, decide_True, Bool.true_or]; rfl
          · have he : i + 1 < buf.length := by omega
            simp only [h2, if_false, readAt_ok he, ok_bind, decide_False, Bool.false_or]
            by_cases hd : (!isDigit (byteAt buf (i + 1))) = true
            · simp only [hd, if_true]; rfl
            · simp only [hd, if_false, Bool.false_eq_true,
                parseDigitsC_eq buf buf.length (i + 1) 0 (by omega), ok_bind]
              split <;> rfl
        · simp only [hm, if_false, Bool.false_eq_true]
          have h2 : ¬ i ≥ buf.length := by omega
          simp only [show (pure i : Checked Nat) = .ok i from rfl, ok_bind, h2, if_false,
            readAt_ok hi, decide_False, Bool.false_or]
          by_cases hd : (!isDigit (byteAt buf i)) = true
          · simp only [hd, if_true]; rfl
          · simp only [hd, if_false, Bool.false_eq_true,
              parseDigitsC_eq buf buf.length i 0 (by omega), ok_bind]
            split <;> rfl
      · simp only [hk3, if_false]
        by_cases hk4 : key = keyFeatures
        · simp only [hk4, if_true, readAt_ok hi, ok_bind]
          by_cases h1 : (byteAt buf i != LBRACKET) = true
          · simp only [h1, if_true]; rfl
          · simp only [h1, if_false, Bool.false_eq_true, countArrayItemsAndEndC_eq buf i hi,
              ok_bind]
            by_cases hok : (countArrayItemsAndEnd buf i).2.2 = true
            · have hb := countArrayItemsAndEnd_ok_bound buf i hok
              simp only [hok, Bool.not_true, Bool.false_eq_true, if_false]
              split
              · rfl
              · simp only [moveTo_ok hb.1 hb.2, ok_bind]; rfl
            · simp only [Bool.not_eq_true] at hok
              simp only [hok, Bool.not_false, if_true]
              rfl
        · simp only [hk4, if_false, readAt_ok hi, ok_bind]
          by_cases h1 : (byteAt buf i == QUOTE) = true
          · simp only [h1, if_true, moveTo_succ hi, ok_bind,
              skipStringC_eq buf buf.length (i + 1) false (by omega)]
            rfl
          · simp only [h1, if_false, Bool.false_eq_true]
            by_cases h2 : (byteAt buf i == LBRACE) = true
            · simp only [h2, if_true, moveTo_succ hi, ok_bind,
                skipObjectC_eq buf buf.length (i + 1) 1 (by omega)]
              rfl
            · simp only [h2, if_false, Bool.false_eq_true]
              by_cases h3 : (byteAt buf i == LBRACKET) = true
              · simp only [h3, if_true, countArrayItemsAndEndC_eq buf i hi, ok_bind]
                by_cases hok : (countArrayItemsAndEnd buf i).2.2 = true
                · have hb := countArrayItemsAndEnd_ok_bound buf i hok
                  simp only [hok, Bool.not_true, Bool.false_eq_true, if_false,
                    moveTo_ok hb.1 hb.2, ok_bind]
                  rfl
                · simp only [Bool.not_eq_true] at hok
                  simp only [hok, Bool.not_false, if_true]
                  rfl
              · simp only [h3, if_false, Bool.false_eq_true, skipScalar,
                  advanceWhileC_eq isScalarByte buf buf.length i (by omega), ok_bind]
                rfl

theorem pairStepC_eq (buf : List Nat) (i : Nat) (st : ScanState) :
    pairStepC buf i st = .ok (pairStep buf i st) := by
  unfold pairStepC pairStep
  simp only [parseKeyC_eq, ok_bind]
  cases h : parseKey buf i with
  | stop j => rfl
  | fail msg => rfl
  | key k j => exact checkValueC_eq buf k j st (parseKey_key_lt buf i j k h)

theorem mainLoopC_eq (buf : List Nat) :
    ∀ (fuel i : Nat) (st : ScanState), buf.length ≤ fuel + i →
      mainLoopC buf fuel i st = .ok (mainLoop buf fuel i st) := by
  intro fuel
  induction fuel with
  | zero =>
    intro i st hf
    simp [mainLoopC, mainLoop, Nat.not_lt.mpr (by omega : buf.length ≤ i)]
  | succ fuel ih =>
    intro i st hf
    unfold mainLoopC mainLoop
    by_cases hi : i < buf.length
    · simp only [hi, if_true, pairStepC_eq, ok_bind]
      cases h : pairStep buf i st with
      | stop j st1 => rfl
      | fail msg => rfl
      | next j st1 =>
        have := pairStep_advance buf i j st st1 h
        exact ih j st1 (by omega)
    · simp only [hi, if_false]
      rfl

/-- The checked run of `GuardPredictRaw` fails no check and returns what the function
returns. -/
theorem GuardPredictRawC_eq (buf : List Nat) :
    GuardPredictRawC buf = .ok (GuardPredictRaw buf) := by
  unfold GuardPredictRawC GuardPredictRaw skipSpaces
  simp only [advanceWhileC_eq isSpace buf buf.length 0 (by omega), ok_bind]
  generalize advanceWhile isSpace buf buf.length 0 = i
  by_cases h1 : i ≥ buf.length
  · simp only [h1, if_true, decide_True, Bool.true_or]
    rfl
  · have hi : i < buf.length := by omega
    simp only [h1, if_false, readAt_ok hi, ok_bind, decide_False, Bool.false_or]
    by_cases h2 : (byteAt buf i != LBRACE) = true
    · simp only [h2, if_true]
      rfl
    · simp only [h2, if_false, Bool.false_eq_true, moveTo_succ hi, ok_bind,
        mainLoopC_eq buf buf.length (i + 1) ScanState.init (by omega)]
      cases mainLoop buf buf.length (i + 1) ScanState.init <;> rfl

/-- Claim C21. For every buffer, the run of `GuardPredictRaw` in which every read `buf[i]`
and every slice is checked against `len(buf)` and every assignment to the cursor is
checked to move it forward and not beyond `len(buf)` fails none of these checks and
returns the verdict of `GuardPredictRaw`; the same holds for a run of
`countArrayItemsAndEnd` from a `start` inside the buffer, as in both calls of the
scanner. -/
theorem C21_reads_and_cursor_in_bounds (buf : List Nat) :
    GuardPredictRawC buf = .ok (GuardPredictRaw buf)
      ∧ (∀ (key : List Nat) (i : Nat) (st : ScanState), i < buf.length →
          checkValueC buf key i st = .ok (checkValue buf key i st))
      ∧ (∀ start, start < buf.length →
          countArrayItemsAndEndC buf start = .ok (countArrayItemsAndEnd buf start)) :=
  ⟨GuardPredictRawC_eq buf, fun key i st hi => checkValueC_eq buf key i st hi,
    fun start hs => countArrayItemsAndEndC_eq buf start hs⟩

set_option maxRecDepth 100000 in
/-- The checked run on Scenario A accepts, and the checked count of the array of
`x[1,"a,]",3]y` from index 1 returns 3 items and the end index 12. -/
theorem C21_reads_and_cursor_in_bounds_witness :
    GuardPredictRawC scenarioA = .ok (.ok ())
      ∧ countArrayItemsAndEndC arrayExample 1 = .ok (3, 12, true) :=
  ⟨(C21_reads_and_cursor_in_bounds scenarioA).1.trans (by decide),
    ((C21_reads_and_cursor_in_bounds arrayExample).2.2 1 (by decide)).trans (by decide)⟩

/-- Claim C24. No run of `GuardPredictRaw` or of `countArrayItemsAndEnd` uses up its
fuel of `len(buf)` iterations per loop. Every inner loop that starts at the cursor `i`
returns within `len(buf) - i` iterations, each of which moves the cursor forward; the
pair loop returns within `len(buf) - i` iterations as well, and an iteration of it that
goes on to the next one has moved the cursor by at least 2. -/
theorem C24_scanner_terminates (buf : List Nat) :
    GuardPredictRawC buf ≠ .error .fuel
      ∧ (∀ start, countArrayItemsAndEndC buf start ≠ .error .fuel)
      ∧ (∀ (p : Nat → Bool) (i : Nat),
          advanceWhileC p buf (buf.length - i) i = .ok (advanceWhile p buf buf.length i))
      ∧ (∀ (i : Nat) (escaped : Bool),
          scanStringC buf (buf.length - i) i escaped = .ok (scanString buf buf.length i escaped))
      ∧ (∀ (i : Nat) (escaped : Bool),
          skipStringC buf (buf.length - i) i escaped = .ok (skipString buf buf.length i escaped))
      ∧ (∀ (i : Nat) (depth : Int),
          skipObjectC buf (buf.length - i) i depth = .ok (skipObject buf buf.length i depth))
      ∧ (∀ (i : Nat) (n : Int),
          parseDigitsC buf (buf.length - i) i n = .ok (parseDigits buf buf.length i n))
      ∧ (∀ (i count : Nat) (inString escaped : Bool) (depth : Int),
          countLoopC buf (buf.length - i) i count inString escaped depth
            = .ok (countLoop buf buf.length i count inString escaped depth))
      ∧ (∀ (i : Nat) (st : ScanState),
          mainLoopC buf (buf.length - i) i st = .ok (mainLoop buf buf.length i st))
      ∧ (∀ (i j : Nat) (st st1 : ScanState), pairStep buf i st = .next j st1 → i + 2 ≤ j) := by
  refine ⟨?_, ?_, ?_, ?_, ?_, ?_, ?_, ?_, ?_, ?_⟩
  · rw [GuardPredictRawC_eq]
    intro h
    cases h
  · intro start
    by_cases hs : start < buf.length
    · rw [countArrayItemsAndEndC_eq buf start hs]
      intro h
      cases h
    · rw [countArrayItemsAndEndC_out buf start (by omega)]
      intro h
      cases h
  · intro p i
    rw [advanceWhileC_eq p buf _ i (by omega)]
    exact congrArg _ (advanceWhile_fuel p buf _ _ i (by omega) (by omega))
  · intro i escaped
    rw [scanStringC_eq buf _ i escaped (by omega)]
    exact congrArg _ (scanString_fuel buf _ _ i escaped (by omega) (by omega))
  · intro i escaped
    rw [skipStringC_eq buf _ i escaped (by omega)]
    exact congrArg _ (skipString_fuel buf _ _ i escaped (by omega) (by omega))
  · intro i depth
    rw [skipObjectC_eq buf _ i depth (by omega)]
    exact congrArg _ (skipObject_fuel buf _ _ i depth (by omega) (by omega))
  · intro i n
    rw [parseDigitsC_eq buf _ i n (by omega)]
    exact congrArg _ (parseDigits_fuel buf _ _ i n (by omega) (by omega))
  · intro i count inString escaped depth
    rw [countLoopC_eq buf _ i count inString escaped depth (by omega)]
    exact congrArg _ (countLoop_fuel buf _ _ i count inString escaped depth (by omega) (by omega))
  · intro i st
    rw [mainLoopC_eq buf _ i st (by omega)]
    exact congrArg _ (mainLoop_fuel_irrelevant buf _ _ i st (by omega) (by omega))
  · intro i j st st1 h
    exact pairStep_advance buf i j st st1 h

set_option maxRecDepth 100000 in
/-- On Scenario A the checked run returns, and the first iteration of the pair loop
moves the cursor from 1 to 15, behind the pair `"user_id":"u1"`. -/
theorem C24_scanner_terminates_witness :
    GuardPredictRawC scenarioA ≠ .error .fuel
      ∧ pairStep scenarioA 1 ScanState.init
          = .next 15 { ScanState.init with userLen := 2, haveUser := true }
      ∧ 1 + 2 ≤ 15 :=
  ⟨(C24_scanner_terminates scenarioA).1, rfl,
    (C24_scanner_terminates scenarioA).2.2.2.2.2.2.2.2.2 1 15 ScanState.init
      { ScanState.init with userLen := 2, haveUser := true } rfl⟩

/-! ## The scan reads the buffer from the cursor on only

Each loop, run on `buf` from the cursor `i + k`, does what it does on `buf[i:]` from the
cursor `k`, and ends `i` bytes further. -/

theorem byteAt_drop (buf : List Nat) (i k : Nat) :
    byteAt (buf.drop i) k = byteAt buf (i + k) := by
  simp [byteAt, List.getD_eq_getElem?_getD, List.getElem?_drop]

theorem lt_drop_iff (buf : List Nat) (i k : Nat) :
    k < (buf.drop i).length ↔ i + k < buf.length := by
  rw [List.length_drop]; omega

theorem advanceWhile_drop (p : Nat → Bool) (buf : List Nat) (i : Nat) :
    ∀ (fuel k : Nat),
      advanceWhile p buf fuel (i + k) = i + advanceWhile p (buf.drop i) fuel k := by
  intro fuel
  induction fuel with
  | zero => intro k; rfl
  | succ fuel ih =>
    intro k
    unfold advanceWhile
    rw [byteAt_drop]
    by_cases hi : i + k < buf.length
    · have hk := (lt_drop_iff buf i k).2 hi
      simp only [hi, hk, decide_True, Bool.true_and]
      split
      · exact ih (k + 1)
      · rfl
    · have hk : ¬ k < (buf.drop i).length := fun h => hi ((lt_drop_iff buf i k).1 h)
      simp only [hi, hk, decide_False, Bool.false_and, Bool.false_eq_true, if_false]

theorem scanString_drop (buf : List Nat) (i : Nat) :
    ∀ (fuel k : Nat) (escaped : Bool),
      scanString buf fuel (i + k) escaped = i + scanString (buf.drop i) fuel k escaped := by
  intro fuel
  induction fuel with
  | zero => intro k escaped; rfl
  | succ fuel ih =>
    intro k escaped
    unfold scanString
    rw [byteAt_drop]
    by_cases hi : i + k < buf.length
    · have hk := (lt_drop_iff buf i k).2 hi
      simp only [hi, hk, if_true]
      split
      · rfl
      · exact ih (k + 1) _
    · have hk : ¬ k < (buf.drop i).length := fun h => hi ((lt_drop_iff buf i k).1 h)
      simp only [hi, hk, if_false]

theorem skipString_drop (buf : List Nat) (i : Nat) :
    ∀ (fuel k : Nat) (escaped : Bool),
      skipString buf fuel (i + k) escaped = i + skipString (buf.drop i) fuel k escaped := by
  intro fuel
  induction fuel with
  | zero => intro k escaped; rfl
  | succ fuel ih =>
    intro k escaped
    unfold skipString
    rw [byteAt_drop]
    by_cases hi : i + k < buf.length
    · have hk := (lt_drop_iff buf i k).2 hi
      simp only [hi, hk, if_true]
      split
      · rfl
      · exact ih (k + 1) _
    · have hk : ¬ k < (buf.drop i).length := fun h => hi ((lt_drop_iff buf i k).1 h)
      simp only [hi, hk, if_false]

/-- The string skipper with the fuel of the whole buffer, on the rest of the buffer. -/
theorem skipString_drop_len (buf : List Nat) (i k : Nat) (escaped : Bool) :
    skipString buf buf.length (i + k) escaped
      = i + skipString (buf.drop i) (buf.drop i).length k escaped := by
  rw [skipString_drop]
  congr 1
  exact skipString_fuel _ _ _ _ _ (by rw [List.length_drop]; omega) (by omega)

theorem skipObject_drop (buf : List Nat) (i : Nat) :
    ∀ (fuel k : Nat) (depth : Int),
      skipObject buf fuel (i + k) depth = i + skipObject (buf.drop i) fuel k depth := by
  intro fuel
  induction fuel with
  | zero => intro k depth; rfl
  | succ fuel ih =>
    intro k depth
    unfold skipObject
    rw [byteAt_drop]
    by_cases hi : i + k < buf.length
    · have hk := (lt_drop_iff buf i k).2 hi
      simp only [hi, hk, decide_True, Bool.true_and]
      split
      · split
        · rw [show i + k + 1 = i + (k + 1) from by omega, skipString_drop_len]
          exact ih _ depth
        · exact ih (k + 1) _
      · rfl
    · have hk : ¬ k < (buf.drop i).length := fun h => hi ((lt_drop_iff buf i k).1 h)
      simp only [hi, hk, decide_False, Bool.false_and, Bool.false_eq_true, if_false]

theorem parseDigits_drop (buf : List Nat) (i : Nat) :
    ∀ (fuel k : Nat) (n : Int),
      parseDigits buf fuel (i + k) n
        = (i + (parseDigits (buf.drop i) fuel k n).1, (parseDigits (buf.drop i) fuel k n).2) := by
  intro fuel
  induction fuel with
  | zero => intro k n; rfl
  | succ fuel ih =>
    intro k n
    unfold parseDigits
    rw [byteAt_drop]
    by_cases hi : i + k < buf.length
    · have hk := (lt_drop_iff buf i k).2 hi
      simp only [hi, hk, decide_True, Bool.true_and]
      split
      · exact ih (k + 1) _
      · rfl
    · have hk : ¬ k < (buf.drop i).length := fun h => hi ((lt_drop_iff buf i k).1 h)
      simp only [hi, hk, decide_False, Bool.false_and, Bool.false_eq_true, if_false]

theorem countLoop_drop (buf : List Nat) (i : Nat) :
    ∀ (fuel k count : Nat) (inString escaped : Bool) (depth : Int),
      countLoop buf fuel (i + k) count inString escaped depth
        = ((countLoop (buf.drop i) fuel k count inString escaped depth).1,
            i + (countLoop (buf.drop i) fuel k count inString escaped depth).2.1,
            (countLoop (buf.drop i) fuel k count inString escaped depth).2.2) := by
  intro fuel
  induction fuel with
  | zero => intro k count inString escaped depth; rfl
  | succ fuel ih =>
    intro k count inString escaped depth
    unfold countLoop
    rw [byteAt_drop]
    by_cases hi : i + k < buf.length
    · have hk := (lt_drop_iff buf i k).2 hi
      simp only [hi, hk, if_true]
      split
      · exact ih (k + 1) _ _ _ _
      · split
        · exact ih (k + 1) _ _ _ _
        · split
          · rfl
          · split
            · split
              · rfl
              · exact ih (k + 1) _ _ _ _
            · split
              · exact ih (k + 1) _ _ _ _
              · exact ih (k + 1) _ _ _ _
    · have hk : ¬ k < (buf.drop i).length := fun h => hi ((lt_drop_iff buf i k).1 h)
      simp only [hi, hk, if_false]

theorem drop_drop_add (buf : List Nat) (i m : Nat) : buf.drop (i + m) = (buf.drop i).drop m := by
  rw [List.drop_drop, Nat.add_comm]

theorem le_drop_iff (buf : List Nat) (i k : Nat) :
    buf.length ≤ i + k ↔ (buf.drop i).length ≤ k := by
  rw [List.length_drop]; omega

theorem advanceWhile_drop_len (p : Nat → Bool) (buf : List Nat) (i k : Nat) :
    advanceWhile p buf buf.length (i + k)
      = i + advanceWhile p (buf.drop i) (buf.drop i).length k := by
  rw [advanceWhile_drop]
  congr 1
  exact advanceWhile_fuel _ _ _ _ _ (by rw [List.length_drop]; omega) (by omega)

theorem scanString_drop_len (buf : List Nat) (i k : Nat) (escaped : Bool) :
    scanString buf buf.length (i + k) escaped
      = i + scanString (buf.drop i) (buf.drop i).length k escaped := by
  rw [scanString_drop]
  congr 1
  exact scanString_fuel _ _ _ _ _ (by rw [List.length_drop]; omega) (by omega)

theorem skipObject_drop_len (buf : List Nat) (i k : Nat) (depth : Int) :
    skipObject buf buf.length (i + k) depth
      = i + skipObject (buf.drop i) (buf.drop i).length k depth := by
  rw [skipObject_drop]
  congr 1
  exact skipObject_fuel _ _ _ _ _ (by rw [List.length_drop]; omega) (by omega)

theorem parseDigits_drop_len (buf : List Nat) (i k : Nat) (n : Int) :
    parseDigits buf buf.length (i + k) n
      = (i + (parseDigits (buf.drop i) (buf.drop i).length k n).1,
          (parseDigits (buf.drop i) (buf.drop i).length k n).2) := by
  rw [parseDigits_drop,
    parseDigits_fuel (buf.drop i) buf.length (buf.drop i).length k n
      (by rw [List.length_drop]; omega) (by omega)]

theorem countLoop_drop_len (buf : List Nat) (i k count : Nat) (inString escaped : Bool)
    (depth : Int) :
    countLoop buf buf.length (i + k) count inString escaped depth
      = ((countLoop (buf.drop i) (buf.drop i).length k count inString escaped depth).1,
          i + (countLoop (buf.drop i) (buf.drop i).length k count inString escaped depth).2.1,
          (countLoop (buf.drop i) (buf.drop i).length k count inString escaped depth).2.2) := by
  rw [countLoop_drop,
    countLoop_fuel (buf.drop i) buf.length (buf.drop i).length k count inString escaped depth
      (by rw [List.length_drop]; omega) (by omega)]

theorem countArrayItemsAndEnd_drop (buf : List Nat) (i k : Nat) :
    countArrayItemsAndEnd buf (i + k)
      = ((countArrayItemsAndEnd (buf.drop i) k).1, i + (countArrayItemsAndEnd (buf.drop i) k).2.1,
          (countArrayItemsAndEnd (buf.drop i) k).2.2) := by
  have hb : ∀ m, byteAt buf (i + m) = byteAt (buf.drop i) m := fun m => (byteAt_drop buf i m).symm
  have hl : ∀ m, i + m < buf.length ↔ m < (buf.drop i).length :=
    fun m => (lt_drop_iff buf i m).symm
  have hadv := advanceWhile_drop_len isSpace buf i
  have hcnt := countLoop_drop_len buf i
  obtain ⟨s, hs⟩ : ∃ s, s = buf.drop i := ⟨_, rfl⟩
  rw [← hs] at hb hl hadv hcnt ⊢
  unfold countArrayItemsAndEnd skipSpaces
  simp only [hb, Nat.add_assoc, hadv, hl, hcnt]
  split
  · rfl
  · split
    · rfl
    · rfl

/-- The head of an iteration reads the buffer from the cursor on only. -/
theorem parseKey_drop (buf : List Nat) (i k : Nat) :
    parseKey buf (i + k) = (parseKey (buf.drop i) k).shift i := by
  have hb : ∀ m, byteAt buf (i + m) = byteAt (buf.drop i) m := fun m => (byteAt_drop buf i m).symm
  have hl : ∀ m, buf.length ≤ i + m ↔ (buf.drop i).length ≤ m := le_drop_iff buf i
  have hadv := fun p => advanceWhile_drop_len p buf i
  have hscan := scanString_drop_len buf i
  have hdrop := drop_drop_add buf i
  obtain ⟨s, hs⟩ : ∃ s, s = buf.drop i := ⟨_, rfl⟩
  rw [← hs] at hb hl hadv hscan hdrop ⊢
  unfold parseKey skipSpacesCommas skipSpaces
  simp only [hadv, hb, Nat.add_assoc, hscan, hl, ge_iff_le, hdrop, Nat.add_sub_add_left]
  split_ifs <;> rfl

/-- The `switch` on the key reads the buffer from the cursor on only. -/
theorem checkValue_drop (buf key : List Nat) (i k : Nat) (st : ScanState) :
    checkValue buf key (i + k) st = (checkValue (buf.drop i) key k st).shift i := by
  have hb : ∀ m, byteAt buf (i + m) = byteAt (buf.drop i) m := fun m => (byteAt_drop buf i m).symm
  have hl : ∀ m, buf.length ≤ i + m ↔ (buf.drop i).length ≤ m := le_drop_iff buf i
  have hadv := fun p => advanceWhile_drop_len p buf i
  have hscan := scanString_drop_len buf i
  have hskip := skipString_drop_len buf i
  have hobj := skipObject_drop_len buf i
  have hdig := parseDigits_drop_len buf i
  have hcnt := countArrayItemsAndEnd_drop buf i
  obtain ⟨s, hs⟩ : ∃ s, s = buf.drop i := ⟨_, rfl⟩
  rw [← hs] at hb hl hadv hscan hskip hobj hdig hcnt ⊢
  have hb0 : byteAt buf (i + k) = byteAt s k := hb k
  have hm : (if byteAt s k == MINUS then i + k + 1 else i + k)
      = i + (if byteAt s k == MINUS then k + 1 else k) := by
    split <;> omega
  unfold checkValue skipScalar
  by_cases hk1 : key = keyUserId
  · simp only [hk1, if_true, hb0, Nat.add_assoc, hscan, hl, ge_iff_le, Nat.add_sub_add_left]
    split_ifs <;> simp only [Step.shift, Nat.add_assoc]
  · simp only [hk1, if_false]
    by_cases hk2 : key = keySessionId
    · simp only [hk2, if_true, hb0, Nat.add_assoc, hscan, hl, ge_iff_le, Nat.add_sub_add_left]
      split_ifs <;> simp only [Step.shift, Nat.add_assoc]
    · simp only [hk2, if_false]
      by_cases hk3 : key = keyTimestamp
      · simp only [hk3, if_true, hb0, hm, hb, hdig, hl, ge_iff_le]
        split_ifs <;> simp only [Step.shift]
      · simp only [hk3, if_false]
        by_cases hk4 : key = keyFeatures
        · simp only [hk4, if_true, hb0, hcnt]
          split_ifs <;> simp only [Step.shift]
        · simp only [hk4, if_false, hb0, Nat.add_assoc, hskip, hobj, hcnt, hadv]
          split_ifs <;> simp only [Step.shift]

theorem pairStep_drop (buf : List Nat) (i k : Nat) (st : ScanState) :
    pairStep buf (i + k) st = (pairStep (buf.drop i) k st).shift i := by
  unfold pairStep
  rw [parseKey_drop]
  cases parseKey (buf.drop i) k with
  | stop j => rfl
  | fail msg => rfl
  | key kk j => exact checkValue_drop buf kk i j st

/-- The pair loop reads the buffer from the cursor on only: its verdict on `buf` from
`i + k` is its verdict on `buf[i:]` from `k`. -/
theorem mainLoop_drop (buf : List Nat) (i : Nat) :
    ∀ (fuel k : Nat) (st : ScanState),
      verdictOf (mainLoop buf fuel (i + k) st) = verdictOf (mainLoop (buf.drop i) fuel k st) := by
  intro fuel
  induction fuel with
  | zero => intro k st; rfl
  | succ fuel ih =>
    intro k st
    unfold mainLoop
    rw [pairStep_drop]
    by_cases hi : i + k < buf.length
    · have hk := (lt_drop_iff buf i k).2 hi
      simp only [hi, hk, if_true]
      cases pairStep (buf.drop i) k st with
      | stop j st1 => rfl
      | fail msg => rfl
      | next j st1 => exact ih j st1
    · have hk : ¬ k < (buf.drop i).length := fun h => hi ((lt_drop_iff buf i k).1 h)
      simp only [hi, hk, if_false]
      rfl

/-! ## The verdict depends on the flags only -/

theorem finalCheck_congr {a b : ScanState} (h : a.sameFlags b) : finalCheck a = finalCheck b := by
  obtain ⟨h1, h2, h3, h4, h5⟩ := h
  unfold finalCheck
  rw [← h1, ← h2, ← h3, ← h4]
  by_cases hf : a.haveFeat = true
  · have h6 := h5 hf
    by_cases h0 : a.featCount = 0
    · have h7 := h6.1 h0
      simp [h0, h7]
    · have h7 : b.featCount ≠ 0 := fun hb => h0 (h6.2 hb)
      simp [h0, h7]
  · simp only [Bool.not_eq_true] at hf
    simp [hf]

theorem checkValue_congr (buf key : List Nat) (i : Nat) {a b : ScanState}
    (h : a.sameFlags b) : (checkValue buf key i a).sameFlags (checkValue buf key i b) := by
  obtain ⟨h1, h2, h3, h4, h5⟩ := h
  have h5b : b.haveFeat = true → (a.featCount = 0 ↔ b.featCount = 0) :=
    fun hb => h5 (h4.trans hb)
  unfold checkValue
  by_cases hk1 : key = keyUserId
  · simp only [hk1, if_true]
    split_ifs <;> simp [Step.sameFlags, ScanState.sameFlags, h1, h2, h3, h4]
    exact h5b
  · simp only [hk1, if_false]
    by_cases hk2 : key = keySessionId
    · simp only [hk2, if_true]
      split_ifs <;> simp [Step.sameFlags, ScanState.sameFlags, h1, h2, h3, h4]
      exact h5b
    · simp only [hk2, if_false]
      by_cases hk3 : key = keyTimestamp
      · simp only [hk3, if_true]
        split_ifs <;> simp [Step.sameFlags, ScanState.sameFlags, h1, h2, h3, h4] <;> exact h5b
      · simp only [hk3, if_false]
        by_cases hk4 : key = keyFeatures
        · simp only [hk4, if_true]
          split_ifs <;> simp [Step.sameFlags, ScanState.sameFlags, h1, h2, h3]
        · simp only [hk4, if_false]
          split_ifs <;> simp [Step.sameFlags, ScanState.sameFlags, h1, h2, h3, h4] <;> exact h5b

theorem pairStep_congr (buf : List Nat) (i : Nat) {a b : ScanState} (h : a.sameFlags b) :
    (pairStep buf i a).sameFlags (pairStep buf i b) := by
  unfold pairStep
  cases parseKey buf i with
  | stop j => exact ⟨rfl, h⟩
  | fail msg => exact rfl
  | key k j => exact checkValue_congr buf k j h

/-- Two runs of the pair loop from states with the same flags return the same verdict. -/
theorem mainLoop_congr (buf : List Nat) :
    ∀ (fuel i : Nat) (a b : ScanState), a.sameFlags b →
      verdictOf (mainLoop buf fuel i a) = verdictOf (mainLoop buf fuel i b) := by
  intro fuel
  induction fuel with
  | zero =>
    intro i a b h
    exact finalCheck_congr h
  | succ fuel ih =>
    intro i a b h
    unfold mainLoop
    by_cases hi : i < buf.length
    · simp only [hi, if_true]
      have hs := pairStep_congr buf i h
      cases ha : pairStep buf i a with
      | stop j a1 =>
        cases hb : pairStep buf i b with
        | stop j2 b1 =>
          rw [ha, hb] at hs
          exact finalCheck_congr hs.2
        | fail msg => rw [ha, hb] at hs; exact absurd hs id
        | next j2 b1 => rw [ha, hb] at hs; exact absurd hs id
      | fail msg =>
        cases hb : pairStep buf i b with
        | stop j2 b1 => rw [ha, hb] at hs; exact absurd hs id
        | fail msg2 =>
          rw [ha, hb] at hs
          have : msg = msg2 := hs
          rw [this]
        | next j2 b1 => rw [ha, hb] at hs; exact absurd hs id
      | next j a1 =>
        cases hb : pairStep buf i b with
        | stop j2 b1 => rw [ha, hb] at hs; exact absurd hs id
        | fail msg => rw [ha, hb] at hs; exact absurd hs id
        | next j2 b1 =>
          rw [ha, hb] at hs
          obtain ⟨hj, hab⟩ := hs
          subst hj
          exact ih j a1 b1 hab
    · simp only [hi, if_false]
      exact finalCheck_congr h

/-! ## Separators before a pair, and the pair of an object value -/

theorem advanceWhile_step (p : Nat → Bool) (buf : List Nat) (i : Nat) (hi : i < buf.length)
    (hp : p (byteAt buf i) = true) :
    advanceWhile p buf buf.length i = advanceWhile p buf buf.length (i + 1) := by
  obtain ⟨f, hf⟩ : ∃ f, buf.length = f + 1 := ⟨buf.length - 1, by omega⟩
  rw [hf]
  conv_lhs => unfold advanceWhile
  rw [← hf]
  simp only [hi, hp, decide_True, Bool.and_self, if_true]
  exact advanceWhile_fuel p buf _ _ _ (by omega) (by omega)

theorem advanceWhile_skip_run (p : Nat → Bool) (buf : List Nat) :
    ∀ (run t : List Nat) (i : Nat), (∀ x ∈ run, p x = true) → buf.drop i = run ++ t →
      advanceWhile p buf buf.length i = advanceWhile p buf buf.length (i + run.length) := by
  intro run
  induction run with
  | nil => intro t i _ _; rfl
  | cons c run ih =>
    intro t i hrun hd
    have hlt := lt_of_drop_cons hd
    have hb := byteAt_of_drop_cons hd
    rw [advanceWhile_step p buf i hlt (by rw [hb]; exact hrun c (by simp)),
      ih t (i + 1) (fun x hx => hrun x (List.mem_cons_of_mem _ hx)) (drop_succ_of_drop_cons hd)]
    simp only [List.length_cons]
    congr 1
    omega

theorem pairStep_skip_seps (buf seps t : List Nat) (i : Nat) (st : ScanState)
    (hseps : ∀ x ∈ seps, isSpaceOrComma x = true) (hd : buf.drop i = seps ++ t) :
    pairStep buf i st = pairStep buf (i + seps.length) st := by
  unfold pairStep parseKey skipSpacesCommas
  rw [advanceWhile_skip_run isSpaceOrComma buf seps t i hseps hd]

theorem mainLoop_unfold (buf : List Nat) (i : Nat) (st : ScanState) (hi : i < buf.length) :
    mainLoop buf buf.length i st
      = (match pairStep buf i st with
        | .stop j st1 => .ok (j, st1)
        | .fail msg => .error msg
        | .next j st1 => mainLoop buf buf.length j st1) := by
  obtain ⟨f, hf⟩ : ∃ f, buf.length = f + 1 := ⟨buf.length - 1, by omega⟩
  conv_lhs => rw [hf]; unfold mainLoop
  simp only [hi, if_true]
  cases h : pairStep buf i st with
  | stop j st1 => rfl
  | fail msg => rfl
  | next j st1 =>
    have := pairStep_advance buf i j st st1 h
    exact mainLoop_fuel_irrelevant buf _ _ j st1 (by omega) (by omega)

theorem mainLoop_of_ge (buf : List Nat) (fuel i : Nat) (st : ScanState) (hi : buf.length ≤ i) :
    mainLoop buf fuel i st = .ok (i, st) := by
  cases fuel with
  | zero => rfl
  | succ f => simp [mainLoop, Nat.not_lt.mpr hi]

/-- White space and commas in front of the cursor of the pair loop do not change its
verdict. -/
theorem mainLoop_skip_seps (buf seps t : List Nat) (i : Nat) (st : ScanState)
    (hseps : ∀ x ∈ seps, isSpaceOrComma x = true) (hd : buf.drop i = seps ++ t) :
    verdictOf (mainLoop buf buf.length i st)
      = verdictOf (mainLoop buf buf.length (i + seps.length) st) := by
  by_cases hn : seps = []
  · subst hn; rfl
  · have hi : i < buf.length := lt_of_drop_ne_nil hd (by simp [hn])
    rw [mainLoop_unfold buf i st hi, pairStep_skip_seps buf seps t i st hseps hd]
    by_cases hj : i + seps.length < buf.length
    · rw [mainLoop_unfold buf _ st hj]
    · have ht : t = [] := by
        have := drop_add_of_drop_append hd
        rw [List.drop_of_length_le (by omega)] at this
        exact this.symm
      subst ht
      have hskip : skipSpacesCommas buf buf.length (i + seps.length) = i + seps.length := by
        unfold skipSpacesCommas
        cases hb : buf.length with
        | zero => rfl
        | succ f => simp [advanceWhile, hj]
      rw [mainLoop_of_ge buf _ _ st (by omega)]
      unfold pairStep parseKey
      simp only [hskip, ge_iff_le, Nat.not_lt.mp hj, if_true]

theorem isScalarByte_of_sep {c : Nat} (h : isSpaceOrComma c = true) : isScalarByte c = false := by
  simp only [isSpaceOrComma, isSpace, Bool.or_eq_true, beq_iff_eq] at h
  rcases h with ((((h | h) | h) | h) | h) <;> subst h <;> decide

/-- The iteration on a pair of an unrecognized key whose value is an object with balanced
content goes on with the cursor one past the closing brace of the value, and leaves the
variables as they are. -/
theorem pairStep_object (buf seps : List Nat) (p : Pad) (key content s : List Nat) (i : Nat)
    (st : ScanState) (hseps : ∀ x ∈ seps, isSpaceOrComma x = true) (hp : p.valid = true)
    (hkey : isStringBody key false = true) (hk1 : key ≠ keyUserId) (hk2 : key ≠ keySessionId)
    (hk3 : key ≠ keyTimestamp) (hk4 : key ≠ keyFeatures) (hcontent : Balanced content)
    (hd : buf.drop i = seps ++ (pairBytes p key (LBRACE :: (content ++ [RBRACE])) ++ s)) :
    ∃ j, pairStep buf i st = .next (j + 1) st ∧ buf.drop j = RBRACE :: (p.afterValue ++ s) := by
  obtain ⟨j0, h1, h2, _⟩ := pairStep_pair buf seps p key LBRACE (content ++ [RBRACE]) s i st
    hseps hp hkey (by decide) hd
  have hb := byteAt_of_drop_cons h2
  have hd1 : buf.drop (j0 + 1) = content ++ RBRACE :: (p.afterValue ++ s) := by
    rw [drop_succ_of_drop_cons h2]; simp
  have hskip := skipObject_closed buf hcontent _ (j0 + 1) hd1
  have hne : LBRACE ≠ QUOTE := by decide
  refine ⟨j0 + 1 + content.length, ?_, drop_add_of_drop_append hd1⟩
  rw [h1]
  unfold checkValue
  simp only [hk1, hk2, hk3, hk4, if_false, hb, beq_iff_eq, hne, if_true, hskip]

/-- The verdict of the pair loop on a buffer from a cursor in front of white space and
commas is its verdict on the bytes behind them. -/
theorem mainLoop_rest (buf seps s : List Nat) (i : Nat) (st : ScanState)
    (hseps : ∀ x ∈ seps, isSpaceOrComma x = true) (hd : buf.drop i = seps ++ s) :
    verdictOf (mainLoop buf buf.length i st) = verdictOf (mainLoop s s.length 0 st) := by
  rw [mainLoop_skip_seps buf seps s i st hseps hd]
  have h := mainLoop_drop buf (i + seps.length) buf.length 0 st
  rw [Nat.add_zero, drop_add_of_drop_append hd] at h
  rw [h]
  have hlen : s.length ≤ buf.length := by
    have := congrArg List.length (drop_add_of_drop_append hd)
    rw [List.length_drop] at this
    omega
  rw [mainLoop_fuel_irrelevant s buf.length s.length 0 st (by omega) (by omega)]

/-- The verdict of the scan of pairs that satisfy the schema, followed by white space and
commas and any bytes `s`, is the verdict of the pair loop on `s` from some state whose
flags are those of the pairs. -/
theorem guard_members_then (lead : List Nat) (ms : List Member) (sep s : List Nat)
    (hlead : allSpace lead = true) (hvalid : ∀ m ∈ ms, m.Valid)
    (hsep : ∀ x ∈ sep, isSpaceOrComma x = true)
    (hstop : ms ≠ [] → StopsAt isScalarByte (sep ++ s)) :
    ∃ st : ScanState, (∀ f, st.has f = decide (f ∈ fieldsOf ms)) ∧ st.Sound
      ∧ GuardPredictRaw (lead ++ LBRACE :: (joinComma (ms.map Member.bytes) ++ (sep ++ s)))
        = verdictOf (mainLoop s s.length 0 st) := by
  obtain ⟨buf, hB⟩ : ∃ buf, buf = lead ++ LBRACE :: (joinComma (ms.map Member.bytes)
    ++ (sep ++ s)) := ⟨_, rfl⟩
  obtain ⟨hstart, hd⟩ := guard_start buf lead _ hlead hB
  rw [← hB, hstart]
  exact mainLoop_members buf
    (fun r => ∃ st : ScanState, (∀ f, st.has f = decide (f ∈ fieldsOf ms)) ∧ st.Sound
      ∧ (match r with
        | .error msg => Except.error msg
        | .ok r => finalCheck r.2) = verdictOf (mainLoop s s.length 0 st))
    ms hvalid [] (sep ++ s) (lead.length + 1) buf.length ScanState.init (by simp) hstop
    (by rw [hd]; simp) (by omega) (by
      intro fuel1 j st1 seps1 hs1 hd1 hf1 hhas hsound
      refine ⟨st1, ?_, hsound (by simp [ScanState.Sound, ScanState.init]), ?_⟩
      · intro f
        rw [hhas f]
        cases f <;> simp [ScanState.has, ScanState.init]
      · rw [mainLoop_fuel_irrelevant buf fuel1 buf.length j st1 hf1 (by omega)]
        have hd2 : buf.drop j = (seps1 ++ sep) ++ s := by rw [hd1]; simp
        exact mainLoop_rest buf (seps1 ++ sep) s j st1 (by
          intro x hx
          rcases List.mem_append.mp hx with h | h
          · exact hs1 x h
          · exact hsep x h) hd2)

theorem sameFlags_of_has {a b : ScanState} (fs : List Field)
    (ha : ∀ f, a.has f = decide (f ∈ fs)) (hb : ∀ f, b.has f = decide (f ∈ fs))
    (hsa : a.Sound) (hsb : b.Sound) : a.sameFlags b := by
  have h1 := (ha .user).trans (hb .user).symm
  have h2 := (ha .sess).trans (hb .sess).symm
  have h3 := (ha .ts).trans (hb .ts).symm
  have h4 := (ha .feat).trans (hb .feat).symm
  simp only [ScanState.has] at h1 h2 h3 h4
  refine ⟨h1, h2, h3, h4, ?_⟩
  intro hf
  have hna := hsa hf
  have hnb := hsb (h4 ▸ hf)
  constructor
  · intro h; exact absurd h hna
  · intro h; exact absurd h hnb

/-- Claim C23. Let a pair have a key that is none of the four recognized keys and a value
`{content}` with balanced content: bytes other than quote and brace, string literals
(with escaped quotes, and with braces inside), and nested pairs of braces to any depth.
The iteration of the pair loop on it goes on with the cursor `j + 1`, one past the index
`j` of the closing brace of the value, and with the variables unchanged. And the verdict
on a buffer that holds this pair after pairs that satisfy the schema, with any bytes `s`
behind it, is the verdict on the buffer without the pair. -/
theorem C23_object_value_skipped (lead : List Nat) (before : List Member)
    (sep1 sep2 : List Nat) (p : Pad) (key content s : List Nat)
    (hlead : allSpace lead = true) (hbefore : ∀ m ∈ before, m.Valid)
    (hsep1 : ∀ x ∈ sep1, isSpaceOrComma x = true) (hsep2 : ∀ x ∈ sep2, isSpaceOrComma x = true)
    (hne1 : before ≠ [] → sep1 ≠ []) (hne2 : before ≠ [] → StopsAt isScalarByte (sep2 ++ s))
    (hp : p.valid = true) (hkey : isStringBody key false = true) (hk1 : key ≠ keyUserId)
    (hk2 : key ≠ keySessionId) (hk3 : key ≠ keyTimestamp) (hk4 : key ≠ keyFeatures)
    (hcontent : Balanced content) :
    (∀ (buf : List Nat) (i : Nat) (st : ScanState),
        buf.drop i = sep1 ++ (pairBytes p key (LBRACE :: (content ++ [RBRACE])) ++ s) →
        ∃ j, pairStep buf i st = .next (j + 1) st
          ∧ buf.drop j = RBRACE :: (p.afterValue ++ s))
      ∧ GuardPredictRaw (lead ++ LBRACE :: (joinComma (before.map Member.bytes)
          ++ (sep1 ++ (pairBytes p key (LBRACE :: (content ++ [RBRACE])) ++ s))))
        = GuardPredictRaw (lead ++ LBRACE :: (joinComma (before.map Member.bytes)
          ++ (sep2 ++ s))) := by
  refine ⟨fun buf i st hd =>
    pairStep_object buf sep1 p key content s i st hsep1 hp hkey hk1 hk2 hk3 hk4 hcontent hd, ?_⟩
  obtain ⟨pair, hpair⟩ : ∃ pair, pair = pairBytes p key (LBRACE :: (content ++ [RBRACE])) :=
    ⟨_, rfl⟩
  have hstop1 : before ≠ [] → StopsAt isScalarByte (sep1 ++ (pair ++ s)) := by
    intro hb
    obtain ⟨c, t, hct⟩ := List.exists_cons_of_ne_nil (hne1 hb)
    rw [hct]
    exact stopsAt_cons (isScalarByte_of_sep (hsep1 c (by rw [hct]; simp)))
  obtain ⟨st1, hhas1, hsound1, hg1⟩ :=
    guard_members_then lead before sep1 (pair ++ s) hlead hbefore hsep1 hstop1
  obtain ⟨st2, hhas2, hsound2, hg2⟩ :=
    guard_members_then lead before sep2 s hlead hbefore hsep2 hne2
  rw [← hpair, hg1, hg2]
  have hd0 : (pair ++ s).drop 0 = [] ++ (pair ++ s) := rfl
  obtain ⟨j, hstep, hdj⟩ := pairStep_object (pair ++ s) [] p key content s 0 st1 (by simp) hp
    hkey hk1 hk2 hk3 hk4 hcontent (by rw [hpair]; rfl)
  have hne : pair ++ s ≠ [] := by
    rw [hpair]; simp [pairBytes]
  have hlt : 0 < (pair ++ s).length := List.length_pos.mpr hne
  rw [mainLoop_unfold (pair ++ s) 0 st1 hlt, hstep]
  simp only
  have hdj1 : (pair ++ s).drop (j + 1) = p.afterValue ++ s := drop_succ_of_drop_cons hdj
  have hav : ∀ x ∈ p.afterValue, isSpaceOrComma x = true := by
    simp only [Pad.valid, Bool.and_eq_true] at hp
    exact fun x hx => isSpaceOrComma_of_isSpace (allSpace_iff.mp hp.2 x hx)
  rw [mainLoop_rest (pair ++ s) p.afterValue s (j + 1) st1 hav hdj1]
  exact mainLoop_congr s s.length 0 st1 st2
    (sameFlags_of_has (fieldsOf before) hhas1 hhas2 hsound1 hsound2)

theorem scenarioAHead_members_valid : ∀ m ∈ scenarioAHead, m.Valid := by
  intro m hm
  exact scenarioAHead_valid m (by simpa using hm)

/-- The content `"a":{"b":"}"}` is balanced: a key, and an object that holds a key and a
string with a closing brace. -/
theorem nestedObjectContent_balanced : Balanced nestedObjectContent :=
  Balanced.string (bytesOf "a") _ (by decide) <|
  balanced_plain_append (bytesOf ":") (by decide) <|
  Balanced.nest (bytesOf "\"b\":\"\x7d\"") [] (
    Balanced.string (bytesOf "b") _ (by decide) <|
    balanced_plain_append (bytesOf ":") (by decide) <|
    Balanced.string [RBRACE] _ (by decide) Balanced.nil) Balanced.nil

set_option maxRecDepth 100000 in
/-- Scenario A with the pair `"meta":{"a":{"b":"}"}}` before its `features` pair has the
verdict of Scenario A, which is accepted. -/
theorem C23_object_value_skipped_witness :
    GuardPredictRaw ([] ++ LBRACE :: (joinComma (scenarioAHead.map Member.bytes)
        ++ ([COMMA] ++ (pairBytes Pad.tight (bytesOf "meta")
          (LBRACE :: (nestedObjectContent ++ [RBRACE])) ++ scenarioATail))))
      = GuardPredictRaw ([] ++ LBRACE :: (joinComma (scenarioAHead.map Member.bytes)
        ++ ([] ++ scenarioATail)))
    ∧ [] ++ LBRACE :: (joinComma (scenarioAHead.map Member.bytes) ++ ([] ++ scenarioATail))
      = scenarioA
    ∧ GuardPredictRaw scenarioA = .ok () :=
  ⟨(C23_object_value_skipped [] scenarioAHead [COMMA] [] Pad.tight (bytesOf "meta")
      nestedObjectContent scenarioATail (by decide) scenarioAHead_members_valid (by decide)
      (by decide) (fun _ => by decide) (fun _ => stopsAt_cons (by decide)) (by decide)
      (by decide) (by decide) (by decide) (by decide) (by decide)
      nestedObjectContent_balanced).2,
    by decide, by decide⟩

/-! ## What an accepted buffer looks like

The converse direction: what the loops have read when they return. -/

theorem scanString_sound (buf : List Nat) :
    ∀ (fuel i : Nat) (escaped : Bool), buf.length ≤ fuel + i →
      scanString buf fuel i escaped < buf.length →
      ∃ body, buf.drop i = body ++ QUOTE :: buf.drop (scanString buf fuel i escaped + 1)
        ∧ isStringBody body escaped = true
        ∧ scanString buf fuel i escaped = i + body.length := by
  intro fuel
  induction fuel with
  | zero =>
    intro i escaped hf h
    simp only [scanString] at h
    omega
  | succ fuel ih =>
    intro i escaped hf
    unfold scanString
    by_cases hi : i < buf.length
    · have hd := drop_eq_byteAt_cons hi
      simp only [hi, if_true]
      by_cases hq : (byteAt buf i == QUOTE && !escaped) = true
      · simp only [hq, if_true]
        intro _
        simp only [Bool.and_eq_true, beq_iff_eq, Bool.not_eq_true'] at hq
        refine ⟨[], ?_, by simp [isStringBody, hq.2], by simp⟩
        rw [hd, hq.1]; rfl
      · simp only [hq, if_false, Bool.false_eq_true]
        intro h
        obtain ⟨body, h1, h2, h3⟩ := ih (i + 1) _ (by omega) h
        refine ⟨byteAt buf i :: body, ?_, ?_, ?_⟩
        · rw [hd, h1]; rfl
        · simp only [isStringBody, hq, if_false, Bool.false_eq_true]
          exact h2
        · rw [h3]; simp; omega
    · simp only [hi, if_false]
      intro h
      exact h.elim

theorem skipString_sound (buf : List Nat) :
    ∀ (fuel i : Nat) (escaped : Bool), buf.length ≤ fuel + i →
      (∃ body, buf.drop i = body ++ QUOTE :: buf.drop (skipString buf fuel i escaped)
          ∧ isStringBody body escaped = true
          ∧ skipString buf fuel i escaped = i + body.length + 1)
        ∨ (buf.length ≤ skipString buf fuel i escaped
          ∧ isOpenBody (buf.drop i) escaped = true) := by
  intro fuel
  induction fuel with
  | zero =>
    intro i escaped hf
    right
    simp only [skipString]
    exact ⟨by omega, by rw [List.drop_of_length_le (by omega)]; rfl⟩
  | succ fuel ih =>
    intro i escaped hf
    unfold skipString
    by_cases hi : i < buf.length
    · have hd := drop_eq_byteAt_cons hi
      simp only [hi, if_true]
      by_cases hq : (byteAt buf i == QUOTE && !escaped) = true
      · simp only [hq, if_true]
        left
        simp only [Bool.and_eq_true, beq_iff_eq, Bool.not_eq_true'] at hq
        refine ⟨[], ?_, by simp [isStringBody, hq.2], by simp⟩
        rw [hd, hq.1]; rfl
      · simp only [hq, if_false, Bool.false_eq_true]
        rcases ih (i + 1) (byteAt buf i == BACKSLASH && !escaped) (by omega)
          with ⟨body, h1, h2, h3⟩ | ⟨h1, h2⟩
        · left
          refine ⟨byteAt buf i :: body, ?_, ?_, ?_⟩
          · rw [hd, h1]; rfl
          · simp only [isStringBody, hq, if_false, Bool.false_eq_true]
            exact h2
          · rw [h3]; simp; omega
        · right
          refine ⟨h1, ?_⟩
          rw [hd]
          simp only [isOpenBody, hq, if_false, Bool.false_eq_true]
          exact h2
    · simp only [hi, if_false]
      right
      exact ⟨by omega, by rw [List.drop_of_length_le (by omega)]; rfl⟩

theorem closes_plain {d : Nat} {x : List Nat} (c : Nat) (h : Closes d x) (hd : 0 < d)
    (h1 : c ≠ QUOTE) (h2 : c ≠ LBRACE) (h3 : c ≠ RBRACE) : Closes d (c :: x) := by
  cases h with
  | zero => omega
  | succ d1 content rest hb hc =>
    exact Closes.succ d1 (c :: content) rest (Balanced.plain c content h1 h2 h3 hb) hc

theorem closes_string {d : Nat} {x : List Nat} (body : List Nat) (h : Closes d x) (hd : 0 < d)
    (hbody : isStringBody body false = true) : Closes d (QUOTE :: (body ++ QUOTE :: x)) := by
  cases h with
  | zero => omega
  | succ d1 content rest hb hc =>
    have := Closes.succ d1 (QUOTE :: (body ++ QUOTE :: content)) rest
      (Balanced.string body content hbody hb) hc
    simpa using this

theorem closes_open {d : Nat} {x : List Nat} (h : Closes (d + 1) x) (hd : 0 < d) :
    Closes d (LBRACE :: x) := by
  cases h with
  | succ _ content1 rest1 hb1 hc1 =>
    cases hc1 with
    | zero => omega
    | succ d2 content2 rest2 hb2 hc2 =>
      have := Closes.succ d2 (LBRACE :: (content1 ++ RBRACE :: content2)) rest2
        (Balanced.nest content1 content2 hb1 hb2) hc2
      simpa using this

theorem skipObject_of_ge (buf : List Nat) (fuel i : Nat) (depth : Int)
    (h : buf.length ≤ i) : skipObject buf fuel i depth = i := by
  cases fuel with
  | zero => rfl
  | succ f => simp [skipObject, Nat.not_lt.mpr h]

theorem skipObject_depth_zero (buf : List Nat) (fuel i : Nat) :
    skipObject buf fuel i 0 = i := by
  cases fuel with
  | zero => rfl
  | succ f => simp [skipObject]

/-- When the object skipper stops before the end of the buffer, or on it after the last
closing brace, the bytes it has passed close the braces that were open. -/
theorem skipObject_sound (buf : List Nat) :
    ∀ (fuel i d : Nat), 0 < d → buf.length ≤ fuel + i →
      (∃ consumed, buf.drop i = consumed ++ buf.drop (skipObject buf fuel i (d : Int))
          ∧ skipObject buf fuel i (d : Int) = i + consumed.length ∧ Closes d consumed)
        ∨ buf.length ≤ skipObject buf fuel i (d : Int) := by
  intro fuel
  induction fuel with
  | zero =>
    intro i d _ hf
    right
    simp only [skipObject]
    omega
  | succ fuel ih =>
    intro i d hd hf
    by_cases hi : i < buf.length
    · have hdrop := drop_eq_byteAt_cons hi
      have hpos : ((d : Int) > 0) := by exact_mod_cast hd
      unfold skipObject
      simp only [hi, hpos, decide_True, Bool.and_self, if_true]
      by_cases hq : byteAt buf i = QUOTE
      · simp only [hq, beq_self_eq_true, if_true]
        have hge := skipString_ge buf buf.length (i + 1) false
        rcases skipString_sound buf buf.length (i + 1) false (by omega)
          with ⟨body, h1, h2, h3⟩ | ⟨h1, _⟩
        · rcases ih (skipString buf buf.length (i + 1) false) d hd (by omega)
            with ⟨consumed, k1, k2, k3⟩ | k1
          · left
            refine ⟨QUOTE :: (body ++ QUOTE :: consumed), ?_, ?_, closes_string body k3 hd h2⟩
            · rw [hdrop, hq, h1, k1]; simp
            · rw [k2, h3]; simp; omega
          · right; exact k1
        · right
          rw [skipObject_of_ge buf fuel _ _ h1]
          exact h1
      · have hq' : (byteAt buf i == QUOTE) = false := by simpa using hq
        simp only [hq', Bool.false_eq_true, if_false]
        by_cases hl : byteAt buf i = LBRACE
        · have hr : (byteAt buf i == RBRACE) = false := by rw [hl]; decide
          simp only [hl, beq_self_eq_true, if_true]
          have hr2 : (LBRACE == RBRACE) = false := by decide
          simp only [hr2, Bool.false_eq_true, if_false]
          have hcast : ((d : Int) + 1) = ((d + 1 : Nat) : Int) := by push_cast; rfl
          rw [hcast]
          rcases ih (i + 1) (d + 1) (by omega) (by omega) with ⟨consumed, k1, k2, k3⟩ | k1
          · left
            refine ⟨LBRACE :: consumed, ?_, ?_, closes_open k3 hd⟩
            · rw [hdrop, hl, k1]; rfl
            · rw [k2]; simp; omega
          · right; exact k1
        · have hl' : (byteAt buf i == LBRACE) = false := by simpa using hl
          simp only [hl', Bool.false_eq_true, if_false]
          by_cases hr : byteAt buf i = RBRACE
          · simp only [hr, beq_self_eq_true, if_true]
            obtain ⟨d1, rfl⟩ : ∃ d1, d = d1 + 1 := ⟨d - 1, by omega⟩
            have hcast : (((d1 + 1 : Nat) : Int) - 1) = ((d1 : Nat) : Int) := by push_cast; ring
            rw [hcast]
            by_cases h0 : d1 = 0
            · subst h0
              left
              refine ⟨[RBRACE], ?_, ?_, ?_⟩
              · simp only [Nat.cast_zero, skipObject_depth_zero]
                rw [hdrop, hr]; rfl
              · simp only [Nat.cast_zero, skipObject_depth_zero]; rfl
              · exact Closes.succ 0 [] [] Balanced.nil Closes.zero
            · rcases ih (i + 1) d1 (by omega) (by omega) with ⟨consumed, k1, k2, k3⟩ | k1
              · left
                refine ⟨RBRACE :: consumed, ?_, ?_, ?_⟩
                · rw [hdrop, hr, k1]; rfl
                · rw [k2]; simp; omega
                · exact Closes.succ d1 [] consumed Balanced.nil k3
              · right; exact k1
          · have hr' : (byteAt buf i == RBRACE) = false := by simpa using hr
            simp only [hr', Bool.false_eq_true, if_false]
            rcases ih (i + 1) d hd (by omega) with ⟨consumed, k1, k2, k3⟩ | k1
            · left
              refine ⟨byteAt buf i :: consumed, ?_, ?_, closes_plain _ k3 hd hq hl hr⟩
              · rw [hdrop, k1]; rfl
              · rw [k2]; simp; omega
            · right; exact k1
    · right
      rw [skipObject_of_ge buf _ _ _ (by omega)]
      omega

theorem parseDigits_cursor (buf : List Nat) :
    ∀ (fuel i : Nat) (n : Int),
      (parseDigits buf fuel i n).1 = advanceWhile isDigit buf fuel i := by
  intro fuel
  induction fuel with
  | zero => intro i n; rfl
  | succ fuel ih =>
    intro i n
    unfold parseDigits advanceWhile
    split
    · exact ih (i + 1) _
    · rfl

theorem take_length_append (a b : List Nat) : (a ++ b).take a.length = a := by
  simp

/-- What the head of an iteration has read when it finds a key: a gap of white space
and commas, the key string, and the colon with white space around it. -/
theorem parseKey_sound_key (buf : List Nat) (i0 j : Nat) (k : List Nat)
    (h : parseKey buf i0 = .key k j) :
    ∃ seps wsA wsB,
      buf.drop i0 = seps ++ QUOTE :: (k ++ QUOTE :: (wsA ++ COLON :: (wsB ++ buf.drop j)))
        ∧ (∀ x ∈ seps, isSpaceOrComma x = true) ∧ isStringBody k false = true
        ∧ allSpace wsA = true ∧ allSpace wsB = true ∧ j < buf.length := by
  obtain ⟨seps, s1, s2, _, _⟩ := advanceWhile_run isSpaceOrComma buf buf.length i0 (by omega)
  unfold parseKey skipSpacesCommas skipSpaces at h
  simp only at h
  generalize advanceWhile isSpaceOrComma buf buf.length i0 = a at h s1
  by_cases h1 : a ≥ buf.length
  · simp only [h1, if_true] at h; cases h
  · have ha : a < buf.length := by omega
    simp only [h1, if_false] at h
    by_cases h2 : (byteAt buf a == RBRACE) = true
    · simp only [h2, if_true] at h; cases h
    · simp only [h2, if_false, Bool.false_eq_true] at h
      by_cases h3 : (byteAt buf a != QUOTE) = true
      · simp only [h3, if_true] at h; cases h
      · simp only [h3, if_false, Bool.false_eq_true] at h
        have hq : byteAt buf a = QUOTE := by simpa using h3
        have hda := drop_eq_byteAt_cons ha
        rw [hq] at hda
        by_cases h4 : scanString buf buf.length (a + 1) false ≥ buf.length
        · simp only [h4, if_true] at h; cases h
        · have he : scanString buf buf.length (a + 1) false < buf.length := by omega
          simp only [h4, if_false] at h
          obtain ⟨body, b1, b2, b3⟩ := scanString_sound buf buf.length (a + 1) false (by omega) he
          obtain ⟨wsA, w1, w2, _, _⟩ := advanceWhile_run isSpace buf buf.length
            (scanString buf buf.length (a + 1) false + 1) (by omega)
          have hkey : (buf.drop (a + 1)).take (scanString buf buf.length (a + 1) false - (a + 1))
              = body := by
            rw [b1, b3, Nat.add_sub_cancel_left]
            exact take_length_append _ _
          rw [hkey] at h
          generalize scanString buf buf.length (a + 1) false = e at h b1 w1
          generalize advanceWhile isSpace buf buf.length (e + 1) = c at h w1
          by_cases h5 : (decide (c ≥ buf.length) || byteAt buf c != COLON) = true
          · simp only [h5, if_true] at h; cases h
          · simp only [h5, if_false, Bool.false_eq_true] at h
            simp only [Bool.or_eq_true, decide_eq_true_eq, not_or, Bool.not_eq_true,
              bne_eq_false_iff_eq] at h5
            have hc : c < buf.length := by omega
            have hdc := drop_eq_byteAt_cons hc
            rw [h5.2] at hdc
            obtain ⟨wsB, v1, v2, _, _⟩ := advanceWhile_run isSpace buf buf.length (c + 1)
              (by omega)
            generalize advanceWhile isSpace buf buf.length (c + 1) = w at h v1
            by_cases h6 : w ≥ buf.length
            · simp only [h6, if_true] at h; cases h
            · simp only [h6, if_false] at h
              injection h with hk hj
              subst hk
              subst hj
              refine ⟨seps, wsA, wsB, ?_, s2, b2, allSpace_iff.mpr w2, allSpace_iff.mpr v2,
                by omega⟩
              rw [s1, hda, b1, w1, hdc, v1]

/-- What the head of an iteration has read when it leaves the loop: a gap of white space
and commas, and then the end of the buffer or a closing brace. -/
theorem parseKey_sound_stop (buf : List Nat) (i0 j : Nat) (h : parseKey buf i0 = .stop j) :
    ∃ seps rest, buf.drop i0 = seps ++ rest ∧ (∀ x ∈ seps, isSpaceOrComma x = true)
      ∧ (rest = [] ∨ ∃ t, rest = RBRACE :: t) := by
  obtain ⟨seps, s1, s2, _, _⟩ := advanceWhile_run isSpaceOrComma buf buf.length i0 (by omega)
  unfold parseKey skipSpacesCommas skipSpaces at h
  simp only at h
  generalize advanceWhile isSpaceOrComma buf buf.length i0 = a at h s1
  by_cases h1 : a ≥ buf.length
  · refine ⟨seps, _, s1, s2, Or.inl (List.drop_of_length_le h1)⟩
  · have ha : a < buf.length := by omega
    simp only [h1, if_false] at h
    by_cases h2 : (byteAt buf a == RBRACE) = true
    · have hda := drop_eq_byteAt_cons ha
      rw [beq_iff_eq.mp h2] at hda
      exact ⟨seps, _, s1, s2, Or.inr ⟨_, hda⟩⟩
    · simp only [h2, if_false, Bool.false_eq_true] at h
      split_ifs at h

theorem closes_one {x : List Nat} (h : Closes 1 x) :
    ∃ content, x = content ++ [RBRACE] ∧ Balanced content := by
  cases h with
  | succ _ content rest hb hc =>
    cases hc
    exact ⟨content, rfl, hb⟩

theorem countArrayItemsAndEnd_sound_ok (buf : List Nat) (start : Nat)
    (hlt : start < buf.length) (hopen : byteAt buf start = LBRACKET)
    (hok : (countArrayItemsAndEnd buf start).2.2 = true) :
    ∃ items k, buf.drop start
        = LBRACKET :: (items ++ RBRACKET :: buf.drop (countArrayItemsAndEnd buf start).2.1)
      ∧ FlatItems items k := by
  have heq : countArrayItemsAndEnd buf start
      = ((countArrayItemsAndEnd buf start).1, (countArrayItemsAndEnd buf start).2.1, true) := by
    rw [← hok]
  obtain ⟨items, k, h1, h2, _, _⟩ := countArrayItemsAndEnd_sound buf start _ _ hlt hopen heq
  exact ⟨items, k, h1, h2⟩

/-- What a successful `switch` on the key has read: a complete value of the key, or,
under an unrecognized key, an open string or object up to the end of the buffer. -/
theorem checkValue_sound (buf key : List Nat) (j j1 : Nat) (st st1 : ScanState)
    (hj : j < buf.length) (h : checkValue buf key j st = .next j1 st1) :
    (∃ v, buf.drop j = v ++ buf.drop j1 ∧ CompleteValue key v (buf.drop j1))
      ∨ (key ≠ keyUserId ∧ key ≠ keySessionId ∧ key ≠ keyTimestamp ∧ key ≠ keyFeatures
        ∧ st1 = st ∧ buf.length ≤ j1 ∧ OpenValue (buf.drop j)) := by
  have hdj := drop_eq_byteAt_cons hj
  unfold checkValue at h
  by_cases hk1 : key = keyUserId
  · left
    simp only [hk1, if_true] at h
    by_cases h1 : (byteAt buf j != QUOTE) = true
    · simp only [h1, if_true] at h; cases h
    · simp only [h1, if_false, Bool.false_eq_true] at h
      have hq : byteAt buf j = QUOTE := by simpa using h1
      by_cases h2 : scanString buf buf.length (j + 1) false ≥ buf.length
      · simp only [h2, if_true] at h; cases h
      · simp only [h2, if_false] at h
        obtain ⟨body, b1, b2, _⟩ := scanString_sound buf buf.length (j + 1) false (by omega)
          (by omega)
        split_ifs at h
        injection h with hj1 _
        subst hj1
        refine ⟨QUOTE :: (body ++ [QUOTE]), ?_, ?_⟩
        · rw [hdj, hq, b1]; simp
        · rw [hk1]; exact CompleteValue.id _ body _ (Or.inl rfl) b2
  · simp only [hk1, if_false] at h
    by_cases hk2 : key = keySessionId
    · left
      simp only [hk2, if_true] at h
      by_cases h1 : (byteAt buf j != QUOTE) = true
      · simp only [h1, if_true] at h; cases h
      · simp only [h1, if_false, Bool.false_eq_true] at h
        have hq : byteAt buf j = QUOTE := by simpa using h1
        by_cases h2 : scanString buf buf.length (j + 1) false ≥ buf.length
        · simp only [h2, if_true] at h; cases h
        · simp only [h2, if_false] at h
          obtain ⟨body, b1, b2, _⟩ := scanString_sound buf buf.length (j + 1) false (by omega)
            (by omega)
          split_ifs at h
          injection h with hj1 _
          subst hj1
          refine ⟨QUOTE :: (body ++ [QUOTE]), ?_, ?_⟩
          · rw [hdj, hq, b1]; simp
          · rw [hk2]; exact CompleteValue.id _ body _ (Or.inr rfl) b2
    · simp only [hk2, if_false] at h
      by_cases hk3 : key = keyTimestamp
      · left
        simp only [hk3, if_true] at h
        obtain ⟨i1, hi1⟩ : ∃ i1, i1 = (if (byteAt buf j == MINUS) = true then j + 1 else j) :=
          ⟨_, rfl⟩
        rw [← hi1] at h
        by_cases h1 : (decide (i1 ≥ buf.length) || !isDigit (byteAt buf i1)) = true
        · simp only [h1, if_true] at h; cases h
        · simp only [h1, if_false, Bool.false_eq_true] at h
          simp only [Bool.or_eq_true, decide_eq_true_eq, not_or, Bool.not_eq_true',
            Bool.not_eq_false] at h1
          have hlt1 : i1 < buf.length := by omega
          have hdig : isDigit (byteAt buf i1) = true := by
            have := h1.2
            simpa using this
          have hj1 : (parseDigits buf buf.length i1 0).1 = j1 := by
            split_ifs at h <;> injection h
          rw [parseDigits_cursor] at hj1
          obtain ⟨run, r1, r2, r3, r4⟩ := advanceWhile_run isDigit buf buf.length i1 (by omega)
          rw [hj1] at r1 r3 r4
          have hne : run ≠ [] := by
            intro hnil
            subst hnil
            simp only [List.length_nil, Nat.add_zero] at r3
            rw [r3, drop_eq_byteAt_cons hlt1] at r4
            have := r4 (byteAt buf i1) (by simp)
            rw [hdig] at this
            cases this
          by_cases hm : (byteAt buf j == MINUS) = true
          · rw [if_pos hm] at hi1
            refine ⟨[MINUS] ++ run, ?_, ?_⟩
            · rw [hdj, beq_iff_eq.mp hm, ← hi1, r1]; rfl
            · rw [hk3]; exact CompleteValue.timestamp [MINUS] run _ (Or.inr rfl) hne r2 r4
          · rw [if_neg hm] at hi1
            refine ⟨[] ++ run, ?_, ?_⟩
            · rw [← hi1, r1]; rfl
            · rw [hk3]; exact CompleteValue.timestamp [] run _ (Or.inl rfl) hne r2 r4
      · simp only [hk3, if_false] at h
        by_cases hk4 : key = keyFeatures
        · left
          simp only [hk4, if_true] at h
          by_cases h1 : (byteAt buf j != LBRACKET) = true
          · simp only [h1, if_true] at h; cases h
          · simp only [h1, if_false, Bool.false_eq_true] at h
            have hq : byteAt buf j = LBRACKET := by simpa using h1
            by_cases hok : (countArrayItemsAndEnd buf j).2.2 = true
            · obtain ⟨items, k, a1, a2⟩ := countArrayItemsAndEnd_sound_ok buf j hj hq hok
              split_ifs at h
              injection h with hj1 _
              subst hj1
              refine ⟨LBRACKET :: (items ++ [RBRACKET]), ?_, ?_⟩
              · rw [a1]; simp
              · rw [hk4]; exact CompleteValue.features items k _ a2
            · simp only [Bool.not_eq_true] at hok
              simp only [hok, Bool.not_false, if_true] at h
              cases h
        · simp only [hk4, if_false] at h
          by_cases h1 : (byteAt buf j == QUOTE) = true
          · simp only [h1, if_true] at h
            injection h with hj1 hst
            subst hj1
            have hq := beq_iff_eq.mp h1
            rcases skipString_sound buf buf.length (j + 1) false (by omega)
              with ⟨body, b1, b2, _⟩ | ⟨b1, b2⟩
            · left
              refine ⟨QUOTE :: (body ++ [QUOTE]), ?_, ?_⟩
              · rw [hdj, hq, b1]; simp
              · exact CompleteValue.other _ _ _ hk1 hk2 hk3 hk4 (SkippedValue.string body _ b2)
            · right
              refine ⟨hk1, hk2, hk3, hk4, hst.symm, b1, Or.inl ⟨_, ?_, b2⟩⟩
              rw [hdj, hq]
          · simp only [h1, if_false, Bool.false_eq_true] at h
            by_cases h2 : (byteAt buf j == LBRACE) = true
            · simp only [h2, if_true] at h
              injection h with hj1 hst
              subst hj1
              have hq := beq_iff_eq.mp h2
              by_cases hcl : ∃ c rest, buf.drop (j + 1) = c ++ RBRACE :: rest ∧ Balanced c
              · obtain ⟨c, rest, c1, c2⟩ := hcl
                left
                have hskip := skipObject_closed buf c2 rest (j + 1) c1
                refine ⟨LBRACE :: (c ++ [RBRACE]), ?_, ?_⟩
                · rw [hskip, hdj, hq, c1]
                  have := drop_add_of_drop_append (a := c ++ [RBRACE]) (s := rest)
                    (by simpa using c1)
                  simp only [List.length_append, List.length_singleton] at this
                  rw [show j + 1 + c.length + 1 = j + 1 + (c.length + 1) from by omega, this]
                  simp
                · exact CompleteValue.other _ _ _ hk1 hk2 hk3 hk4 (SkippedValue.object c _ c2)
              · right
                refine ⟨hk1, hk2, hk3, hk4, hst.symm, ?_, Or.inr ⟨_, ?_, hcl⟩⟩
                · rcases skipObject_sound buf buf.length (j + 1) 1 (by omega) (by omega)
                    with ⟨consumed, k1, _, k3⟩ | k1
                  · exfalso
                    obtain ⟨content, e1, e2⟩ := closes_one k3
                    apply hcl
                    refine ⟨content, buf.drop (skipObject buf buf.length (j + 1) ((1 : Nat) : Int)),
                      ?_, e2⟩
                    rw [e1] at k1
                    simpa using k1
                  · simpa using k1
                · rw [hdj, hq]
            · simp only [h2, if_false, Bool.false_eq_true] at h
              left
              by_cases h3 : (byteAt buf j == LBRACKET) = true
              · simp only [h3, if_true] at h
                have hq := beq_iff_eq.mp h3
                by_cases hok : (countArrayItemsAndEnd buf j).2.2 = true
                · obtain ⟨items, k, a1, a2⟩ := countArrayItemsAndEnd_sound_ok buf j hj hq hok
                  simp only [hok, Bool.not_true, Bool.false_eq_true, if_false] at h
                  injection h with hj1 _
                  subst hj1
                  refine ⟨LBRACKET :: (items ++ [RBRACKET]), ?_, ?_⟩
                  · rw [a1]; simp
                  · exact CompleteValue.other _ _ _ hk1 hk2 hk3 hk4
                      (SkippedValue.array items k _ a2)
                · simp only [Bool.not_eq_true] at hok
                  simp only [hok, Bool.not_false, if_true] at h
                  cases h
              · simp only [h3, if_false, Bool.false_eq_true] at h
                injection h with hj1 _
                unfold skipScalar at hj1
                obtain ⟨run, r1, r2, _, r4⟩ :=
                  advanceWhile_run isScalarByte buf buf.length j (by omega)
                rw [hj1] at r1 r4
                refine ⟨run, r1, CompleteValue.other _ _ _ hk1 hk2 hk3 hk4
                  (SkippedValue.scalar run _ r2 ?_ r4)⟩
                intro c hc
                cases run with
                | nil => simp at hc
                | cons c0 t =>
                  simp only [List.head?_cons, Option.mem_def, Option.some.injEq] at hc
                  subst hc
                  rw [hdj] at r1
                  simp only [List.cons_append] at r1
                  injection r1 with hc0 _
                  rw [← hc0]
                  exact ⟨by simpa using h1, by simpa using h2, by simpa using h3⟩

/-- What the pair loop has read when it returns without an error: complete top-level
pairs with gaps of white space and commas in front of them, and then an ending; and the
flags that it has set belong to keys of these pairs. -/
theorem mainLoop_sound (buf : List Nat) :
    ∀ (fuel i : Nat) (st : ScanState) (r : Nat × ScanState), buf.length ≤ fuel + i →
      mainLoop buf fuel i st = .ok r →
      ∃ items tail, buf.drop i = itemsBytes items ++ tail ∧ ItemsOk items tail
        ∧ GapsOk items ∧ Ending tail
        ∧ ∀ f : Field, r.2.has f = true → st.has f = true ∨ ∃ it ∈ items, it.key = f.key := by
  intro fuel
  induction fuel with
  | zero =>
    intro i st r hf h
    simp only [mainLoop, Except.ok.injEq] at h
    subst h
    refine ⟨[], [], ?_, trivial, ?_, ⟨[], [], rfl, by simp, Or.inl rfl⟩,
      fun f hfl => Or.inl hfl⟩
    · rw [List.drop_of_length_le (by omega)]; rfl
    · intro it hit; simp at hit
  | succ fuel ih =>
    intro i st r hf h
    unfold mainLoop at h
    by_cases hi : i < buf.length
    · simp only [hi, if_true, pairStep] at h
      cases hk : parseKey buf i with
      | stop j =>
        simp only [hk, Except.ok.injEq] at h
        subst h
        obtain ⟨seps, rest, s1, s2, s3⟩ := parseKey_sound_stop buf i j hk
        refine ⟨[], buf.drop i, rfl, trivial, ?_, ⟨seps, rest, s1, s2, ?_⟩,
          fun f hfl => Or.inl hfl⟩
        · intro it hit; simp at hit
        · rcases s3 with s3 | s3
          · exact Or.inl s3
          · exact Or.inr (Or.inl s3)
      | fail msg => simp [hk] at h
      | key k j =>
        simp only [hk] at h
        obtain ⟨seps, wsA, wsB, p1, p2, p3, p4, p5, p6⟩ := parseKey_sound_key buf i j k hk
        have hadv := parseKey_advance buf i j k hk
        cases hc : checkValue buf k j st with
        | stop j1 st1 => exact absurd hc (checkValue_ne_stop buf k j j1 st st1)
        | fail msg => simp [hc] at h
        | next j1 st1 =>
          simp only [hc] at h
          have hadv2 := checkValue_advance buf k j j1 st st1 hc
          rcases checkValue_sound buf k j j1 st st1 p6 hc with
            ⟨v, v1, v2⟩ | ⟨n1, n2, n3, n4, hst, hlen, hopen⟩
          · obtain ⟨items, tail, q1, q2, q3, q4, q5⟩ := ih j1 st1 r (by omega) h
            refine ⟨⟨seps, k, wsA, wsB, v⟩ :: items, tail, ?_, ⟨⟨p3, p4, p5, ?_⟩, q2⟩, ?_, q4, ?_⟩
            · rw [p1, v1, q1]
              simp [itemsBytes, Item.bytes, Item.pair]
            · rw [← q1]; exact v2
            · intro it hit
              rcases List.mem_cons.mp hit with rfl | hit
              · exact p2
              · exact q3 it hit
            · intro f hfl
              rcases q5 f hfl with h1 | ⟨it, hit, hkey⟩
              · rcases checkValue_has buf k j j1 st st1 hc f h1 with h2 | h2
                · exact Or.inl h2
                · exact Or.inr ⟨⟨seps, k, wsA, wsB, v⟩, List.mem_cons_self _ _, h2⟩
              · exact Or.inr ⟨it, List.mem_cons_of_mem _ hit, hkey⟩
          · rw [mainLoop_of_ge buf fuel j1 st1 hlen] at h
            simp only [Except.ok.injEq] at h
            subst h
            subst hst
            refine ⟨[], buf.drop i, rfl, trivial, ?_, ⟨seps, _, p1, p2, Or.inr (Or.inr
              ⟨k, wsA, wsB, buf.drop j, rfl, p3, p4, p5, n1, n2, n3, n4, hopen⟩)⟩,
              fun f hfl => Or.inl hfl⟩
            intro it hit; simp at hit
    · simp only [hi, if_false, Except.ok.injEq] at h
      subst h
      refine ⟨[], [], ?_, trivial, ?_, ⟨[], [], rfl, by simp, Or.inl rfl⟩,
        fun f hfl => Or.inl hfl⟩
      · rw [List.drop_of_length_le (by omega)]; rfl
      · intro it hit; simp at hit

/-- The shape of an accepted buffer: white space, an opening brace, complete top-level
pairs with gaps of white space and commas in front of them, among them a pair of each
required key, and an ending. -/
theorem guard_sound (buf : List Nat) (h : GuardPredictRaw buf = .ok ()) :
    ∃ lead items tail, buf = lead ++ LBRACE :: (itemsBytes items ++ tail)
      ∧ allSpace lead = true ∧ ItemsOk items tail ∧ GapsOk items ∧ Ending tail
      ∧ ∀ f : Field, ∃ it ∈ items, it.key = f.key := by
  obtain ⟨lead, l1, l2, _, _⟩ := advanceWhile_run isSpace buf buf.length 0 (by omega)
  unfold GuardPredictRaw skipSpaces at h
  simp only at h
  generalize advanceWhile isSpace buf buf.length 0 = i at h l1
  by_cases hc : (decide (i ≥ buf.length) || byteAt buf i != LBRACE) = true
  · simp only [hc, if_true] at h; cases h
  · simp only [hc, if_false, Bool.false_eq_true] at h
    simp only [Bool.or_eq_true, decide_eq_true_eq, not_or, Bool.not_eq_true,
      bne_eq_false_iff_eq] at hc
    have hi : i < buf.length := by omega
    have hdi := drop_eq_byteAt_cons hi
    rw [hc.2] at hdi
    cases hm : mainLoop buf buf.length (i + 1) ScanState.init with
    | error msg => simp [hm] at h
    | ok r =>
      simp only [hm] at h
      obtain ⟨items, tail, q1, q2, q3, q4, q5⟩ := mainLoop_sound buf _ _ _ r (by omega) hm
      refine ⟨lead, items, tail, ?_, allSpace_iff.mpr l2, q2, q3, q4, ?_⟩
      · have := l1
        rw [List.drop_zero, hdi, q1] at this
        exact this
      · intro f
        rcases q5 f (finalCheck_ok r.2 h f) with h1 | h1
        · cases f <;> simp [ScanState.has, ScanState.init] at h1
        · exact h1

/-- Claim C9, amended. If `GuardPredictRaw` returns success on a buffer, then the buffer
is white space, an opening brace, a sequence of complete top-level pairs, each behind a
gap of white space and commas, and further bytes, and each of the four required keys
`user_id`, `session_id`, `timestamp` and `features` is the key of at least one of these
pairs. -/
theorem C9_required_keys_are_top_level_keys (buf : List Nat)
    (h : GuardPredictRaw buf = .ok ()) :
    ∃ lead items tail, buf = lead ++ LBRACE :: (itemsBytes items ++ tail)
      ∧ allSpace lead = true ∧ ItemsOk items tail ∧ GapsOk items
      ∧ ∀ f : Field, 1 ≤ (items.map Item.key).count f.key := by
  obtain ⟨lead, items, tail, h1, h2, h3, h4, _, h6⟩ := guard_sound buf h
  refine ⟨lead, items, tail, h1, h2, h3, h4, fun f => ?_⟩
  obtain ⟨it, hit, hkey⟩ := h6 f
  exact List.count_pos_iff.mpr (hkey ▸ List.mem_map_of_mem Item.key hit)

set_option maxRecDepth 100000 in
/-- Scenario A is accepted, and it is an opening brace, the four pairs of
`scenarioAItems`, and a closing brace. -/
theorem C9_required_keys_are_top_level_keys_witness :
    (∃ lead items tail, scenarioA = lead ++ LBRACE :: (itemsBytes items ++ tail)
        ∧ allSpace lead = true ∧ ItemsOk items tail ∧ GapsOk items
        ∧ ∀ f : Field, 1 ≤ (items.map Item.key).count f.key)
      ∧ scenarioA = [] ++ LBRACE :: (itemsBytes scenarioAItems ++ [RBRACE]) :=
  ⟨C9_required_keys_are_top_level_keys scenarioA (by decide), by decide⟩

/-- Claim C19, amended. If `GuardPredictRaw` returns success on a buffer, then the buffer
is white space, an opening brace, a sequence of complete top-level pairs, and an ending;
what stands in front of each pair (after `'{'`, and between the end of a value and the
next key) is white space and commas only, in any number, and so is what stands between
the last complete pair and the closing brace, the end of the buffer, or a last pair
whose value is open. -/
theorem C19_pairs_separated_by_space_or_commas (buf : List Nat)
    (h : GuardPredictRaw buf = .ok ()) :
    ∃ lead items tail, buf = lead ++ LBRACE :: (itemsBytes items ++ tail)
      ∧ allSpace lead = true ∧ ItemsOk items tail ∧ Ending tail
      ∧ ∀ it ∈ items, ∀ x ∈ it.gap, isSpaceOrComma x = true := by
  obtain ⟨lead, items, tail, h1, h2, h3, h4, h5, _⟩ := guard_sound buf h
  exact ⟨lead, items, tail, h1, h2, h3, h5, h4⟩

set_option maxRecDepth 100000 in
/-- The buffer of the counterexample, with a leading comma, no comma after `user_id` and
two commas after `session_id`, is accepted, and so it has the shape of the amended C19;
it is an opening brace, the four pairs of `scenarioAOddCommasItems`, and a closing
brace. -/
theorem C19_pairs_separated_by_space_or_commas_witness :
    (∃ lead items tail, scenarioAOddCommas = lead ++ LBRACE :: (itemsBytes items ++ tail)
        ∧ allSpace lead = true ∧ ItemsOk items tail ∧ Ending tail
        ∧ ∀ it ∈ items, ∀ x ∈ it.gap, isSpaceOrComma x = true)
      ∧ scenarioAOddCommas = [] ++ LBRACE :: (itemsBytes scenarioAOddCommasItems ++ [RBRACE]) :=
  ⟨C19_pairs_separated_by_space_or_commas scenarioAOddCommas (by decide), by decide⟩

end JSONInputGuard
